import Mathlib

/-!
# Akumuli ingestion pipeline and page: a shallow embedding

The first part of the definitions follows `akumulid/ingestion_pipeline.cpp`.
Threads are modelled by an explicit interleaving: every producer (one per
spout), the single worker and the caller of `stop()` own a control state, and
an `Event` lets one of them take its next step.  The header
`ingestion_pipeline.h` is not part of the sources, so the constants it
declares are parameters.

The second part follows the declarations of `include/page.h`; the bodies of
the page operations are not part of the sources and are modelled from the
specification.
-/

namespace Akumuli

/-! ## Data model -/

/-- Modelled from the spec: the status taxonomy of section 6 (the header
`akumuli_def.h` with the numeric codes is not part of the sources).  The
only distinction the pipeline makes is `AKU_SUCCESS` against the rest. -/
inductive aku_Status
  | AKU_SUCCESS
  | Busy
  | Overflow
  | NotFound
  | BadArg
  | Corruption
  | IoError
  | Fatal
deriving DecidableEq, Repr

/-- Modelled from the spec: a sample is a triple of series id, timestamp and
payload (`akumuli.h` is not part of the sources).  The pipeline copies
samples and never looks inside them; the payload is kept as raw bits. -/
structure aku_Sample where
  paramid : Nat
  timestamp : Nat
  payload : Nat
deriving DecidableEq, Repr, Inhabited

/-- Modelled from the spec: the constants `POOL_SIZE`, `QCAP` (both of
`PipelineSpout`) and `N_QUEUES`, declared in `ingestion_pipeline.h`. -/
structure Constants where
  POOL_SIZE : Nat
  QCAP : Nat
  N_QUEUES : Nat
deriving DecidableEq, Repr

/-- The constants are C++ enumerators: they fit in an `int`, and the number
of queues is not zero (the code divides by it). -/
def Constants.WellFormed (K : Constants) : Prop :=
  0 < K.N_QUEUES ∧ K.N_QUEUES < 2 ^ 31 ∧ K.POOL_SIZE < 2 ^ 31

instance (K : Constants) : Decidable K.WellFormed := by
  unfold Constants.WellFormed; infer_instance

/-- Modelled from the spec: the two back-off policies of section 4.4. -/
inductive BackoffPolicy
  | AKU_LINEAR_BACKOFF
  | AKU_THROTTLE
deriving DecidableEq, Repr

/-- A value of type `TVal*`: either the address of the static `POISON`
object or the address of slot `ix` of the pool of spout number `spout`. -/
inductive TValPtr
  | POISON
  | slot (spout : Nat) (ix : Nat)
deriving DecidableEq, Repr

/-- The struct `PipelineSpout::TVal`.  `cnt` points to the `deleted_`
counter of a spout and `on_error` to the `on_error_` member of a spout;
both pointers are given by the number of that spout, `none` is `nullptr`. -/
structure TVal where
  sample : aku_Sample
  cnt : Option Nat
  on_error : Option Nat
deriving DecidableEq, Repr

/-- The object `IngestionPipeline::POISON`: `new TVal{{}, nullptr, nullptr}`. -/
def POISON : TVal := { sample := default, cnt := none, on_error := none }

/-- Control state of the thread that owns a spout, inside
`PipelineSpout::write`. -/
inductive WritePc
  /-- not inside `write` -/
  | idle
  /-- inside the `while (ix < 0)` loop, before the next call of
  `get_index_of_empty_slot` -/
  | retry (sample : aku_Sample)
  /-- holds slot `ix`, before the three stores into `pool_.at(ix)` -/
  | claimed (ix : Nat) (sample : aku_Sample)
  /-- slot `ix` is filled, inside the `while (!queue_->push(pvalue))` loop -/
  | pushing (ix : Nat) (sample : aku_Sample)
deriving DecidableEq, Repr

/-- The class `PipelineSpout`.  `queue_` is the number of the pipeline queue
the spout shares, `on_error_` is the registered callback (`none` until
`set_error_cb` is called).

Modelled from the spec: `SpoutCounter`, the type of `created_` and
`deleted_`, is declared in `ingestion_pipeline.h`; the spec calls them
monotonic counts, so they are natural numbers here.

The last three fields are observations, not program state: the samples this
spout has pushed, the number of `write` calls that returned and the number of
those that returned without pushing. -/
structure PipelineSpout where
  created_ : Nat
  deleted_ : Nat
  pool_ : Nat → TVal
  queue_ : Nat
  backoff_ : BackoffPolicy
  on_error_ : Option Nat
  pc : WritePc
  pushed : List aku_Sample
  returned : Nat
  dropped : Nat

/-- Unsigned 64-bit subtraction, the `created_ - deleted_` of
`get_index_of_empty_slot`: it wraps when the second operand is larger. -/
def usub64 (a b : Nat) : Nat := (((a : Int) - (b : Int)) % (2 ^ 64 : Int)).toNat

/-- The constructor of `PipelineSpout`: zero counters and a pool of
value-initialised slots. -/
def PipelineSpout.new (q : Nat) (bp : BackoffPolicy) : PipelineSpout :=
  { created_ := 0
    deleted_ := 0
    pool_ := fun _ => { sample := default, cnt := none, on_error := none }
    queue_ := q
    backoff_ := bp
    on_error_ := none
    pc := WritePc.idle
    pushed := []
    returned := 0
    dropped := 0 }

/-- The method `PipelineSpout::set_error_cb`. -/
def PipelineSpout.set_error_cb (sp : PipelineSpout) (cb : Nat) : PipelineSpout :=
  { sp with on_error_ := some cb }

/-- The method `PipelineSpout::get_index_of_empty_slot`: the returned `int`
and the spout afterwards.  It is one step of the model: only the producer
changes `created_`, and between the test and the increment the worker can at
most increase `deleted_`. -/
def PipelineSpout.get_index_of_empty_slot (K : Constants) (sp : PipelineSpout) :
    Int × PipelineSpout :=
  if usub64 sp.created_ sp.deleted_ < K.POOL_SIZE then
    (((sp.created_ % K.POOL_SIZE : Nat) : Int), { sp with created_ := sp.created_ + 1 })
  else
    (-1, sp)

/-- Control state of the worker thread inside the write loop. -/
inductive WorkerPhase
  /-- at the head of the loop body, before `queues.at(ix % N_QUEUES)` -/
  | poll
  /-- a slot that is not poison was popped, before `con_->write` -/
  | popped (val : TValPtr)
  /-- `con_->write` returned `error`, before `(*val->cnt)++` -/
  | written (val : TValPtr) (error : aku_Status)
  /-- the worker reached `stopbar_.wait()` and returned -/
  | stopped
  /-- an exception left the loop (the `catch (...)` block rethrows it) -/
  | crashed
deriving DecidableEq, Repr

/-- The local variables of the worker lambda.  `sleeps` counts the calls of
`sleep_for` and `lost_warnings` the "Queue not empty" messages; both are
observations. -/
structure Worker where
  ix : Int
  poison_cnt : Int
  idle_count : Int
  phase : WorkerPhase
  sleeps : Nat
  lost_warnings : Nat
deriving DecidableEq, Repr

/-- The interface `DbConnection` as the worker uses it: the status of a
`write` may depend on the sample and on everything written before. -/
structure DbConnection where
  write : List aku_Sample → aku_Sample → aku_Status

/-- The class `IngestionPipeline` together with the spouts made from it:
`spouts s` for `s < nspouts` is the spout the `s`-th call of `make_spout`
returned, and `queues_ q` for `q < N_QUEUES` is the content of queue `q`.

Modelled from the spec: a queue (`PipelineSpout::Queue`, a library type) is
a FIFO of capacity `QCAP`: its content is a list, `push` appends at the tail
and fails on a full queue, `pop` removes the head.  The type of `ixmake_` is
declared in `ingestion_pipeline.h`; it is a natural number here.

`stop_ix` is the control state of the caller of `stop()`: `none` before the
call, `some i` when poison has been pushed onto the first `i` queues.
`written` is what the storage connection has received, each sample with the
pointer it was read through, and `on_error_calls` lists the callback
invocations (callback, status, count); both are observations. -/
structure IngestionPipeline where
  ixmake_ : Nat
  queues_ : Nat → List TValPtr
  backoff_ : BackoffPolicy
  spouts : Nat → PipelineSpout
  nspouts : Nat
  worker : Worker
  stop_ix : Option Nat
  written : List (TValPtr × aku_Sample)
  on_error_calls : List (Nat × aku_Status × Nat)

/-- The constructor of `IngestionPipeline`, with the worker at the start of
its loop. -/
def IngestionPipeline.new (bp : BackoffPolicy) : IngestionPipeline :=
  { ixmake_ := 0
    queues_ := fun _ => []
    backoff_ := bp
    spouts := fun _ => PipelineSpout.new 0 bp
    nspouts := 0
    worker := { ix := 0, poison_cnt := 0, idle_count := 0, phase := WorkerPhase.poll,
                sleeps := 0, lost_warnings := 0 }
    stop_ix := none
    written := []
    on_error_calls := [] }

/-- The bounds-checked `queues_.at(i)` for an `int` index: the number of the
queue, or `none` when `std::out_of_range` is thrown (a negative `int` is
converted to a huge `size_t`). -/
def queues_at (K : Constants) (i : Int) : Option Nat :=
  if 0 ≤ i ∧ i < (K.N_QUEUES : Int) then some i.toNat else none

/-- Dereference of a `TVal*`. -/
def IngestionPipeline.deref (st : IngestionPipeline) : TValPtr → TVal
  | TValPtr.POISON => POISON
  | TValPtr.slot s i => (st.spouts s).pool_ i

/-- Increment of an `int`, wrapping in 32 bits. -/
def wrap32 (x : Int) : Int := (x + 2 ^ 31) % 2 ^ 32 - 2 ^ 31

/-- The method `IngestionPipeline::make_spout`. -/
def IngestionPipeline.make_spout (K : Constants) (st : IngestionPipeline) :
    IngestionPipeline :=
  let ixmake := st.ixmake_ + 1
  match queues_at K ((ixmake % K.N_QUEUES : Nat) : Int) with
  | none => { st with ixmake_ := ixmake }
  | some q =>
    { st with
      ixmake_ := ixmake
      spouts := Function.update st.spouts st.nspouts (PipelineSpout.new q st.backoff_)
      nspouts := st.nspouts + 1 }

/-- Entry of `PipelineSpout::write` up to the first test of `ix < 0`. -/
def PipelineSpout.write_enter (K : Constants) (sp : PipelineSpout) (sample : aku_Sample) :
    PipelineSpout :=
  let r := sp.get_index_of_empty_slot K
  if r.1 < 0 then { r.2 with pc := WritePc.retry sample }
  else { r.2 with pc := WritePc.claimed r.1.toNat sample }

/-- One step of the producer of spout `s` inside `PipelineSpout::write`: the
next call of `get_index_of_empty_slot` in the `while (ix < 0)` loop with the
back-off that follows it, the three stores into the claimed slot, or one
attempt to push.  (`pool_.at(ix)` does not throw: `ix` is a remainder modulo
`POOL_SIZE`, the size of the pool.) -/
def IngestionPipeline.write_step (K : Constants) (st : IngestionPipeline) (s : Nat) :
    IngestionPipeline :=
  let sp := st.spouts s
  match sp.pc with
  | WritePc.idle => st
  | WritePc.retry x =>
    let r := sp.get_index_of_empty_slot K
    if r.1 < 0 then
      match sp.backoff_ with
      | BackoffPolicy.AKU_LINEAR_BACKOFF =>
        let sp1 : PipelineSpout := { r.2 with pc := WritePc.retry x }
        { st with spouts := Function.update st.spouts s sp1 }
      | BackoffPolicy.AKU_THROTTLE =>
        let sp1 : PipelineSpout :=
          { r.2 with pc := WritePc.idle, returned := sp.returned + 1, dropped := sp.dropped + 1 }
        { st with spouts := Function.update st.spouts s sp1 }
    else
      let sp1 : PipelineSpout := { r.2 with pc := WritePc.claimed r.1.toNat x }
      { st with spouts := Function.update st.spouts s sp1 }
  | WritePc.claimed ix x =>
    let pvalue : TVal := { sample := x, cnt := some s, on_error := some s }
    let sp1 : PipelineSpout :=
      { sp with pool_ := Function.update sp.pool_ ix pvalue, pc := WritePc.pushing ix x }
    { st with spouts := Function.update st.spouts s sp1 }
  | WritePc.pushing ix x =>
    if (st.queues_ sp.queue_).length < K.QCAP then
      let sp1 : PipelineSpout :=
        { sp with pc := WritePc.idle, pushed := sp.pushed ++ [x], returned := sp.returned + 1 }
      { st with
        queues_ := Function.update st.queues_ sp.queue_ (st.queues_ sp.queue_ ++ [TValPtr.slot s ix])
        spouts := Function.update st.spouts s sp1 }
    else st

/-- The number of queues among the first `n` that are not empty: the
messages written by the check loop before the stop barrier. -/
def IngestionPipeline.nonempty_queues (st : IngestionPipeline) (n : Nat) : Nat :=
  ((List.range n).filter (fun q => !(st.queues_ q).isEmpty)).length

/-- One step of the worker.  An iteration of the loop is one step when the
pop fails or yields poison, and three steps otherwise: the pop with the test
of `val->cnt`, the call of `con_->write`, and the increment of `*val->cnt`
with the call of the error callback when the status is not `AKU_SUCCESS`.  A
`std::out_of_range` from `queues.at`, a null pointer and an empty callback
end the loop in `WorkerPhase.crashed`. -/
def IngestionPipeline.worker_step (K : Constants) (con : DbConnection)
    (st : IngestionPipeline) : IngestionPipeline :=
  let w := st.worker
  match w.phase with
  | WorkerPhase.stopped => st
  | WorkerPhase.crashed => st
  | WorkerPhase.poll =>
    match queues_at K (Int.tmod w.ix (K.N_QUEUES : Int)) with
    | none => { st with worker := { w with phase := WorkerPhase.crashed } }
    | some q =>
      match st.queues_ q with
      | [] =>
        let idle := wrap32 (w.idle_count + 1)
        let sleep : Bool := decide (idle > 0x10000) && decide (Int.tmod idle (K.N_QUEUES : Int) = 0)
        { st with worker :=
            { w with idle_count := idle
                     sleeps := if sleep then w.sleeps + 1 else w.sleeps
                     ix := wrap32 (w.ix + 1) } }
      | val :: rest =>
        let st1 := { st with queues_ := Function.update st.queues_ q rest }
        if (st.deref val).cnt = none then
          let cnt := wrap32 (w.poison_cnt + 1)
          if cnt = (K.N_QUEUES : Int) then
            { st1 with worker :=
                { w with idle_count := 0, poison_cnt := cnt, phase := WorkerPhase.stopped
                         lost_warnings := w.lost_warnings + st1.nonempty_queues K.N_QUEUES } }
          else
            { st1 with worker :=
                { w with idle_count := 0, poison_cnt := cnt, ix := wrap32 (w.ix + 1) } }
        else
          { st1 with worker := { w with idle_count := 0, phase := WorkerPhase.popped val } }
  | WorkerPhase.popped val =>
    let sample := (st.deref val).sample
    let error := con.write (st.written.map Prod.snd) sample
    { st with
      written := st.written ++ [(val, sample)]
      worker := { w with phase := WorkerPhase.written val error } }
  | WorkerPhase.written val error =>
    match (st.deref val).cnt with
    | none => { st with worker := { w with phase := WorkerPhase.crashed } }
    | some c =>
      let owner := st.spouts c
      let owner1 : PipelineSpout := { owner with deleted_ := owner.deleted_ + 1 }
      let st1 := { st with spouts := Function.update st.spouts c owner1 }
      if error ≠ aku_Status.AKU_SUCCESS then
        match (st1.deref val).on_error with
        | none => { st1 with worker := { w with phase := WorkerPhase.crashed } }
        | some e =>
          match (st1.spouts e).on_error_ with
          | none => { st1 with worker := { w with phase := WorkerPhase.crashed } }
          | some cb =>
            { st1 with
              on_error_calls := st1.on_error_calls ++ [(cb, error, (st1.spouts c).deleted_)]
              worker := { w with phase := WorkerPhase.poll, ix := wrap32 (w.ix + 1) } }
      else
        { st1 with worker := { w with phase := WorkerPhase.poll, ix := wrap32 (w.ix + 1) } }

/-- One step of the caller of `IngestionPipeline::stop`: enter the method, or
try to push `POISON` onto the next queue. -/
def IngestionPipeline.stop_step (K : Constants) (st : IngestionPipeline) :
    IngestionPipeline :=
  match st.stop_ix with
  | none => { st with stop_ix := some 0 }
  | some i =>
    if i < K.N_QUEUES then
      if (st.queues_ i).length < K.QCAP then
        { st with
          queues_ := Function.update st.queues_ i (st.queues_ i ++ [TValPtr.POISON])
          stop_ix := some (i + 1) }
      else st
    else st

/-- What the threads can do next. -/
inductive Event
  /-- a call of `make_spout` -/
  | make_spout
  /-- a call of `set_error_cb` on spout `s` -/
  | set_error_cb (s : Nat) (cb : Nat)
  /-- the producer of spout `s` calls `write(sample)` -/
  | write (s : Nat) (sample : aku_Sample)
  /-- the producer of spout `s` takes its next step inside `write` -/
  | producer (s : Nat)
  /-- the worker takes its next step -/
  | worker
  /-- the caller of `stop()` takes its next step -/
  | stop
deriving DecidableEq, Repr

/-- The effect of one event.  An event of a spout that does not exist, and a
`write` on a spout whose producer is still inside `write`, change nothing. -/
def IngestionPipeline.step (K : Constants) (con : DbConnection) (st : IngestionPipeline) :
    Event → IngestionPipeline
  | Event.make_spout => st.make_spout K
  | Event.set_error_cb s cb =>
    if s < st.nspouts then
      { st with spouts := Function.update st.spouts s ((st.spouts s).set_error_cb cb) }
    else st
  | Event.write s x =>
    if s < st.nspouts ∧ (st.spouts s).pc = WritePc.idle then
      { st with spouts := Function.update st.spouts s ((st.spouts s).write_enter K x) }
    else st
  | Event.producer s => if s < st.nspouts then st.write_step K s else st
  | Event.worker => st.worker_step K con
  | Event.stop => st.stop_step K

/-- The state after a schedule of events. -/
def IngestionPipeline.run (K : Constants) (con : DbConnection) (st : IngestionPipeline)
    (evs : List Event) : IngestionPipeline :=
  evs.foldl (IngestionPipeline.step K con) st

/-- The states a freshly constructed pipeline can get into. -/
def Reachable (K : Constants) (con : DbConnection) (bp : BackoffPolicy)
    (st : IngestionPipeline) : Prop :=
  ∃ evs : List Event, (IngestionPipeline.new bp).run K con evs = st

/-! ## The invariant of the reachable states -/

/-- Whether a pointer is the address of a slot of spout `s`. -/
def TValPtr.ofSpout (s : Nat) : TValPtr → Bool
  | TValPtr.POISON => false
  | TValPtr.slot s1 _ => decide (s1 = s)

/-- The pointer the worker has popped and not yet released. -/
def Worker.held (w : Worker) : List TValPtr :=
  match w.phase with
  | WorkerPhase.popped v => [v]
  | WorkerPhase.written v _ => [v]
  | _ => []

/-- The slots of spout `s` in flight, oldest first: the one the worker holds,
then those waiting in the queue of the spout. -/
def IngestionPipeline.flight (st : IngestionPipeline) (s : Nat) : List TValPtr :=
  (st.worker.held ++ st.queues_ (st.spouts s).queue_).filter (TValPtr.ofSpout s)

/-- The samples the storage has received through slots of spout `s`. -/
def IngestionPipeline.written_of (st : IngestionPipeline) (s : Nat) : List aku_Sample :=
  (st.written.filter (fun e => e.1.ofSpout s)).map Prod.snd

/-- One when the worker has written the slot it holds, a slot of spout `s`,
and has not yet released it. -/
def IngestionPipeline.unreleased (st : IngestionPipeline) (s : Nat) : Nat :=
  match st.worker.phase with
  | WorkerPhase.written v _ => if v.ofSpout s then 1 else 0
  | _ => 0

/-- One when the producer holds a claimed slot it has not pushed yet. -/
def WritePc.holds : WritePc → Nat
  | WritePc.claimed _ _ => 1
  | WritePc.pushing _ _ => 1
  | _ => 0

/-- The pointers to the slots numbered `lo, lo + 1, ..., lo + n - 1` of
spout `s`, in the order they were claimed. -/
def slots_from (P s lo n : Nat) : List TValPtr :=
  (List.range' lo n).map (fun c => TValPtr.slot s (c % P))

/-- What holds of one spout in every reachable state.  `fl` are its slots in
flight, `lg` the samples written through its slots and `wd` is one when the
worker holds a written and unreleased slot of it. -/
structure SpoutInv (K : Constants) (s : Nat) (sp : PipelineSpout) (fl : List TValPtr)
    (lg : List aku_Sample) (wd : Nat) : Prop where
  deleted_le : sp.deleted_ ≤ sp.pushed.length
  created_eq : sp.created_ = sp.pushed.length + sp.pc.holds
  created_le : sp.created_ ≤ sp.deleted_ + K.POOL_SIZE
  claimed_ix : ∀ ix x, sp.pc = WritePc.claimed ix x → ix = sp.pushed.length % K.POOL_SIZE
  pushing_ix : ∀ ix x, sp.pc = WritePc.pushing ix x →
    ix = sp.pushed.length % K.POOL_SIZE ∧
    sp.pool_ ix = { sample := x, cnt := some s, on_error := some s }
  flight_eq : fl = slots_from K.POOL_SIZE s sp.deleted_ (sp.pushed.length - sp.deleted_)
  pool_ok : ∀ c, sp.deleted_ ≤ c → c < sp.pushed.length →
    sp.pushed[c]? = some (sp.pool_ (c % K.POOL_SIZE)).sample ∧
    (sp.pool_ (c % K.POOL_SIZE)).cnt = some s ∧
    (sp.pool_ (c % K.POOL_SIZE)).on_error = some s
  written_eq : lg = sp.pushed.take (sp.deleted_ + wd)
  written_le : sp.deleted_ + wd ≤ sp.pushed.length
  queue_lt : sp.queue_ < K.N_QUEUES

/-- The invariant of the pipeline: every spout satisfies `SpoutInv`, a slot
pointer waits only in the queue of its own spout, and the worker holds and
the storage log names only slots of existing spouts. -/
structure Inv (K : Constants) (st : IngestionPipeline) : Prop where
  spout : ∀ s, s < st.nspouts →
    SpoutInv K s (st.spouts s) (st.flight s) (st.written_of s) (st.unreleased s)
  queued : ∀ q s i, TValPtr.slot s i ∈ st.queues_ q →
    s < st.nspouts ∧ (st.spouts s).queue_ = q
  held : ∀ p, p ∈ st.worker.held → ∃ s i, p = TValPtr.slot s i ∧ s < st.nspouts
  logged : ∀ e, e ∈ st.written → ∃ s i, e.1 = TValPtr.slot s i ∧ s < st.nspouts

/-! ## The drain protocol -/

/-- The number of queues among the first `k` that are empty. -/
def IngestionPipeline.drained_count (st : IngestionPipeline) (k : Nat) : Nat :=
  ((List.range k).filter (fun q => (st.queues_ q).isEmpty)).length

/-- Events other than the steps of producers inside `write`. -/
def Event.quiet : Event → Bool
  | Event.write _ _ => false
  | Event.producer _ => false
  | _ => true

/-- What holds of the poison sentinels as long as no producer pushes after
`stop()` has been entered: before `stop()` no queue holds poison and none was
counted; once poison is on the first `k` queues, each of them is either
empty (its poison was popped) or ends in its poison, and the worker has
counted one poison for each empty one.  The worker is at the stop barrier
exactly when it has counted `N_QUEUES` of them. -/
structure DrainInv (K : Constants) (st : IngestionPipeline) : Prop where
  before : st.stop_ix = none →
    (∀ q, TValPtr.POISON ∉ st.queues_ q) ∧ st.worker.poison_cnt = 0 ∧
    st.worker.phase ≠ WorkerPhase.stopped
  during : ∀ k, st.stop_ix = some k →
    k ≤ K.N_QUEUES ∧ (∀ q, k ≤ q → q < K.N_QUEUES → TValPtr.POISON ∉ st.queues_ q) ∧
    (∀ q, q < k → st.queues_ q = [] ∨
      ∃ items, st.queues_ q = items ++ [TValPtr.POISON] ∧ TValPtr.POISON ∉ items) ∧
    st.worker.poison_cnt = (st.drained_count k : Int)
  stopped : st.worker.phase = WorkerPhase.stopped →
    st.worker.poison_cnt = (K.N_QUEUES : Int)
  running : st.worker.phase ≠ WorkerPhase.stopped →
    st.worker.poison_cnt < (K.N_QUEUES : Int)

/-- The number of samples all spouts together have pushed. -/
def IngestionPipeline.enqueued (st : IngestionPipeline) : Nat :=
  Finset.sum (Finset.range st.nspouts) (fun s => (st.spouts s).pushed.length)

/-- The number of pointers waiting in the queues. -/
def IngestionPipeline.queued (K : Constants) (st : IngestionPipeline) : Nat :=
  Finset.sum (Finset.range K.N_QUEUES) (fun q => (st.queues_ q).length)

/-- The situation after `stop()` has pushed poison onto every queue, seen
from the worker: the invariants hold, the loop counter is not negative, the
worker has not left the loop by an exception, and a storage error can only
occur when the error callbacks are registered. -/
structure Draining (K : Constants) (con : DbConnection) (st : IngestionPipeline) : Prop where
  inv : Inv K st
  drain : DrainInv K st
  stop_all : st.stop_ix = some K.N_QUEUES
  ix_nonneg : 0 ≤ st.worker.ix
  callbacks : (∀ s, s < st.nspouts → (st.spouts s).on_error_ ≠ none) ∨
    (∀ l x, con.write l x = aku_Status.AKU_SUCCESS)
  error_ok : ∀ val error, st.worker.phase = WorkerPhase.written val error →
    error ≠ aku_Status.AKU_SUCCESS → ∀ s, s < st.nspouts → (st.spouts s).on_error_ ≠ none
  alive : st.worker.phase ≠ WorkerPhase.crashed

/-- The bookkeeping of the spouts: `ixmake_` counts the spouts made, spout
number `s` shares queue `(s + 1) % N_QUEUES`, and every `write` call that
returned has either pushed its sample or dropped it. -/
structure Tally (K : Constants) (st : IngestionPipeline) : Prop where
  ixmake_eq : st.ixmake_ = st.nspouts
  queue_eq : ∀ s, s < st.nspouts → (st.spouts s).queue_ = (s + 1) % K.N_QUEUES
  returned_eq : ∀ s,
    (st.spouts s).returned = (st.spouts s).pushed.length + (st.spouts s).dropped

/-! ## A small configuration on which the model is run -/

/-- Two queues of capacity two and pools of two slots. -/
def smallK : Constants := { POOL_SIZE := 2, QCAP := 2, N_QUEUES := 2 }

/-- A storage connection that accepts every sample. -/
def okStorage : DbConnection := { write := fun _ _ => aku_Status.AKU_SUCCESS }

/-- A storage connection that refuses every sample with `IoError`. -/
def failingStorage : DbConnection := { write := fun _ _ => aku_Status.IoError }

/-- A first sample of series 1. -/
def sampleA : aku_Sample := { paramid := 1, timestamp := 10, payload := 100 }

/-- A second sample of series 1. -/
def sampleB : aku_Sample := { paramid := 1, timestamp := 11, payload := 101 }

/-- One spout writes `sampleA` and `sampleB`; the worker writes and releases
the first sample, the second still waits in the queue. -/
def twoWrites : List Event :=
  [Event.make_spout, Event.write 0 sampleA, Event.producer 0, Event.producer 0,
   Event.write 0 sampleB, Event.producer 0, Event.producer 0,
   Event.worker, Event.worker, Event.worker, Event.worker, Event.worker]

/-- The state after `twoWrites` under the throttle policy. -/
def afterTwoWrites : IngestionPipeline :=
  (IngestionPipeline.new BackoffPolicy.AKU_THROTTLE).run smallK okStorage twoWrites

/-- One spout writes `sampleA` and `sampleB`; nobody has called `stop()`. -/
def beforeStop : List Event :=
  [Event.make_spout, Event.write 0 sampleA, Event.producer 0, Event.producer 0,
   Event.write 0 sampleB, Event.producer 0, Event.producer 0]

/-- The caller of `stop()` and the worker alone: the worker writes both
samples and pops the poison of both queues. -/
def drain : List Event :=
  [Event.stop, Event.worker, Event.worker, Event.worker, Event.worker, Event.stop,
   Event.worker, Event.worker, Event.worker, Event.worker, Event.stop, Event.worker,
   Event.worker]

/-- The state after `beforeStop` and `drain`. -/
def afterDrain : IngestionPipeline :=
  (IngestionPipeline.new BackoffPolicy.AKU_LINEAR_BACKOFF).run smallK okStorage
    (beforeStop ++ drain)

/-- One spout writes `sampleA`, then `stop()` pushes poison onto both queues
before the worker has taken a step. -/
def stopEarly : List Event :=
  [Event.make_spout, Event.write 0 sampleA, Event.producer 0, Event.producer 0,
   Event.stop, Event.stop, Event.stop]

/-- The state after `stopEarly`. -/
def afterStopEarly : IngestionPipeline :=
  (IngestionPipeline.new BackoffPolicy.AKU_LINEAR_BACKOFF).run smallK okStorage stopEarly

/-- One spout has claimed and filled a slot for `sampleA` and has not pushed
it yet. -/
def fillOnly : List Event :=
  [Event.make_spout, Event.write 0 sampleA, Event.producer 0]

/-- The state after `fillOnly`. -/
def afterFill : IngestionPipeline :=
  (IngestionPipeline.new BackoffPolicy.AKU_LINEAR_BACKOFF).run smallK okStorage fillOnly

/-- One spout with callback 7 writes `sampleA`; the worker pops it and the
storage refuses it. -/
def failedWrite : List Event :=
  [Event.make_spout, Event.set_error_cb 0 7, Event.write 0 sampleA, Event.producer 0,
   Event.producer 0, Event.worker, Event.worker, Event.worker]

/-- The state after `failedWrite` on a storage that fails. -/
def afterFailedWrite : IngestionPipeline :=
  (IngestionPipeline.new BackoffPolicy.AKU_LINEAR_BACKOFF).run smallK failingStorage failedWrite

/-- Under the throttle policy one spout calls `write` three times while the
worker does nothing: the pool of two slots is full at the third call, which
gives up. -/
def threeWrites : List Event :=
  [Event.make_spout, Event.write 0 sampleA, Event.producer 0, Event.producer 0,
   Event.write 0 sampleB, Event.producer 0, Event.producer 0,
   Event.write 0 sampleA, Event.producer 0]

/-- The state after `threeWrites`. -/
def afterThreeWrites : IngestionPipeline :=
  (IngestionPipeline.new BackoffPolicy.AKU_THROTTLE).run smallK okStorage threeWrites

/-- The constants with the eight queues the spec gives as an example. -/
def eightQueues : Constants := { POOL_SIZE := 2, QCAP := 2, N_QUEUES := 8 }


/-! ## The loop counter and the idle count of the worker -/

/-- The value of the worker's loop counter `ix` at the start of iteration `i`
(counted from 0): `i` increments of an `int` that starts at 0. -/
def loop_counter (i : Nat) : Int := (fun x => wrap32 (x + 1))^[i] 0

/-- The index the worker passes to `queues.at` in iteration `i`, the C++
expression `ix % N_QUEUES`. -/
def polled_index (K : Constants) (i : Nat) : Int :=
  Int.tmod (loop_counter i) (K.N_QUEUES : Int)

/-- How one event changes the number of consecutive empty pops: a step of
the worker that polls a queue adds one when the queue is empty and starts
again from zero when the pop succeeds; no other step pops. -/
def IngestionPipeline.count_pop (K : Constants) (st : IngestionPipeline) (n : Nat) :
    Event → Nat
  | Event.worker =>
    match st.worker.phase with
    | WorkerPhase.poll =>
      match queues_at K (Int.tmod st.worker.ix (K.N_QUEUES : Int)) with
      | some q => if (st.queues_ q).isEmpty then n + 1 else 0
      | none => n
    | _ => n
  | _ => n

/-- The number of consecutive empty pops since the last successful pop at
the end of a schedule that starts in state `st` with `n` of them. -/
def IngestionPipeline.empty_pops (K : Constants) (con : DbConnection) :
    IngestionPipeline → Nat → List Event → Nat
  | _, n, [] => n
  | st, n, e :: es => IngestionPipeline.empty_pops K con (st.step K con e) (st.count_pop K n e) es

/-- One spout without a callback writes `sampleA` and `sampleB`; the worker
pops the first one and the storage refuses it. -/
def unregistered : List Event :=
  [Event.make_spout, Event.write 0 sampleA, Event.producer 0, Event.producer 0,
   Event.write 0 sampleB, Event.producer 0, Event.producer 0,
   Event.worker, Event.worker, Event.worker]

/-- The state after `unregistered` on a storage that fails. -/
def afterUnregistered : IngestionPipeline :=
  (IngestionPipeline.new BackoffPolicy.AKU_LINEAR_BACKOFF).run smallK failingStorage
    unregistered

/-- A pipeline of eight empty queues whose worker has polled `n` times in
vain since its start. -/
def idleFor (n : Nat) : IngestionPipeline :=
  { IngestionPipeline.new BackoffPolicy.AKU_LINEAR_BACKOFF with
    worker := { ix := n, poison_cnt := 0, idle_count := n, phase := WorkerPhase.poll,
                sleeps := 0, lost_warnings := 0 } }

/-- The state after `stopEarly` on a storage that fails: no callback is
registered, the sample waits in its queue and every queue ends in poison. -/
def afterStopFailing : IngestionPipeline :=
  (IngestionPipeline.new BackoffPolicy.AKU_LINEAR_BACKOFF).run smallK failingStorage stopEarly

/-! ## The calls of `write` along a schedule -/

/-- The sample given to the call of `write` that is in progress. -/
def WritePc.arg : WritePc → Option aku_Sample
  | WritePc.idle => none
  | WritePc.retry x => some x
  | WritePc.claimed _ x => some x
  | WritePc.pushing _ x => some x

/-- What a call of `write` had done when it returned. -/
inductive CallResult
  /-- exactly one pointer, to a slot that carries the given sample, was
  pushed onto the queue of the spout -/
  | enqueued
  /-- the policy is throttle, no slot was free and the queue is as it was -/
  | dropped
  /-- anything else -/
  | neither
deriving DecidableEq, Repr

/-- The calls of `write` on one spout as a schedule shows them: the sample
given to the call in progress, if there is one, and for every call that has
returned the sample given to it and what the call had done. -/
structure CallLog where
  pending : Option aku_Sample
  done : List (aku_Sample × CallResult)
deriving DecidableEq, Repr

/-- What the step from `st` to `st1`, at which a call `write(x)` on spout
`s` returns, shows of the call. -/
def IngestionPipeline.call_result (K : Constants) (st st1 : IngestionPipeline) (s : Nat)
    (x : aku_Sample) : CallResult :=
  match (st1.queues_ (st.spouts s).queue_).getLast? with
  | some (TValPtr.slot s1 i) =>
    if st1.queues_ (st.spouts s).queue_
          = st.queues_ (st.spouts s).queue_ ++ [TValPtr.slot s1 i] ∧
        s1 = s ∧ (st1.deref (TValPtr.slot s1 i)).sample = x then CallResult.enqueued
    else if st1.queues_ (st.spouts s).queue_ = st.queues_ (st.spouts s).queue_ ∧
        ((st.spouts s).get_index_of_empty_slot K).1 = -1 ∧
        (st.spouts s).backoff_ = BackoffPolicy.AKU_THROTTLE then CallResult.dropped
    else CallResult.neither
  | _ =>
    if st1.queues_ (st.spouts s).queue_ = st.queues_ (st.spouts s).queue_ ∧
        ((st.spouts s).get_index_of_empty_slot K).1 = -1 ∧
        (st.spouts s).backoff_ = BackoffPolicy.AKU_THROTTLE then CallResult.dropped
    else CallResult.neither

/-- How one event changes the log of the calls on spout `s`: a call
`write(x)` that the idle producer of `s` makes is in progress with the
sample `x`, and the step of that producer which leaves `write` ends the call
in progress with what the step shows. -/
def IngestionPipeline.log_call (K : Constants) (con : DbConnection) (st : IngestionPipeline)
    (s : Nat) (l : CallLog) : Event → CallLog
  | Event.write s1 x =>
    if s1 = s ∧ s < st.nspouts ∧ (st.spouts s).pc = WritePc.idle then
      { l with pending := some x }
    else l
  | Event.producer s1 =>
    if s1 = s ∧ (st.spouts s).pc ≠ WritePc.idle ∧
        ((st.step K con (Event.producer s)).spouts s).pc = WritePc.idle then
      match l.pending with
      | some x =>
        { pending := none
          done := l.done ++ [(x, st.call_result K (st.step K con (Event.producer s)) s x)] }
      | none => l
    else l
  | _ => l

/-- The log of the calls of `write` on spout `s` at the end of a schedule
that starts in state `st` with the log `l`. -/
def IngestionPipeline.call_log (K : Constants) (con : DbConnection) :
    IngestionPipeline → Nat → CallLog → List Event → CallLog
  | _, _, l, [] => l
  | st, s, l, e :: es =>
    IngestionPipeline.call_log K con (st.step K con e) s (st.log_call K con s l e) es

/-- The state agrees with the log of the calls on spout `s`: the producer
carries the sample of the call in progress, the samples enqueued are those
given to the calls that enqueued, in order, every call that returned has
enqueued or dropped its sample, and a call dropped it only under the
throttle policy. -/
structure Logged (st : IngestionPipeline) (s : Nat) (l : CallLog) : Prop where
  fresh : st.nspouts ≤ s → l = { pending := none, done := [] }
  arg_eq : s < st.nspouts → (st.spouts s).pc.arg = l.pending
  pushed_eq : s < st.nspouts → (st.spouts s).pushed
    = (l.done.filter (fun c => decide (c.2 = CallResult.enqueued))).map Prod.fst
  returned_eq : s < st.nspouts → (st.spouts s).returned = l.done.length
  dropped_eq : s < st.nspouts → (st.spouts s).dropped
    = (l.done.filter (fun c => decide (c.2 = CallResult.dropped))).length
  outcome : ∀ c, c ∈ l.done → c.2 = CallResult.enqueued ∨
    (c.2 = CallResult.dropped ∧ (st.spouts s).backoff_ = BackoffPolicy.AKU_THROTTLE)

/-! ## The page (`src/include/page.h`)

`page.h` declares the structures of a page and its operations; the bodies
of the operations are in `page.cpp`, which is not part of the sources.  The
structures below follow the declarations; each operation is modelled from
the specification and says so. -/

/-- The constant `AKU_MAX_PAGE_SIZE`, an `int64_t`. -/
def AKU_MAX_PAGE_SIZE : Int := 0x100000000

/-- The constant `AKU_MAX_PAGE_OFFSET`, an `int64_t`. -/
def AKU_MAX_PAGE_OFFSET : Int := 0xFFFFFFFF

/-- A store into a `uint32_t` field such as `last_offset` or a slot of
`page_index`. -/
def to_uint32 (n : Nat) : Nat := n % 2 ^ 32

/-- The value an `int64_t` takes from a 64-bit pattern. -/
def to_int64 (n : Nat) : Int := if n < 2 ^ 63 then (n : Int) else (n : Int) - 2 ^ 64

/-- The struct `Entry`: `param_id` is a `ParamId` (64 bits, by the
specification), `time` the `int64_t` of a `TimeStamp`, `length` the entry
length, "constant + variable sized parts", a `uint32_t`, and `value` the
bytes of the variable sized part. -/
structure Entry where
  param_id : Nat
  time : Int
  length : Nat
  value : List Nat
deriving DecidableEq, Repr

/-- The number of bytes of the fixed prefix of an entry: `param_id` (8),
`time` (8) and `length` (4). -/
def Entry.FIXED_PART : Nat := 20

/-- An entry whose fields fit their types and whose `length` counts the
prefix and the bytes of `value`. -/
structure Entry.Valid (e : Entry) : Prop where
  param_id_lt : e.param_id < 2 ^ 64
  time_ge : -(2 ^ 63) ≤ e.time
  time_lt : e.time < 2 ^ 63
  length_eq : e.length = Entry.FIXED_PART + e.value.length
  length_lt : e.length < 2 ^ 32
  bytes : ∀ b, b ∈ e.value → b < 256

/-- The struct `Entry2`: its `param_id` is declared `uint32_t`; `range` is
the bytes the `aku_MemRange` designates. -/
structure Entry2 where
  param_id : Nat
  time : Int
  range : List Nat
deriving DecidableEq, Repr

/-- The constructor `Entry2(ParamId param_id, TimeStamp time, aku_MemRange
range)`: the 64-bit argument initialises the 32-bit field, which keeps its
low 32 bits. -/
def Entry2.new (param_id : Nat) (time : Int) (range : List Nat) : Entry2 :=
  { param_id := to_uint32 param_id, time := time, range := range }

/-- The enum `PageType`. -/
inductive PageType
  | Metadata
  | Index
deriving DecidableEq, Repr

/-- The struct `PageBoundingBox`. -/
structure PageBoundingBox where
  min_id : Nat
  max_id : Nat
  min_timestamp : Int
  max_timestamp : Int
deriving DecidableEq, Repr

/-- Modelled from the spec: the scan direction of a query is forward or
backward (the constants for the `uint32_t direction` are in `akumuli.h`).  -/
inductive ScanDirection
  | forward
  | backward
deriving DecidableEq, Repr

/-- The struct `SingleParameterSearchQuery`. -/
structure SingleParameterSearchQuery where
  lowerbound : Int
  upperbound : Int
  param : Nat
  direction : ScanDirection
deriving DecidableEq, Repr

/-- The struct `PageHeader` with the page it heads.  The fields up to
`bbox` are those of the declaration; `page_index i` is slot `i` of the
flexible array `page_index[]`, and `data a` is the byte at offset `a` from
the start of the page (`cdata()`), which is where the entries are. -/
structure PageHeader where
  type : PageType
  count : Nat
  last_offset : Nat
  sync_index : Nat
  length : Nat
  open_count : Nat
  close_count : Nat
  page_id : Nat
  bbox : PageBoundingBox
  page_index : Nat → Nat
  data : Nat → Nat

/-- The first `k` bytes of `n` in host order, taken to be little-endian. -/
def to_bytes : Nat → Nat → List Nat
  | 0, _ => []
  | k + 1, n => n % 256 :: to_bytes k (n / 256)

/-- The number a list of bytes stands for in little-endian order. -/
def of_bytes : List Nat → Nat
  | [] => 0
  | b :: bs => b + 256 * of_bytes bs

/-- The bytes of the page after `bytes` were copied to offset `off`. -/
def write_bytes (data : Nat → Nat) (off : Nat) (bytes : List Nat) : Nat → Nat :=
  fun a => if off ≤ a ∧ a < off + bytes.length then bytes.getD (a - off) 0 else data a

/-- The `n` bytes of the page from offset `off` on. -/
def read_bytes (data : Nat → Nat) (off n : Nat) : List Nat :=
  (List.range n).map (fun k => data (off + k))

/-- The bytes of an entry in memory: the three fields of the prefix, then
the variable sized part. -/
def Entry.to_bytes (e : Entry) : List Nat :=
  Akumuli.to_bytes 8 e.param_id ++ Akumuli.to_bytes 8 (e.time % 2 ^ 64).toNat ++
    Akumuli.to_bytes 4 e.length ++ e.value

/-- The entry that the bytes at offset `offset` of the page are when they
are looked at as an `Entry`. -/
def PageHeader.entry_at (p : PageHeader) (offset : Nat) : Entry :=
  let length := of_bytes (read_bytes p.data (offset + 16) 4)
  { param_id := of_bytes (read_bytes p.data offset 8)
    time := to_int64 (of_bytes (read_bytes p.data (offset + 8) 8))
    length := length
    value := read_bytes p.data (offset + Entry.FIXED_PART) (length - Entry.FIXED_PART) }

/-- Modelled from the spec: the body of `PageHeader::get_free_space` is in
`page.cpp`.  The index occupies `[sizeof(header), sizeof(header) + 4·count)`
and the entries `[last_offset, length)`; the free space is what lies
between, returned as an `int`.  `H` is `sizeof(PageHeader)`. -/
def PageHeader.get_free_space (H : Nat) (p : PageHeader) : Int :=
  wrap32 ((p.last_offset : Int) - ((H : Int) + 4 * (p.count : Int)))

/-- Modelled from the spec: the body of `PageHeader::inside_bbox` is in
`page.cpp`.  The bounds of the box are inclusive. -/
def PageHeader.inside_bbox (p : PageHeader) (param : Nat) (time : Int) : Bool :=
  decide (p.bbox.min_id ≤ param ∧ param ≤ p.bbox.max_id ∧
    p.bbox.min_timestamp ≤ time ∧ time ≤ p.bbox.max_timestamp)

/-- Modelled from the spec: the body of `PageHeader::update_bounding_box` is
in `page.cpp`.  The box is widened to hold `(param, time)`. -/
def PageHeader.update_bounding_box (p : PageHeader) (param : Nat) (time : Int) :
    PageHeader :=
  { p with bbox :=
      { min_id := min p.bbox.min_id param
        max_id := max p.bbox.max_id param
        min_timestamp := min p.bbox.min_timestamp time
        max_timestamp := max p.bbox.max_timestamp time } }

/-- Modelled from the spec: the body of `PageHeader::add_entry(Entry const&)`
is in `page.cpp`.  With `entry_size` the length of the entry (its `length`
field, which counts the fixed part and the payload), the call fails with
`Overflow` if the free space is less than `entry_size + 4`; otherwise it
writes the entry at `last_offset - entry_size`, writes that offset into
`page_index[count]`, increments `count`, decrements `last_offset` by
`entry_size` and widens the bounding box. -/
def PageHeader.add_entry (H : Nat) (p : PageHeader) (entry : Entry) :
    aku_Status × PageHeader :=
  let entry_size := entry.length
  if p.get_free_space H < (entry_size : Int) + 4 then (aku_Status.Overflow, p)
  else
    let offset := to_uint32 (p.last_offset - entry_size)
    let p1 : PageHeader :=
      { p with
        data := write_bytes p.data offset entry.to_bytes
        page_index := Function.update p.page_index p.count offset
        count := to_uint32 (p.count + 1)
        last_offset := offset }
    (aku_Status.AKU_SUCCESS, p1.update_bounding_box entry.param_id entry.time)

/-- Modelled from the spec: the body of `PageHeader::add_entry(Entry2
const&)` is in `page.cpp`.  It appends the entry that has the id and the
time of the `Entry2` and the bytes of its range as payload. -/
def PageHeader.add_entry2 (H : Nat) (p : PageHeader) (entry : Entry2) :
    aku_Status × PageHeader :=
  p.add_entry H
    { param_id := entry.param_id
      time := entry.time
      length := to_uint32 (Entry.FIXED_PART + entry.range.length)
      value := entry.range }

/-- Modelled from the spec: the body of `PageHeader::read_entry` is in
`page.cpp`.  A view of the entry at `offset`; decoding validates that
`length` does not exceed the remaining bytes of the page, and the result is
`NULL` (`none`) when it does. -/
def PageHeader.read_entry (p : PageHeader) (offset : Nat) : Option Entry :=
  if offset + (p.entry_at offset).length ≤ p.length then some (p.entry_at offset) else none

/-- Modelled from the spec: the body of `PageHeader::read_entry_at` is in
`page.cpp`.  The entry of index slot `index`, or `NULL` when the index is
out of range. -/
def PageHeader.read_entry_at (p : PageHeader) (index : Int) : Option Entry :=
  if 0 ≤ index ∧ index < (p.count : Int) then p.read_entry (p.page_index index.toNat)
  else none

/-- Modelled from the spec: the body of `PageHeader::copy_entry_at` is in
`page.cpp`.  The result is 0 if the index is out of range, minus the length
of the entry if `receiver.length`, the length of the buffer, is too small,
and the length of the entry on success; the second component is the
receiving buffer after the call.  The result is an `int`. -/
def PageHeader.copy_entry_at (p : PageHeader) (index : Int) (receiver : Entry) :
    Int × Entry :=
  if 0 ≤ index ∧ index < (p.count : Int) then
    let entry := p.entry_at (p.page_index index.toNat)
    if receiver.length < entry.length then (wrap32 (-(entry.length : Int)), receiver)
    else (wrap32 (entry.length : Int), entry)
  else (0, receiver)

/-- Modelled from the spec: the body of `PageHeader::sync_indexes` is in
`page.cpp`.  The first slots of the index are replaced by the offsets the
caller supplies in sorted order, and `sync_index` is their number. -/
def PageHeader.sync_indexes (p : PageHeader) (offsets : List Nat) : PageHeader :=
  { p with
    page_index := fun i => if i < offsets.length then offsets.getD i 0 else p.page_index i
    sync_index := to_uint32 offsets.length }

/-- The entries of the page in the order of the index. -/
def PageHeader.entries (p : PageHeader) : List Entry :=
  (List.range p.count).map (fun i => p.entry_at (p.page_index i))

/-- Whether an entry belongs to the series and the time range of a query. -/
def SingleParameterSearchQuery.matches (query : SingleParameterSearchQuery) (e : Entry) :
    Bool :=
  decide (e.param_id = query.param ∧ query.lowerbound ≤ e.time ∧ e.time ≤ query.upperbound)

/-- The merge of the hits of the unsorted tail into the output: each is put
at its place in the order of the direction. -/
def merge_tail (dir : ScanDirection) (out tail : List Entry) : List Entry :=
  match dir with
  | ScanDirection.forward =>
    tail.foldl (fun acc e => List.orderedInsert (fun a b : Entry => a.time ≤ b.time) e acc) out
  | ScanDirection.backward =>
    tail.foldl (fun acc e => List.orderedInsert (fun a b : Entry => b.time ≤ a.time) e acc) out

/-- Modelled from the spec: the body of `PageHeader::search` is in
`page.cpp`.  The result is the sequence of entries put to the cursor.
(1) The query is rejected when its series is outside the bounding box or
its time range does not meet that of the box.  (2) In the sorted region
`page_index[0..sync_index)` the scan starts at the first slot whose entry
has the series and a timestamp `≥ lo` (forward), or at the last slot whose
entry has the series and a timestamp `≤ hi` (backward); the specification
fixes the slot the interpolation search finds, not its probes.  (3) From
there the slots are scanned in the direction and every entry is emitted
until the first one outside the window.  (4) The hits of the unsorted tail
`page_index[sync_index..count)` are merged in. -/
def PageHeader.search (p : PageHeader) (query : SingleParameterSearchQuery) : List Entry :=
  if query.param < p.bbox.min_id ∨ p.bbox.max_id < query.param ∨
      min query.upperbound p.bbox.max_timestamp < max query.lowerbound p.bbox.min_timestamp
  then []
  else
    let sorted := p.entries.take p.sync_index
    let tail := (p.entries.drop p.sync_index).filter query.matches
    match query.direction with
    | ScanDirection.forward =>
      let start := sorted.dropWhile
        (fun e => !decide (e.param_id = query.param ∧ query.lowerbound ≤ e.time))
      merge_tail ScanDirection.forward (start.takeWhile query.matches) tail
    | ScanDirection.backward =>
      let start := sorted.reverse.dropWhile
        (fun e => !decide (e.param_id = query.param ∧ e.time ≤ query.upperbound))
      merge_tail ScanDirection.backward (start.takeWhile query.matches) tail

/-- The invariants of a page on its header: the index ends below the
entries (I2), the entries end at the end of the page (I1), and the page is
not larger than `AKU_MAX_PAGE_SIZE`, with `last_offset` in its 32 bits (I6).
`H` is `sizeof(PageHeader)`. -/
structure PageHeader.Invariant (H : Nat) (p : PageHeader) : Prop where
  index_below : H + 4 * p.count ≤ p.last_offset
  entries_inside : p.last_offset ≤ p.length
  size_le : (p.length : Int) ≤ AKU_MAX_PAGE_SIZE
  offset_lt : p.last_offset < 2 ^ 32

/-- The entries of the page lie within the bounding box (I3). -/
def PageHeader.Boxed (p : PageHeader) : Prop :=
  ∀ e, e ∈ p.entries → p.inside_bbox e.param_id e.time = true

/-- The order of the sorted region: by `param_id`, then by `time`. -/
def Entry.key_le (a b : Entry) : Prop :=
  a.param_id < b.param_id ∨ (a.param_id = b.param_id ∧ a.time ≤ b.time)

/-- The entries of the page are sorted by `(param_id, time)` (I4 for a page
with `sync_index = count`). -/
def PageHeader.Sorted (p : PageHeader) : Prop :=
  List.Pairwise Entry.key_le p.entries

/-- The order of the sorted region is decidable. -/
instance Entry.key_le_decidable (a b : Entry) : Decidable (a.key_le b) := by
  unfold Entry.key_le
  infer_instance

/-! ## Small pages on which the model is run -/

/-- The size of the page header in the examples: `sizeof(PageHeader)` on a
64-bit host. -/
def headerSize : Nat := 72

/-- A page of `length` bytes with nothing stored: the entries will be put
below `length`, and the bounding box is empty. -/
def emptyPage (length : Nat) : PageHeader :=
  { type := PageType.Index
    count := 0
    last_offset := length
    sync_index := 0
    length := length
    open_count := 0
    close_count := 0
    page_id := 0
    bbox := { min_id := 2 ^ 64 - 1, max_id := 0,
              min_timestamp := 2 ^ 63 - 1, max_timestamp := -(2 ^ 63) }
    page_index := fun _ => 0
    data := fun _ => 0 }

/-- The entry of a series at a time with the given payload bytes. -/
def entryOf (param_id : Nat) (time : Int) (payload : List Nat) : Entry :=
  { param_id := param_id, time := time, length := Entry.FIXED_PART + payload.length,
    value := payload }

/-- A page of 200 bytes that holds one entry of 24 bytes. -/
def onePage : PageHeader :=
  ((emptyPage 200).add_entry headerSize (entryOf 1 10 [1, 2, 3, 4])).2

/-- A receiving buffer of `length` bytes. -/
def bufferOf (length : Nat) : Entry :=
  { param_id := 0, time := 0, length := length, value := [] }

/-- A page of 200 bytes to which a series id above `2^32` was appended
through an `Entry2`. -/
def widePage : PageHeader :=
  ((emptyPage 200).add_entry2 headerSize (Entry2.new 4294967297 10 [1, 2, 3, 4])).2

/-- A page of 200 bytes with the entries `(2, 5)`, `(1, 20)` and `(1, 10)`
appended in this order and the index then put into sorted order. -/
def sortedPage : PageHeader :=
  ((((((emptyPage 200).add_entry headerSize (entryOf 2 5 [7, 7, 7, 7])).2).add_entry
    headerSize (entryOf 1 20 [8, 8, 8, 8])).2).add_entry
    headerSize (entryOf 1 10 [9, 9, 9, 9])).2.sync_indexes [128, 152, 176]

/-! ## Arithmetic and slot acquisition -/

theorem usub64_eq {a b : Nat} (h1 : b ≤ a) (h2 : a - b < 2 ^ 64) : usub64 a b = a - b := by
  unfold usub64
  have h3 : ((a : Int) - (b : Int)) % (2 ^ 64 : Int) = (a : Int) - (b : Int) := by
    apply Int.emod_eq_of_lt <;> omega
  rw [h3]; omega

theorem mod_ne_of_near {P c e : Nat} (h1 : c < e) (h2 : e < c + P) : c % P ≠ e % P := by
  intro h
  have h3 : (e - c) % P = 0 := Nat.sub_mod_eq_zero_of_mod_eq h.symm
  have h4 : P ∣ e - c := Nat.dvd_of_mod_eq_zero h3
  have h5 := Nat.le_of_dvd (by omega) h4
  omega

theorem get_index_fst_neg (K : Constants) (sp : PipelineSpout) :
    (sp.get_index_of_empty_slot K).1 < 0 ↔ ¬ usub64 sp.created_ sp.deleted_ < K.POOL_SIZE := by
  unfold PipelineSpout.get_index_of_empty_slot
  split <;> simp_all
  omega

theorem get_index_of_neg (K : Constants) (sp : PipelineSpout)
    (h : (sp.get_index_of_empty_slot K).1 < 0) : (sp.get_index_of_empty_slot K).2 = sp := by
  have h1 := (get_index_fst_neg K sp).1 h
  unfold PipelineSpout.get_index_of_empty_slot
  simp [h1]

theorem get_index_of_nonneg (K : Constants) (sp : PipelineSpout)
    (h : ¬ (sp.get_index_of_empty_slot K).1 < 0) :
    usub64 sp.created_ sp.deleted_ < K.POOL_SIZE ∧
    (sp.get_index_of_empty_slot K).1.toNat = sp.created_ % K.POOL_SIZE ∧
    (sp.get_index_of_empty_slot K).2 = { sp with created_ := sp.created_ + 1 } := by
  have h1 : usub64 sp.created_ sp.deleted_ < K.POOL_SIZE := by
    by_contra hc; exact h ((get_index_fst_neg K sp).2 hc)
  unfold PipelineSpout.get_index_of_empty_slot
  simp only [h1, if_true, Int.toNat_ofNat, and_self]

/-! ## The invariant is kept by every step -/

theorem slots_from_zero (P s lo : Nat) : slots_from P s lo 0 = [] := by
  simp [slots_from]

theorem slots_from_succ (P s lo n : Nat) :
    slots_from P s lo (n + 1) = TValPtr.slot s (lo % P) :: slots_from P s (lo + 1) n := by
  simp [slots_from, List.range'_succ]

theorem slots_from_concat (P s lo n : Nat) :
    slots_from P s lo (n + 1) = slots_from P s lo n ++ [TValPtr.slot s ((lo + n) % P)] := by
  simp [slots_from, List.range'_concat]

theorem filter_ofSpout_eq_nil {l : List TValPtr} {s : Nat}
    (h : ∀ i, TValPtr.slot s i ∉ l) : l.filter (TValPtr.ofSpout s) = [] := by
  rw [List.filter_eq_nil_iff]
  intro p hp
  cases p with
  | POISON => simp [TValPtr.ofSpout]
  | slot s1 i =>
    simp only [TValPtr.ofSpout, decide_eq_true_eq]
    intro h1; subst h1; exact h i hp

theorem Inv_new (K : Constants) (bp : BackoffPolicy) : Inv K (IngestionPipeline.new bp) := by
  constructor
  · intro s hs; simp [IngestionPipeline.new] at hs
  · intro q s i h; simp [IngestionPipeline.new] at h
  · intro p h; simp [IngestionPipeline.new, Worker.held] at h
  · intro e h; simp [IngestionPipeline.new] at h

theorem Inv_make_spout (K : Constants) (hK : K.WellFormed) (st : IngestionPipeline)
    (h : Inv K st) : Inv K (st.make_spout K) := by
  obtain ⟨hN, -, -⟩ := hK
  have hlt : (st.ixmake_ + 1) % K.N_QUEUES < K.N_QUEUES := Nat.mod_lt _ hN
  have hq : queues_at K (((st.ixmake_ + 1) % K.N_QUEUES : Nat) : Int)
      = some ((st.ixmake_ + 1) % K.N_QUEUES) := by
    unfold queues_at
    rw [if_pos]
    · rw [Int.toNat_ofNat]
    · constructor <;> omega
  unfold IngestionPipeline.make_spout
  simp only [hq]
  constructor
  · intro s hs
    simp only at hs
    rcases Nat.lt_succ_iff_lt_or_eq.1 hs with h1 | h1
    · have hne : s ≠ st.nspouts := by omega
      have := h.spout s h1
      simpa [IngestionPipeline.flight, IngestionPipeline.written_of,
        IngestionPipeline.unreleased, Function.update_noteq hne] using this
    · subst h1
      have hfl : ∀ l : List TValPtr, (∀ p ∈ l, ∀ i, p = TValPtr.slot st.nspouts i → False) →
          l.filter (TValPtr.ofSpout st.nspouts) = [] := by
        intro l hl
        apply filter_ofSpout_eq_nil
        intro i hi; exact hl _ hi i rfl
      have h1 : (st.worker.held ++ st.queues_ ((st.ixmake_ + 1) % K.N_QUEUES)).filter
          (TValPtr.ofSpout st.nspouts) = [] := by
        apply hfl
        intro p hp i hpi
        subst hpi
        rcases List.mem_append.1 hp with hp | hp
        · obtain ⟨s, j, e, hs⟩ := h.held _ hp
          injection e with e1 e2; omega
        · have := (h.queued _ _ _ hp).1; omega
      have h2 : st.written.filter (fun e => e.1.ofSpout st.nspouts) = [] := by
        rw [List.filter_eq_nil_iff]
        intro e he
        obtain ⟨s, j, e1, hs⟩ := h.logged e he
        simp [e1, TValPtr.ofSpout]; omega
      have h3 : st.unreleased st.nspouts = 0 := by
        unfold IngestionPipeline.unreleased
        split
        · rename_i v e hph
          obtain ⟨s, j, e1, hs⟩ := h.held v (by simp [Worker.held, hph])
          simp [e1, TValPtr.ofSpout]; omega
        · rfl
      constructor <;>
        simp [IngestionPipeline.flight, IngestionPipeline.written_of, PipelineSpout.new,
          WritePc.holds, h1, h2, slots_from_zero, hlt]
      exact h3
  · intro q s i hmem
    simp only at hmem
    have := h.queued q s i hmem
    have hne : s ≠ st.nspouts := by omega
    simp [Function.update_noteq hne, this]
    omega
  · intro p hp
    obtain ⟨s, i, e, hs⟩ := h.held p hp
    exact ⟨s, i, e, by simp; omega⟩
  · intro e he
    obtain ⟨s, i, e1, hs⟩ := h.logged e he
    exact ⟨s, i, e1, by simp; omega⟩

theorem Inv_update_spout (K : Constants) (st : IngestionPipeline) (h : Inv K st)
    (s0 : Nat) (hs0 : s0 < st.nspouts) (sp1 : PipelineSpout)
    (hq : sp1.queue_ = (st.spouts s0).queue_)
    (h1 : SpoutInv K s0 sp1 (st.flight s0) (st.written_of s0) (st.unreleased s0)) :
    Inv K { st with spouts := Function.update st.spouts s0 sp1 } := by
  constructor
  · intro s hs
    by_cases hne : s = s0
    · subst hne
      simpa [IngestionPipeline.flight, IngestionPipeline.written_of,
        IngestionPipeline.unreleased, hq] using h1
    · have := h.spout s hs
      simpa [IngestionPipeline.flight, IngestionPipeline.written_of,
        IngestionPipeline.unreleased, Function.update_noteq hne] using this
  · intro q s i hmem
    have := h.queued q s i hmem
    by_cases hne : s = s0
    · subst hne; simpa [hq] using this
    · simpa [Function.update_noteq hne] using this
  · exact h.held
  · exact h.logged

theorem Inv_set_error_cb (K : Constants) (st : IngestionPipeline) (h : Inv K st)
    (s cb : Nat) (hs : s < st.nspouts) :
    Inv K { st with spouts := Function.update st.spouts s ((st.spouts s).set_error_cb cb) } := by
  refine Inv_update_spout K st h s hs _ rfl ?_
  have := h.spout s hs
  constructor
  · exact this.deleted_le
  · exact this.created_eq
  · exact this.created_le
  · exact this.claimed_ix
  · exact this.pushing_ix
  · exact this.flight_eq
  · exact this.pool_ok
  · exact this.written_eq
  · exact this.written_le
  · exact this.queue_lt

/-- Under the invariant the unsigned difference of the counters is the
number of claimed and unreleased slots. -/
theorem SpoutInv_usub {K : Constants} (hK : K.WellFormed) {s : Nat} {sp : PipelineSpout}
    {fl : List TValPtr} {lg : List aku_Sample} {wd : Nat} (h : SpoutInv K s sp fl lg wd) :
    usub64 sp.created_ sp.deleted_ = sp.created_ - sp.deleted_ := by
  obtain ⟨-, -, hP⟩ := hK
  have h1 := h.deleted_le
  have h2 := h.created_eq
  have h3 := h.created_le
  apply usub64_eq
  · omega
  · have : (2:Nat) ^ 31 < 2 ^ 64 := by norm_num
    omega

/-- A successful `get_index_of_empty_slot` from a state without a claimed
slot keeps the invariant of the spout, whatever the next control state. -/
theorem SpoutInv_claim (K : Constants) (hK : K.WellFormed) (s : Nat) (sp : PipelineSpout)
    (fl : List TValPtr) (lg : List aku_Sample) (wd : Nat) (h : SpoutInv K s sp fl lg wd)
    (hpc : sp.pc.holds = 0) (x : aku_Sample)
    (hlt : usub64 sp.created_ sp.deleted_ < K.POOL_SIZE) :
    SpoutInv K s { sp with created_ := sp.created_ + 1,
                           pc := WritePc.claimed (sp.created_ % K.POOL_SIZE) x } fl lg wd := by
  have hu := SpoutInv_usub hK h
  have h1 := h.deleted_le
  have h2 := h.created_eq
  have h3 := h.created_le
  constructor
  · exact h1
  · simp [WritePc.holds]; omega
  · simp; omega
  · intro ix y e
    simp at e
    simp [← e.1]; rw [h2, hpc]; rfl
  · intro ix y e; simp at e
  · exact h.flight_eq
  · exact h.pool_ok
  · exact h.written_eq
  · exact h.written_le
  · exact h.queue_lt

theorem SpoutInv_pc (K : Constants) (s : Nat) (sp : PipelineSpout)
    (fl : List TValPtr) (lg : List aku_Sample) (wd : Nat) (h : SpoutInv K s sp fl lg wd)
    (hpc : sp.pc.holds = 0) (pc1 : WritePc) (hpc1 : pc1.holds = 0) (r d : Nat) :
    SpoutInv K s { sp with pc := pc1, returned := r, dropped := d } fl lg wd := by
  constructor
  · exact h.deleted_le
  · simp [hpc1]; rw [h.created_eq, hpc]; rfl
  · exact h.created_le
  · intro ix y e; simp at e; rw [e] at hpc1; simp [WritePc.holds] at hpc1
  · intro ix y e; simp at e; rw [e] at hpc1; simp [WritePc.holds] at hpc1
  · exact h.flight_eq
  · exact h.pool_ok
  · exact h.written_eq
  · exact h.written_le
  · exact h.queue_lt

theorem Inv_write_enter (K : Constants) (hK : K.WellFormed) (st : IngestionPipeline)
    (h : Inv K st) (s : Nat) (x : aku_Sample) (hs : s < st.nspouts)
    (hidle : (st.spouts s).pc = WritePc.idle) :
    Inv K { st with spouts := Function.update st.spouts s ((st.spouts s).write_enter K x) } := by
  have hsp := h.spout s hs
  have hh : (st.spouts s).pc.holds = 0 := by rw [hidle]; rfl
  unfold PipelineSpout.write_enter
  by_cases hneg : ((st.spouts s).get_index_of_empty_slot K).1 < 0
  · simp only [hneg, if_true, get_index_of_neg K _ hneg]
    refine Inv_update_spout K st h s hs _ rfl ?_
    exact SpoutInv_pc K s _ _ _ _ hsp hh (WritePc.retry x) rfl _ _
  · obtain ⟨h1, h2, h3⟩ := get_index_of_nonneg K _ hneg
    simp only [hneg, if_false, h2, h3]
    refine Inv_update_spout K st h s hs _ rfl ?_
    exact SpoutInv_claim K hK s _ _ _ _ hsp hh x h1

/-- The store into a claimed slot keeps the invariant of the spout. -/
theorem SpoutInv_fill (K : Constants) (s : Nat) (sp : PipelineSpout)
    (fl : List TValPtr) (lg : List aku_Sample) (wd : Nat) (h : SpoutInv K s sp fl lg wd)
    (ix : Nat) (x : aku_Sample) (hpc : sp.pc = WritePc.claimed ix x) :
    SpoutInv K s { sp with pool_ := Function.update sp.pool_ ix
                             { sample := x, cnt := some s, on_error := some s },
                           pc := WritePc.pushing ix x } fl lg wd := by
  have h1 := h.deleted_le
  have h2 := h.created_eq
  have h3 := h.created_le
  have h4 := h.claimed_ix ix x hpc
  rw [hpc] at h2
  simp only [WritePc.holds] at h2
  constructor
  · exact h1
  · simpa [WritePc.holds] using h2
  · exact h3
  · intro ix1 y e; simp at e
  · intro ix1 y e
    simp only [WritePc.pushing.injEq] at e
    obtain ⟨e1, e2⟩ := e
    subst e1; subst e2
    exact ⟨h4, by simp⟩
  · exact h.flight_eq
  · intro c hc1 hc2
    dsimp only at hc1 hc2
    have hne : c % K.POOL_SIZE ≠ ix := by
      rw [h4]; apply mod_ne_of_near hc2; omega
    simpa [Function.update_noteq hne] using h.pool_ok c hc1 hc2
  · exact h.written_eq
  · exact h.written_le
  · exact h.queue_lt

/-- The push of a filled slot keeps the invariant of the spout. -/
theorem SpoutInv_push (K : Constants) (s : Nat) (sp : PipelineSpout)
    (fl : List TValPtr) (lg : List aku_Sample) (wd : Nat) (h : SpoutInv K s sp fl lg wd)
    (ix : Nat) (x : aku_Sample) (hpc : sp.pc = WritePc.pushing ix x) (r : Nat) :
    SpoutInv K s { sp with pc := WritePc.idle, pushed := sp.pushed ++ [x], returned := r }
      (fl ++ [TValPtr.slot s ix]) lg wd := by
  have h1 := h.deleted_le
  have h2 := h.created_eq
  have h3 := h.created_le
  obtain ⟨h4, h5⟩ := h.pushing_ix ix x hpc
  have h6 := h.written_le
  rw [hpc] at h2
  simp only [WritePc.holds] at h2
  constructor
  · simp; omega
  · simpa [WritePc.holds] using h2
  · exact h3
  · intro ix1 y e; simp at e
  · intro ix1 y e; simp at e
  · have e1 : (sp.pushed ++ [x]).length - sp.deleted_ = (sp.pushed.length - sp.deleted_) + 1 := by
      simp; omega
    have e2 : sp.deleted_ + (sp.pushed.length - sp.deleted_) = sp.pushed.length := by omega
    simp only [e1, slots_from_concat, e2]
    rw [← h.flight_eq, h4]
  · intro c hc1 hc2
    simp only [List.length_append, List.length_singleton] at hc2
    by_cases hc : c < sp.pushed.length
    · have := h.pool_ok c hc1 hc
      simpa [List.getElem?_append_left hc] using this
    · have hc3 : c = sp.pushed.length := by omega
      subst hc3
      rw [← h4, h5]
      simp
  · simp only
    rw [List.take_append_of_le_length h6]
    exact h.written_eq
  · simp; omega
  · exact h.queue_lt

theorem Inv_write_step (K : Constants) (hK : K.WellFormed) (st : IngestionPipeline)
    (h : Inv K st) (s : Nat) (hs : s < st.nspouts) : Inv K (st.write_step K s) := by
  have hsp := h.spout s hs
  unfold IngestionPipeline.write_step
  simp only
  split
  · exact h
  · rename_i x hpc
    have hh : (st.spouts s).pc.holds = 0 := by rw [hpc]; rfl
    by_cases hneg : ((st.spouts s).get_index_of_empty_slot K).1 < 0
    · simp only [hneg, if_true, get_index_of_neg K _ hneg]
      split
      · refine Inv_update_spout K st h s hs _ rfl ?_
        exact SpoutInv_pc K s _ _ _ _ hsp hh (WritePc.retry x) rfl _ _
      · refine Inv_update_spout K st h s hs _ rfl ?_
        exact SpoutInv_pc K s _ _ _ _ hsp hh WritePc.idle rfl _ _
    · obtain ⟨h1, h2, h3⟩ := get_index_of_nonneg K _ hneg
      simp only [hneg, if_false, h2, h3]
      refine Inv_update_spout K st h s hs _ rfl ?_
      exact SpoutInv_claim K hK s _ _ _ _ hsp hh x h1
  · rename_i ix x hpc
    refine Inv_update_spout K st h s hs _ rfl ?_
    exact SpoutInv_fill K s _ _ _ _ hsp ix x hpc
  · rename_i ix x hpc
    split
    · constructor
      · intro s1 hs1
        by_cases hne : s1 = s
        · subst hne
          have := SpoutInv_push K s1 _ _ _ _ hsp ix x hpc ((st.spouts s1).returned + 1)
          simpa [IngestionPipeline.flight, IngestionPipeline.written_of,
            IngestionPipeline.unreleased, ← List.append_assoc, Function.update_apply,
            TValPtr.ofSpout] using this
        · have := h.spout s1 hs1
          by_cases hq : (st.spouts s1).queue_ = (st.spouts s).queue_
          · simpa [IngestionPipeline.flight, IngestionPipeline.written_of,
              IngestionPipeline.unreleased, Function.update_apply, hne, hq,
              ← List.append_assoc, TValPtr.ofSpout, Ne.symm hne] using this
          · simpa [IngestionPipeline.flight, IngestionPipeline.written_of,
              IngestionPipeline.unreleased, Function.update_apply, hne, hq] using this
      · intro q s1 i hmem
        simp only at hmem
        have key : s1 < st.nspouts ∧ (st.spouts s1).queue_ = q := by
          by_cases hq : q = (st.spouts s).queue_
          · subst hq
            simp only [Function.update_same, List.mem_append, List.mem_singleton] at hmem
            rcases hmem with hmem | hmem
            · exact h.queued _ _ _ hmem
            · injection hmem with e1 e2
              subst e1; exact ⟨hs, rfl⟩
          · rw [Function.update_noteq hq] at hmem
            exact h.queued _ _ _ hmem
        by_cases hne : s1 = s
        · subst hne; simpa using key
        · simpa [Function.update_noteq hne] using key
      · exact h.held
      · exact h.logged
    · exact h

theorem mem_filter_ofSpout (l : List TValPtr) (s i : Nat) :
    TValPtr.slot s i ∈ l.filter (TValPtr.ofSpout s) ↔ TValPtr.slot s i ∈ l := by
  simp [List.mem_filter, TValPtr.ofSpout]

/-- A step that leaves the spouts, the log and the worker's slot alone, and
moves only poison in and out of the queues, keeps the invariant. -/
theorem Inv_frame (K : Constants) (st st1 : IngestionPipeline) (h : Inv K st)
    (hn : st1.nspouts = st.nspouts) (hsp : st1.spouts = st.spouts)
    (hw : st1.written = st.written) (hh : st1.worker.held = st.worker.held)
    (hu : ∀ s, st1.unreleased s = st.unreleased s)
    (hq : ∀ q s, (st1.queues_ q).filter (TValPtr.ofSpout s)
      = (st.queues_ q).filter (TValPtr.ofSpout s)) : Inv K st1 := by
  constructor
  · intro s hs
    rw [hn] at hs
    have := h.spout s hs
    have e : st1.flight s = st.flight s := by
      simp only [IngestionPipeline.flight, List.filter_append, hh, hsp, hq]
    have e2 : st1.written_of s = st.written_of s := by
      simp only [IngestionPipeline.written_of, hw]
    rw [e, e2, hu, hsp]; exact this
  · intro q s i hmem
    rw [← mem_filter_ofSpout, hq, mem_filter_ofSpout] at hmem
    rw [hn, hsp]; exact h.queued q s i hmem
  · intro p hp; rw [hh] at hp; rw [hn]; exact h.held p hp
  · intro e he; rw [hw] at he; rw [hn]; exact h.logged e he

/-- The oldest slot in flight is slot `deleted_ % POOL_SIZE`, and it carries
the oldest unreleased sample and the addresses of the spout's members. -/
theorem SpoutInv_head {K : Constants} {s : Nat} {sp : PipelineSpout} {fl : List TValPtr}
    {lg : List aku_Sample} {wd : Nat} (h : SpoutInv K s sp fl lg wd)
    {p : TValPtr} {tl : List TValPtr} (hfl : fl = p :: tl) :
    sp.deleted_ < sp.pushed.length ∧ p = TValPtr.slot s (sp.deleted_ % K.POOL_SIZE) ∧
    tl = slots_from K.POOL_SIZE s (sp.deleted_ + 1) (sp.pushed.length - (sp.deleted_ + 1)) ∧
    sp.pushed[sp.deleted_]? = some (sp.pool_ (sp.deleted_ % K.POOL_SIZE)).sample ∧
    (sp.pool_ (sp.deleted_ % K.POOL_SIZE)).cnt = some s ∧
    (sp.pool_ (sp.deleted_ % K.POOL_SIZE)).on_error = some s := by
  have h1 := h.flight_eq
  rw [hfl] at h1
  have hlt : sp.deleted_ < sp.pushed.length := by
    by_contra hc
    have : sp.pushed.length - sp.deleted_ = 0 := by omega
    rw [this, slots_from_zero] at h1
    exact absurd h1 (by simp)
  have e : sp.pushed.length - sp.deleted_ = (sp.pushed.length - (sp.deleted_ + 1)) + 1 := by
    omega
  rw [e, slots_from_succ] at h1
  injection h1 with h2 h3
  exact ⟨hlt, h2, h3, h.pool_ok _ (le_refl _) hlt⟩

theorem queues_at_some (K : Constants) (i : Int) (q : Nat) (h : queues_at K i = some q) :
    q < K.N_QUEUES := by
  unfold queues_at at h
  split at h
  · injection h with h; omega
  · exact absurd h (by simp)

/-- What the invariant says about the head of a queue while the worker holds
nothing. -/
theorem Inv_queue_head {K : Constants} {st : IngestionPipeline} (h : Inv K st)
    (hph : st.worker.held = []) {q s i : Nat} {rest : List TValPtr}
    (hq : st.queues_ q = TValPtr.slot s i :: rest) :
    s < st.nspouts ∧ (st.spouts s).queue_ = q ∧
    (st.spouts s).deleted_ < (st.spouts s).pushed.length ∧
    i = (st.spouts s).deleted_ % K.POOL_SIZE ∧
    (st.spouts s).pushed[(st.spouts s).deleted_]? = some ((st.spouts s).pool_ i).sample ∧
    ((st.spouts s).pool_ i).cnt = some s ∧ ((st.spouts s).pool_ i).on_error = some s := by
  obtain ⟨hs, hqs⟩ := h.queued q s i (by rw [hq]; simp)
  have hsp := h.spout s hs
  have hfl : st.flight s = TValPtr.slot s i ::
      rest.filter (TValPtr.ofSpout s) := by
    simp [IngestionPipeline.flight, hph, hqs, hq, TValPtr.ofSpout]
  obtain ⟨h1, h2, -, h4, h5, h6⟩ := SpoutInv_head hsp hfl
  injection h2 with _ h2
  subst h2
  exact ⟨hs, hqs, h1, rfl, h4, h5, h6⟩

theorem Inv_worker_poll (K : Constants) (con : DbConnection) (st : IngestionPipeline)
    (h : Inv K st) (hph : st.worker.phase = WorkerPhase.poll) :
    Inv K (st.worker_step K con) := by
  have hheld : st.worker.held = [] := by simp [Worker.held, hph]
  unfold IngestionPipeline.worker_step
  simp only [hph]
  split
  · -- the lookup throws
    refine Inv_frame K st _ h rfl rfl rfl ?_ ?_ ?_
    · simp [Worker.held, hph]
    · intro s; simp [IngestionPipeline.unreleased, hph]
    · intro q s; rfl
  · rename_i q hq
    split
    · -- the queue is empty
      refine Inv_frame K st _ h rfl rfl rfl ?_ ?_ ?_
      · simp [Worker.held, hph]
      · intro s; simp [IngestionPipeline.unreleased, hph]
      · intro q s; rfl
    · rename_i val rest hqv
      cases val with
      | POISON =>
        have hfr : ∀ q1 s, (Function.update st.queues_ q rest q1).filter (TValPtr.ofSpout s)
            = (st.queues_ q1).filter (TValPtr.ofSpout s) := by
          intro q1 s
          by_cases e : q1 = q
          · subst e; simp [hqv, TValPtr.ofSpout]
          · rw [Function.update_noteq e]
        simp only [IngestionPipeline.deref, POISON, if_true]
        split
        · refine Inv_frame K st _ h rfl rfl rfl ?_ ?_ ?_
          · simp [Worker.held, hph]
          · intro s; simp [IngestionPipeline.unreleased, hph]
          · exact hfr
        · refine Inv_frame K st _ h rfl rfl rfl ?_ ?_ ?_
          · simp [Worker.held, hph]
          · intro s; simp [IngestionPipeline.unreleased, hph]
          · exact hfr
      | slot s i =>
        obtain ⟨hs, hqs, -, -, -, hcnt, -⟩ := Inv_queue_head h hheld hqv
        simp only [IngestionPipeline.deref, hcnt]
        simp only [reduceCtorEq, if_false]
        constructor
        · intro s1 hs1
          have := h.spout s1 hs1
          by_cases e : (st.spouts s1).queue_ = q
          · simpa [IngestionPipeline.flight, IngestionPipeline.written_of,
              IngestionPipeline.unreleased, Worker.held, hph, e, hqv, Function.update_apply] using this
          · have hne : s ≠ s1 := by
              intro e2; subst e2; exact e hqs
            simpa [IngestionPipeline.flight, IngestionPipeline.written_of,
              IngestionPipeline.unreleased, Worker.held, hph, e, hqv,
              TValPtr.ofSpout, hne, Function.update_apply] using this
        · intro q1 s1 i1 hmem
          simp only at hmem
          apply h.queued q1 s1 i1
          by_cases e : q1 = q
          · subst e
            rw [Function.update_same] at hmem
            rw [hqv]; exact List.mem_cons_of_mem _ hmem
          · rw [Function.update_noteq e] at hmem; exact hmem
        · intro p hp
          simp [Worker.held] at hp
          exact ⟨s, i, hp, hs⟩
        · exact h.logged

/-- The storage write of the oldest slot in flight extends the samples
written for the spout by the oldest unreleased sample. -/
theorem SpoutInv_written (K : Constants) (s : Nat) (sp : PipelineSpout)
    (fl : List TValPtr) (lg : List aku_Sample) (h : SpoutInv K s sp fl lg 0)
    (i : Nat) (tl : List TValPtr) (hfl : fl = TValPtr.slot s i :: tl) :
    SpoutInv K s sp fl (lg ++ [(sp.pool_ i).sample]) 1 := by
  obtain ⟨h1, h2, -, h4, -, -⟩ := SpoutInv_head h hfl
  injection h2 with _ h2
  subst h2
  constructor
  · exact h.deleted_le
  · exact h.created_eq
  · exact h.created_le
  · exact h.claimed_ix
  · exact h.pushing_ix
  · exact h.flight_eq
  · exact h.pool_ok
  · rw [List.take_succ, h4, h.written_eq]; simp
  · omega
  · exact h.queue_lt

/-- The release of the oldest slot in flight. -/
theorem SpoutInv_release (K : Constants) (s : Nat) (sp : PipelineSpout)
    (fl : List TValPtr) (lg : List aku_Sample) (h : SpoutInv K s sp fl lg 1)
    (p : TValPtr) (tl : List TValPtr) (hfl : fl = p :: tl) :
    SpoutInv K s { sp with deleted_ := sp.deleted_ + 1 } tl lg 0 := by
  obtain ⟨h1, -, h3, -, -, -⟩ := SpoutInv_head h hfl
  have h5 := h.created_le
  constructor
  · exact h1
  · exact h.created_eq
  · simp only; omega
  · exact h.claimed_ix
  · exact h.pushing_ix
  · exact h3
  · intro c hc1 hc2
    exact h.pool_ok c (by simp only at hc1; omega) hc2
  · exact h.written_eq
  · exact h.written_le
  · exact h.queue_lt

theorem Inv_worker_popped (K : Constants) (con : DbConnection) (st : IngestionPipeline)
    (h : Inv K st) (val : TValPtr) (hph : st.worker.phase = WorkerPhase.popped val) :
    Inv K (st.worker_step K con) := by
  have hheld : st.worker.held = [val] := by simp [Worker.held, hph]
  obtain ⟨s, i, hval, hs⟩ := h.held val (by simp [hheld])
  subst hval
  unfold IngestionPipeline.worker_step
  simp only [hph]
  constructor
  · intro s1 hs1
    have := h.spout s1 hs1
    by_cases e : s1 = s
    · subst e
      have hfl : st.flight s1 = TValPtr.slot s1 i ::
          (st.queues_ (st.spouts s1).queue_).filter (TValPtr.ofSpout s1) := by
        simp [IngestionPipeline.flight, hheld, TValPtr.ofSpout]
      have hu : st.unreleased s1 = 0 := by simp [IngestionPipeline.unreleased, hph]
      rw [hu] at this
      have := SpoutInv_written K s1 _ _ _ this i _ hfl
      simpa [IngestionPipeline.flight, IngestionPipeline.written_of,
        IngestionPipeline.unreleased, Worker.held, hph, TValPtr.ofSpout,
        IngestionPipeline.deref] using this
    · have hne : ¬ s = s1 := fun e1 => e e1.symm
      simpa [IngestionPipeline.flight, IngestionPipeline.written_of,
        IngestionPipeline.unreleased, Worker.held, hph, TValPtr.ofSpout, hne] using this
  · exact h.queued
  · intro p hp
    simp [Worker.held] at hp
    exact ⟨s, i, hp, hs⟩
  · intro e he
    simp only [List.mem_append, List.mem_singleton] at he
    rcases he with he | he
    · exact h.logged e he
    · exact ⟨s, i, by rw [he], hs⟩

/-- The release of the held slot keeps the invariant, whatever the worker
does next without holding a slot. -/
theorem Inv_release (K : Constants) (st : IngestionPipeline) (h : Inv K st)
    (s i : Nat) (error : aku_Status)
    (hph : st.worker.phase = WorkerPhase.written (TValPtr.slot s i) error)
    (w1 : Worker) (hw1 : w1.phase = WorkerPhase.poll ∨ w1.phase = WorkerPhase.crashed)
    (calls : List (Nat × aku_Status × Nat)) (owner1 : PipelineSpout)
    (ho : owner1 = { st.spouts s with deleted_ := (st.spouts s).deleted_ + 1 }) :
    Inv K { st with spouts := Function.update st.spouts s owner1
                    worker := w1, on_error_calls := calls } := by
  subst ho
  have hheld : st.worker.held = [TValPtr.slot s i] := by simp [Worker.held, hph]
  have hheld1 : w1.held = [] := by
    rcases hw1 with e | e <;> simp [Worker.held, e]
  rcases hw1 with ew | ew
  all_goals
    constructor
    · intro s1 hs1
      have := h.spout s1 hs1
      by_cases e : s1 = s
      · subst e
        have hfl : st.flight s1 = TValPtr.slot s1 i ::
            (st.queues_ (st.spouts s1).queue_).filter (TValPtr.ofSpout s1) := by
          simp [IngestionPipeline.flight, hheld, TValPtr.ofSpout]
        have hu : st.unreleased s1 = 1 := by
          simp [IngestionPipeline.unreleased, hph, TValPtr.ofSpout]
        rw [hu] at this
        have := SpoutInv_release K s1 _ _ _ this _ _ hfl
        simpa [IngestionPipeline.flight, IngestionPipeline.written_of,
          IngestionPipeline.unreleased, hheld1, ew] using this
      · have hne : ¬ s = s1 := fun e1 => e e1.symm
        simpa [IngestionPipeline.flight, IngestionPipeline.written_of,
          IngestionPipeline.unreleased, hheld, hheld1, hph, TValPtr.ofSpout, hne,
          Function.update_noteq e, ew] using this
    · intro q s1 i1 hmem
      have := h.queued q s1 i1 hmem
      by_cases e : s1 = s
      · subst e; simpa using this
      · simpa [Function.update_noteq e] using this
    · intro p hp
      rw [hheld1] at hp; simp at hp
    · exact h.logged

theorem Inv_worker_written (K : Constants) (con : DbConnection) (st : IngestionPipeline)
    (h : Inv K st) (val : TValPtr) (error : aku_Status)
    (hph : st.worker.phase = WorkerPhase.written val error) :
    Inv K (st.worker_step K con) := by
  have hheld : st.worker.held = [val] := by simp [Worker.held, hph]
  obtain ⟨s, i, hval, hs⟩ := h.held val (by simp [hheld])
  subst hval
  have hfl : st.flight s = TValPtr.slot s i ::
      (st.queues_ (st.spouts s).queue_).filter (TValPtr.ofSpout s) := by
    simp [IngestionPipeline.flight, hheld, TValPtr.ofSpout]
  obtain ⟨-, h2, -, -, h5, h6⟩ := SpoutInv_head (h.spout s hs) hfl
  injection h2 with _ h2
  rw [← h2] at h5 h6
  unfold IngestionPipeline.worker_step
  simp only [hph, IngestionPipeline.deref, h5]
  split
  · split
    · exact Inv_release K st h s i error hph _ (Or.inr rfl) _ _ rfl
    · split
      · exact Inv_release K st h s i error hph _ (Or.inr rfl) _ _ rfl
      · exact Inv_release K st h s i error hph _ (Or.inl rfl) _ _ rfl
  · exact Inv_release K st h s i error hph _ (Or.inl rfl) _ _ rfl

theorem Inv_worker_step (K : Constants) (con : DbConnection) (st : IngestionPipeline)
    (h : Inv K st) : Inv K (st.worker_step K con) := by
  cases hph : st.worker.phase with
  | poll => exact Inv_worker_poll K con st h hph
  | popped val => exact Inv_worker_popped K con st h val hph
  | written val error => exact Inv_worker_written K con st h val error hph
  | stopped => unfold IngestionPipeline.worker_step; simp only [hph]; exact h
  | crashed => unfold IngestionPipeline.worker_step; simp only [hph]; exact h

theorem Inv_stop_step (K : Constants) (st : IngestionPipeline) (h : Inv K st) :
    Inv K (st.stop_step K) := by
  unfold IngestionPipeline.stop_step
  split
  · exact Inv_frame K st _ h rfl rfl rfl rfl (fun _ => rfl) (fun _ _ => rfl)
  · rename_i i hi
    split
    · split
      · refine Inv_frame K st _ h rfl rfl rfl rfl (fun _ => rfl) ?_
        intro q s
        by_cases e : q = i
        · subst e; simp [TValPtr.ofSpout]
        · simp [Function.update_noteq e]
      · exact h
    · exact h

theorem Inv_step (K : Constants) (hK : K.WellFormed) (con : DbConnection)
    (st : IngestionPipeline) (h : Inv K st) (e : Event) : Inv K (st.step K con e) := by
  cases e with
  | make_spout => exact Inv_make_spout K hK st h
  | set_error_cb s cb =>
    simp only [IngestionPipeline.step]
    split
    · rename_i hs; exact Inv_set_error_cb K st h s cb hs
    · exact h
  | write s x =>
    simp only [IngestionPipeline.step]
    split
    · rename_i hs; exact Inv_write_enter K hK st h s x hs.1 hs.2
    · exact h
  | producer s =>
    simp only [IngestionPipeline.step]
    split
    · rename_i hs; exact Inv_write_step K hK st h s hs
    · exact h
  | worker => exact Inv_worker_step K con st h
  | stop => exact Inv_stop_step K st h

theorem Inv_run (K : Constants) (hK : K.WellFormed) (con : DbConnection)
    (evs : List Event) (st : IngestionPipeline) (h : Inv K st) : Inv K (st.run K con evs) := by
  induction evs generalizing st with
  | nil => exact h
  | cons e evs ih => exact ih _ (Inv_step K hK con st h e)

theorem Inv_of_reachable (K : Constants) (hK : K.WellFormed) (con : DbConnection)
    (bp : BackoffPolicy) (st : IngestionPipeline) (h : Reachable K con bp st) : Inv K st := by
  obtain ⟨evs, rfl⟩ := h
  exact Inv_run K hK con evs _ (Inv_new K bp)

/-! ## Slots in flight -/

theorem mem_slots_from (P s lo n : Nat) (p : TValPtr) :
    p ∈ slots_from P s lo n ↔ ∃ c, lo ≤ c ∧ c < lo + n ∧ p = TValPtr.slot s (c % P) := by
  unfold slots_from
  simp only [List.mem_map, List.mem_range'_1]
  constructor
  · rintro ⟨c, ⟨h1, h2⟩, h3⟩; exact ⟨c, h1, h2, h3.symm⟩
  · rintro ⟨c, h1, h2, h3⟩; exact ⟨c, ⟨h1, h2⟩, h3.symm⟩

/-- A slot pointer that waits in a queue or is held by the worker belongs to
an existing spout and is one of its pushed and unreleased slots. -/
theorem Inv_in_flight {K : Constants} {st : IngestionPipeline} (h : Inv K st) {s i : Nat}
    (hmem : (∃ q, TValPtr.slot s i ∈ st.queues_ q) ∨ TValPtr.slot s i ∈ st.worker.held) :
    s < st.nspouts ∧ ∃ c, (st.spouts s).deleted_ ≤ c ∧ c < (st.spouts s).pushed.length ∧
      i = c % K.POOL_SIZE := by
  have hs : s < st.nspouts := by
    rcases hmem with ⟨q, hq⟩ | hh
    · exact (h.queued q s i hq).1
    · obtain ⟨s1, i1, e, hs1⟩ := h.held _ hh
      injection e with e1 e2; subst e1; exact hs1
  refine ⟨hs, ?_⟩
  have hfl : TValPtr.slot s i ∈ st.flight s := by
    unfold IngestionPipeline.flight
    rw [mem_filter_ofSpout, List.mem_append]
    rcases hmem with ⟨q, hq⟩ | hh
    · right; rw [(h.queued q s i hq).2]; exact hq
    · left; exact hh
  have hsp := h.spout s hs
  rw [hsp.flight_eq, mem_slots_from] at hfl
  obtain ⟨c, h1, h2, h3⟩ := hfl
  injection h3 with _ h3
  have := hsp.deleted_le
  exact ⟨c, h1, by omega, h3⟩

/-! ## The drain invariant -/

theorem drained_count_congr (st st1 : IngestionPipeline) (k : Nat)
    (h : ∀ q, q < k → (st1.queues_ q).isEmpty = (st.queues_ q).isEmpty) :
    st1.drained_count k = st.drained_count k := by
  unfold IngestionPipeline.drained_count
  congr 1
  apply List.filter_congr
  intro q hq
  exact h q (List.mem_range.1 hq)

theorem drained_count_succ (st : IngestionPipeline) (k : Nat) :
    st.drained_count (k + 1)
      = st.drained_count k + (if (st.queues_ k).isEmpty then 1 else 0) := by
  unfold IngestionPipeline.drained_count
  rw [List.range_succ, List.filter_append, List.length_append]
  by_cases h : (st.queues_ k).isEmpty <;> simp [h]

theorem drained_count_le (st : IngestionPipeline) (k : Nat) : st.drained_count k ≤ k := by
  unfold IngestionPipeline.drained_count
  calc ((List.range k).filter _).length ≤ (List.range k).length := List.length_filter_le _ _
    _ = k := List.length_range k

/-- Popping the last element of one of the first `k` queues makes one more of
them empty. -/
theorem drained_count_pop (st st1 : IngestionPipeline) (k q : Nat) (hq : q < k)
    (hne : st.queues_ q ≠ []) (h1 : st1.queues_ = Function.update st.queues_ q []) :
    st1.drained_count k = st.drained_count k + 1 := by
  induction k with
  | zero => omega
  | succ k ih =>
    rw [drained_count_succ, drained_count_succ]
    by_cases e : q = k
    · subst e
      have hc : st1.drained_count q = st.drained_count q := by
        apply drained_count_congr
        intro q1 hq1
        rw [h1, Function.update_noteq (by omega)]
      have e1 : (st1.queues_ q).isEmpty = true := by rw [h1]; simp
      have e2 : (st.queues_ q).isEmpty = false := by
        cases hl : st.queues_ q with
        | nil => exact absurd hl hne
        | cons a l => rfl
      rw [hc, e1, e2]; simp
    · have hlt : q < k := by omega
      have e1 : st1.queues_ k = st.queues_ k := by
        rw [h1, Function.update_noteq (by omega)]
      rw [ih hlt, e1]; omega

/-- All of the first `k` queues are empty when the count says so. -/
theorem drained_count_full (st : IngestionPipeline) (k : Nat) (h : st.drained_count k = k) :
    ∀ q, q < k → st.queues_ q = [] := by
  induction k with
  | zero => intro q hq; omega
  | succ k ih =>
    rw [drained_count_succ] at h
    have hle := drained_count_le st k
    by_cases e : (st.queues_ k).isEmpty
    · rw [if_pos e] at h
      intro q hq
      by_cases e1 : q = k
      · subst e1; exact List.isEmpty_iff.1 e
      · exact ih (by omega) q (by omega)
    · rw [if_neg e] at h; omega

theorem wrap32_of_small (x : Int) (h1 : -(2 ^ 31) ≤ x) (h2 : x < 2 ^ 31) : wrap32 x = x := by
  unfold wrap32
  have : (x + 2 ^ 31) % 2 ^ 32 = x + 2 ^ 31 := by
    apply Int.emod_eq_of_lt <;> omega
  rw [this]; omega

/-- The drain invariant speaks of the queues, of the state of `stop()` and
of the worker's poison count and phase only. -/
theorem DrainInv_frame (K : Constants) (st st1 : IngestionPipeline) (h : DrainInv K st)
    (hq : st1.queues_ = st.queues_) (hs : st1.stop_ix = st.stop_ix)
    (hc : st1.worker.poison_cnt = st.worker.poison_cnt)
    (hp : st1.worker.phase = WorkerPhase.stopped ↔ st.worker.phase = WorkerPhase.stopped) :
    DrainInv K st1 := by
  constructor
  · intro h0
    rw [hs] at h0
    obtain ⟨h1, h2, h3⟩ := h.before h0
    exact ⟨by rw [hq]; exact h1, by rw [hc]; exact h2, fun e => h3 (hp.1 e)⟩
  · intro k hk
    rw [hs] at hk
    obtain ⟨h1, h2, h3, h4⟩ := h.during k hk
    refine ⟨h1, by rw [hq]; exact h2, by rw [hq]; exact h3, ?_⟩
    rw [hc, h4]
    congr 1
    exact (drained_count_congr st st1 k (fun q _ => by rw [hq])).symm
  · intro e
    rw [hc]; exact h.stopped (hp.1 e)
  · intro e
    rw [hc]; exact h.running (fun e1 => e (hp.2 e1))

theorem DrainInv_new (K : Constants) (hK : K.WellFormed) (bp : BackoffPolicy) :
    DrainInv K (IngestionPipeline.new bp) := by
  constructor
  · intro _
    simp [IngestionPipeline.new]
  · intro k hk; simp [IngestionPipeline.new] at hk
  · intro e; simp [IngestionPipeline.new] at e
  · intro _
    have := hK.1
    simp only [IngestionPipeline.new]
    omega

theorem DrainInv_stop_step (K : Constants) (st : IngestionPipeline) (h : DrainInv K st) :
    DrainInv K (st.stop_step K) := by
  unfold IngestionPipeline.stop_step
  split
  · rename_i h0
    obtain ⟨h1, h2, h3⟩ := h.before h0
    constructor
    · intro e; simp at e
    · intro k hk
      simp only [Option.some.injEq] at hk
      subst hk
      refine ⟨Nat.zero_le _, fun q _ _ => h1 q, fun q hq => absurd hq (Nat.not_lt_zero q), ?_⟩
      simp [h2, IngestionPipeline.drained_count]
    · intro e; exact absurd e h3
    · exact h.running
  · rename_i i hi
    obtain ⟨h1, h2, h3, h4⟩ := h.during i hi
    split
    · rename_i hlt
      split
      · constructor
        · intro e; simp at e
        · intro k hk
          simp only [Option.some.injEq] at hk
          subst hk
          refine ⟨hlt, ?_, ?_, ?_⟩
          · intro q hq hqN
            dsimp only
            rw [Function.update_noteq (by omega)]
            exact h2 q (by omega) hqN
          · intro q hq
            dsimp only
            by_cases e : q = i
            · subst e
              right
              exact ⟨st.queues_ q, by simp, h2 q (le_refl _) hlt⟩
            · rw [Function.update_noteq e]
              exact h3 q (by omega)
          · simp only
            rw [drained_count_succ]
            simp only [Function.update_same]
            have e1 : (st.queues_ i ++ [TValPtr.POISON]).isEmpty = false := by
              cases st.queues_ i <;> rfl
            rw [e1, h4]
            simp only [Bool.false_eq_true, if_false, Nat.add_zero, Nat.cast_inj]
            symm
            apply drained_count_congr
            intro q hq
            simp only
            rw [Function.update_noteq (by omega)]
        · exact h.stopped
        · exact h.running
      · exact h
    · exact h

theorem DrainInv_worker_poll (K : Constants) (hK : K.WellFormed) (con : DbConnection)
    (st : IngestionPipeline) (hI : Inv K st) (h : DrainInv K st)
    (hph : st.worker.phase = WorkerPhase.poll) : DrainInv K (st.worker_step K con) := by
  have hheld : st.worker.held = [] := by simp [Worker.held, hph]
  obtain ⟨-, hN, -⟩ := hK
  unfold IngestionPipeline.worker_step
  simp only [hph]
  split
  · exact DrainInv_frame K st _ h rfl rfl rfl (by simp [hph])
  · rename_i q hq
    have hqN : q < K.N_QUEUES := queues_at_some K _ q hq
    split
    · exact DrainInv_frame K st _ h rfl rfl rfl (by simp [hph])
    · rename_i val rest hqv
      cases val with
      | POISON =>
        simp only [IngestionPipeline.deref, POISON, if_true]
        have hmem : TValPtr.POISON ∈ st.queues_ q := by rw [hqv]; simp
        cases hs : st.stop_ix with
        | none => exact absurd hmem ((h.before hs).1 q)
        | some k =>
          obtain ⟨h1, h2, h3, h4⟩ := h.during k hs
          have hqk : q < k := by
            by_contra hc
            exact h2 q (by omega) hqN hmem
          have hrest : rest = [] := by
            rcases h3 q hqk with e | ⟨items, e1, e2⟩
            · rw [hqv] at e; exact absurd e (by simp)
            · rw [hqv] at e1
              cases items with
              | nil => simpa using e1
              | cons a t =>
                simp only [List.cons_append, List.cons.injEq] at e1
                exact absurd (by rw [← e1.1]; simp) e2
          subst hrest
          have hpop : ∀ st1 : IngestionPipeline,
              st1.queues_ = Function.update st.queues_ q [] →
              st1.drained_count k = st.drained_count k + 1 := by
            intro st1 e1
            exact drained_count_pop st st1 k q hqk (by rw [hqv]; simp) e1
          have hle : st.drained_count k + 1 ≤ k := by
            have e1 := hpop { st with queues_ := Function.update st.queues_ q [] } rfl
            have e2 := drained_count_le { st with queues_ := Function.update st.queues_ q [] } k
            omega
          have hcnt : wrap32 (st.worker.poison_cnt + 1) = ((st.drained_count k + 1 : Nat) : Int) := by
            rw [h4, wrap32_of_small] <;> push_cast <;> omega
          have hdur : ∀ st1 : IngestionPipeline,
              st1.queues_ = Function.update st.queues_ q [] → st1.stop_ix = some k →
              st1.worker.poison_cnt = wrap32 (st.worker.poison_cnt + 1) →
              (st1.worker.phase = WorkerPhase.stopped ↔
                wrap32 (st.worker.poison_cnt + 1) = (K.N_QUEUES : Int)) →
              DrainInv K st1 := by
            intro st1 e1 e2 e3 e4
            constructor
            · intro e; rw [e2] at e; simp at e
            · intro k1 hk1
              rw [e2] at hk1
              simp only [Option.some.injEq] at hk1
              subst hk1
              refine ⟨h1, ?_, ?_, ?_⟩
              · intro q1 hq1 hq1N
                rw [e1, Function.update_noteq (by omega)]
                exact h2 q1 hq1 hq1N
              · intro q1 hq1
                rw [e1]
                by_cases e : q1 = q
                · subst e; left; simp
                · rw [Function.update_noteq e]; exact h3 q1 hq1
              · rw [e3, hcnt, hpop st1 e1]
            · intro e; rw [e3]; exact e4.1 e
            · intro e
              rw [e3]
              have e5 : ¬ wrap32 (st.worker.poison_cnt + 1) = (K.N_QUEUES : Int) :=
                fun e6 => e (e4.2 e6)
              rw [hcnt] at e5 ⊢
              have : st.drained_count k + 1 ≠ K.N_QUEUES := fun e6 => e5 (by rw [e6])
              have : st.drained_count k + 1 < K.N_QUEUES := by omega
              exact_mod_cast this
          split
          · rename_i hfin
            exact hdur _ rfl rfl rfl (by simp [hfin])
          · rename_i hfin
            exact hdur _ rfl rfl rfl (by simp [hph, hfin])
      | slot s i =>
        obtain ⟨-, -, -, -, -, hcnt, -⟩ := Inv_queue_head hI hheld hqv
        simp only [IngestionPipeline.deref, hcnt]
        simp only [reduceCtorEq, if_false]
        have hsub : ∀ q1, ∀ p, p ∈ Function.update st.queues_ q rest q1 → p ∈ st.queues_ q1 := by
          intro q1 p hp
          by_cases e : q1 = q
          · subst e
            rw [Function.update_same] at hp
            rw [hqv]; exact List.mem_cons_of_mem _ hp
          · rw [Function.update_noteq e] at hp; exact hp
        constructor
        · intro e
          obtain ⟨h1, h2, h3⟩ := h.before e
          exact ⟨fun q1 hp => h1 q1 (hsub q1 _ hp), h2, by simp⟩
        · intro k hk
          obtain ⟨h1, h2, h3, h4⟩ := h.during k hk
          refine ⟨h1, fun q1 hq1 hq1N hp => h2 q1 hq1 hq1N (hsub q1 _ hp), ?_, ?_⟩
          · intro q1 hq1
            dsimp only
            by_cases e : q1 = q
            · subst e
              rw [Function.update_same]
              right
              rcases h3 q1 hq1 with e | ⟨items, e1, e2⟩
              · rw [hqv] at e; exact absurd e (by simp)
              · rw [hqv] at e1
                cases items with
                | nil => simp at e1
                | cons a t =>
                  simp only [List.cons_append, List.cons.injEq] at e1
                  exact ⟨t, e1.2, fun hm => e2 (List.mem_cons_of_mem _ hm)⟩
            · rw [Function.update_noteq e]; exact h3 q1 hq1
          · dsimp only
            rw [h4]
            congr 1
            symm
            apply drained_count_congr
            intro q1 hq1
            dsimp only
            by_cases e : q1 = q
            · subst e
              rw [Function.update_same, hqv]
              rcases h3 q1 hq1 with e | ⟨items, e1, e2⟩
              · rw [hqv] at e; exact absurd e (by simp)
              · rw [hqv] at e1
                cases items with
                | nil => simp at e1
                | cons a t =>
                  simp only [List.cons_append, List.cons.injEq] at e1
                  rw [e1.2]; cases t <;> rfl
            · rw [Function.update_noteq e]
        · intro e; simp at e
        · intro _; exact h.running (by simp [hph])

theorem DrainInv_worker_step (K : Constants) (hK : K.WellFormed) (con : DbConnection)
    (st : IngestionPipeline) (hI : Inv K st) (h : DrainInv K st) :
    DrainInv K (st.worker_step K con) := by
  cases hph : st.worker.phase with
  | poll => exact DrainInv_worker_poll K hK con st hI h hph
  | popped val =>
    unfold IngestionPipeline.worker_step
    simp only [hph]
    exact DrainInv_frame K st _ h rfl rfl rfl (by simp [hph])
  | written val error =>
    unfold IngestionPipeline.worker_step
    simp only [hph]
    repeat' split
    all_goals exact DrainInv_frame K st _ h rfl rfl rfl (by simp [hph])
  | stopped => unfold IngestionPipeline.worker_step; simp only [hph]; exact h
  | crashed => unfold IngestionPipeline.worker_step; simp only [hph]; exact h

theorem DrainInv_write_step (K : Constants) (st : IngestionPipeline) (h : DrainInv K st)
    (h0 : st.stop_ix = none) (s : Nat) : DrainInv K (st.write_step K s) := by
  unfold IngestionPipeline.write_step
  simp only
  split
  · exact h
  · split
    · split
      · exact DrainInv_frame K st _ h rfl rfl rfl Iff.rfl
      · exact DrainInv_frame K st _ h rfl rfl rfl Iff.rfl
    · exact DrainInv_frame K st _ h rfl rfl rfl Iff.rfl
  · exact DrainInv_frame K st _ h rfl rfl rfl Iff.rfl
  split
  swap
  · exact h
  obtain ⟨h1, h2, h3⟩ := h.before h0
  constructor
  · intro _
    refine ⟨?_, h2, h3⟩
    intro q hp
    dsimp only at hp
    by_cases e : q = (st.spouts s).queue_
    · subst e
      rw [Function.update_same] at hp
      simp only [List.mem_append, List.mem_singleton, reduceCtorEq, or_false] at hp
      exact h1 _ hp
    · rw [Function.update_noteq e] at hp; exact h1 q hp
  · intro k hk; rw [h0] at hk; simp at hk
  · intro e; exact absurd e h3
  · exact h.running

theorem DrainInv_step (K : Constants) (hK : K.WellFormed) (con : DbConnection)
    (st : IngestionPipeline) (hI : Inv K st) (h : DrainInv K st) (e : Event)
    (he : st.stop_ix = none ∨ e.quiet = true) : DrainInv K (st.step K con e) := by
  cases e with
  | make_spout =>
    simp only [IngestionPipeline.step, IngestionPipeline.make_spout]
    split
    · exact DrainInv_frame K st _ h rfl rfl rfl Iff.rfl
    · exact DrainInv_frame K st _ h rfl rfl rfl Iff.rfl
  | set_error_cb s cb =>
    simp only [IngestionPipeline.step]
    split
    · exact DrainInv_frame K st _ h rfl rfl rfl Iff.rfl
    · exact h
  | write s x =>
    simp only [IngestionPipeline.step]
    split
    · exact DrainInv_frame K st _ h rfl rfl rfl Iff.rfl
    · exact h
  | producer s =>
    simp only [IngestionPipeline.step]
    split
    · rcases he with he | he
      · exact DrainInv_write_step K st h he s
      · simp [Event.quiet] at he
    · exact h
  | worker => exact DrainInv_worker_step K hK con st hI h
  | stop => exact DrainInv_stop_step K st h

theorem step_stop_ix (K : Constants) (con : DbConnection) (st : IngestionPipeline)
    (e : Event) (he : e ≠ Event.stop) : (st.step K con e).stop_ix = st.stop_ix := by
  cases e with
  | make_spout =>
    simp only [IngestionPipeline.step, IngestionPipeline.make_spout]
    split <;> rfl
  | set_error_cb s cb =>
    simp only [IngestionPipeline.step]
    split <;> rfl
  | write s x =>
    simp only [IngestionPipeline.step]
    split <;> rfl
  | producer s =>
    simp only [IngestionPipeline.step, IngestionPipeline.write_step]
    repeat' split
    all_goals rfl
  | worker =>
    simp only [IngestionPipeline.step, IngestionPipeline.worker_step]
    repeat' split
    all_goals rfl
  | stop => exact absurd rfl he

/-- As long as `stop()` has not been called the drain invariant is kept by
every schedule. -/
theorem DrainInv_run_before (K : Constants) (hK : K.WellFormed) (con : DbConnection)
    (evs : List Event) (hevs : ∀ e, e ∈ evs → e ≠ Event.stop) (st : IngestionPipeline)
    (hI : Inv K st) (h : DrainInv K st) (h0 : st.stop_ix = none) :
    DrainInv K (st.run K con evs) ∧ (st.run K con evs).stop_ix = none := by
  induction evs generalizing st with
  | nil => exact ⟨h, h0⟩
  | cons e evs ih =>
    have he : e ≠ Event.stop := hevs e (by simp)
    apply ih (fun e1 h1 => hevs e1 (List.mem_cons_of_mem _ h1)) _
      (Inv_step K hK con st hI e) (DrainInv_step K hK con st hI h e (Or.inl h0))
    rw [step_stop_ix K con st e he]; exact h0

/-- Without steps of producers the drain invariant is kept. -/
theorem DrainInv_run_quiet (K : Constants) (hK : K.WellFormed) (con : DbConnection)
    (evs : List Event) (hevs : ∀ e, e ∈ evs → e.quiet = true) (st : IngestionPipeline)
    (hI : Inv K st) (h : DrainInv K st) : DrainInv K (st.run K con evs) := by
  induction evs generalizing st with
  | nil => exact h
  | cons e evs ih =>
    exact ih (fun e1 h1 => hevs e1 (List.mem_cons_of_mem _ h1)) _
      (Inv_step K hK con st hI e)
      (DrainInv_step K hK con st hI h e (Or.inr (hevs e (by simp))))

theorem run_append (K : Constants) (con : DbConnection) (st : IngestionPipeline)
    (l1 l2 : List Event) : st.run K con (l1 ++ l2) = (st.run K con l1).run K con l2 := by
  unfold IngestionPipeline.run
  rw [List.foldl_append]

/-- A log that names slots of the first `n` spouts only is as long as its
parts for these spouts together. -/
theorem length_eq_sum_of_spouts (l : List (TValPtr × aku_Sample)) (n : Nat)
    (h : ∀ e, e ∈ l → ∃ s i, e.1 = TValPtr.slot s i ∧ s < n) :
    l.length = Finset.sum (Finset.range n)
      (fun s => ((l.filter (fun e => e.1.ofSpout s)).map Prod.snd).length) := by
  induction l with
  | nil => simp
  | cons e l ih =>
    obtain ⟨s0, i, e1, hs0⟩ := h e (by simp)
    have ih1 := ih (fun e2 h2 => h e2 (List.mem_cons_of_mem _ h2))
    have key : ∀ s, (((e :: l).filter (fun e => e.1.ofSpout s)).map Prod.snd).length
        = (if s0 = s then 1 else 0) + ((l.filter (fun e => e.1.ofSpout s)).map Prod.snd).length := by
      intro s
      by_cases hs : s0 = s
      · simp [List.filter_cons, e1, TValPtr.ofSpout, hs]; omega
      · simp [List.filter_cons, e1, TValPtr.ofSpout, hs]
    simp only [key, Finset.sum_add_distrib, ← ih1, List.length_cons]
    rw [Finset.sum_ite_eq]
    simp [hs0]; omega

/-- What the two invariants say once the worker has reached the stop
barrier. -/
theorem drained_of_stopped (K : Constants) (st : IngestionPipeline) (hI : Inv K st)
    (hD : DrainInv K st) (hph : st.worker.phase = WorkerPhase.stopped) :
    (∀ q, q < K.N_QUEUES → st.queues_ q = []) ∧
    (∀ s, s < st.nspouts → st.written_of s = (st.spouts s).pushed) ∧
    st.written.length = st.enqueued := by
  have hcnt := hD.stopped hph
  have hq : ∀ q, q < K.N_QUEUES → st.queues_ q = [] := by
    cases hs : st.stop_ix with
    | none => exact absurd hph (hD.before hs).2.2
    | some k =>
      obtain ⟨h1, -, -, h4⟩ := hD.during k hs
      have hle := drained_count_le st k
      rw [h4] at hcnt
      have hk : k = K.N_QUEUES := by omega
      subst hk
      exact drained_count_full st _ (by omega)
  have hw : ∀ s, s < st.nspouts → st.written_of s = (st.spouts s).pushed := by
    intro s hs
    have hsp := hI.spout s hs
    have hfl : st.flight s = [] := by
      simp [IngestionPipeline.flight, Worker.held, hph, hq _ hsp.queue_lt]
    have hu : st.unreleased s = 0 := by simp [IngestionPipeline.unreleased, hph]
    have h1 := hsp.flight_eq
    have h2 := hsp.deleted_le
    rw [hfl] at h1
    have h3 : (st.spouts s).pushed.length - (st.spouts s).deleted_ = 0 := by
      by_contra hc
      obtain ⟨m, hm⟩ := Nat.exists_eq_succ_of_ne_zero hc
      rw [hm, slots_from_succ] at h1
      exact absurd h1 (by simp)
    rw [hsp.written_eq, hu]
    apply List.take_of_length_le
    omega
  refine ⟨hq, hw, ?_⟩
  rw [length_eq_sum_of_spouts st.written st.nspouts hI.logged]
  unfold IngestionPipeline.enqueued
  apply Finset.sum_congr rfl
  intro s hs
  have := hw s (Finset.mem_range.1 hs)
  unfold IngestionPipeline.written_of at this
  rw [this]

/-! ## Termination of the worker -/

theorem queues_at_tmod (K : Constants) (hN : 0 < K.N_QUEUES) (i : Int) (hi : 0 ≤ i) :
    queues_at K (Int.tmod i (K.N_QUEUES : Int)) = some (i.toNat % K.N_QUEUES) := by
  obtain ⟨j, rfl⟩ := Int.eq_ofNat_of_zero_le hi
  rw [Int.tmod_eq_emod (by omega) (by omega)]
  have e : ((j : Int) % (K.N_QUEUES : Int)) = ((j % K.N_QUEUES : Nat) : Int) := by
    norm_cast
  have hlt : j % K.N_QUEUES < K.N_QUEUES := Nat.mod_lt _ hN
  unfold queues_at
  rw [e, if_pos (by constructor <;> omega), Int.toNat_ofNat, Int.toNat_ofNat]

/-- The worker changes neither the state of `stop()`, nor the number of
spouts, nor a registered callback. -/
theorem worker_step_static (K : Constants) (con : DbConnection) (st : IngestionPipeline) :
    (st.worker_step K con).stop_ix = st.stop_ix ∧
    (st.worker_step K con).nspouts = st.nspouts ∧
    ∀ s, ((st.worker_step K con).spouts s).on_error_ = (st.spouts s).on_error_ := by
  refine ⟨?_, ?_, ?_⟩
  · simp only [IngestionPipeline.worker_step]
    repeat' split
    all_goals rfl
  · simp only [IngestionPipeline.worker_step]
    repeat' split
    all_goals rfl
  · intro s
    simp only [IngestionPipeline.worker_step]
    repeat' split
    all_goals first
      | rfl
      | (simp only [Function.update_apply]; split <;> simp_all)

theorem queued_pop (K : Constants) (st st1 : IngestionPipeline) (q : Nat)
    (hq : q < K.N_QUEUES) (val : TValPtr) (rest : List TValPtr)
    (h : st.queues_ q = val :: rest) (h1 : st1.queues_ = Function.update st.queues_ q rest) :
    st1.queued K + 1 = st.queued K := by
  unfold IngestionPipeline.queued
  have hmem : q ∈ Finset.range K.N_QUEUES := Finset.mem_range.2 hq
  rw [← Finset.add_sum_erase _ _ hmem, ← Finset.add_sum_erase _ (fun q => (st.queues_ q).length) hmem]
  have e1 : ∀ x ∈ (Finset.range K.N_QUEUES).erase q,
      (st1.queues_ x).length = (st.queues_ x).length := by
    intro x hx
    rw [h1, Function.update_noteq (Finset.ne_of_mem_erase hx)]
  rw [Finset.sum_congr rfl e1, h1, Function.update_same, h]
  simp only [List.length_cons]
  omega

/-- A worker step keeps the draining situation when the worker stays in the
loop with a counter that is not negative and with a status it can report. -/
theorem Draining_of_step (K : Constants) (hK : K.WellFormed) (con : DbConnection)
    (st : IngestionPipeline) (h : Draining K con st)
    (h1 : 0 ≤ (st.worker_step K con).worker.ix)
    (h2 : (st.worker_step K con).worker.phase ≠ WorkerPhase.crashed)
    (h3 : ∀ val error, (st.worker_step K con).worker.phase = WorkerPhase.written val error →
      error ≠ aku_Status.AKU_SUCCESS → ∀ s, s < st.nspouts → (st.spouts s).on_error_ ≠ none) :
    Draining K con (st.worker_step K con) := by
  obtain ⟨e1, e2, e3⟩ := worker_step_static K con st
  constructor
  · exact Inv_worker_step K con st h.inv
  · exact DrainInv_worker_step K hK con st h.inv h.drain
  · rw [e1]; exact h.stop_all
  · exact h1
  · rcases h.callbacks with hc | hc
    · left
      intro s hs
      rw [e3]; rw [e2] at hs; exact hc s hs
    · right; exact hc
  · intro val error hv he s hs
    rw [e3]; rw [e2] at hs
    exact h3 val error hv he s hs
  · exact h2

theorem Draining_poll_empty (K : Constants) (hK : K.WellFormed) (con : DbConnection)
    (st : IngestionPipeline) (h : Draining K con st)
    (hph : st.worker.phase = WorkerPhase.poll)
    (hq : st.queues_ (st.worker.ix.toNat % K.N_QUEUES) = [])
    (hix : st.worker.ix + 1 < 2 ^ 31) :
    Draining K con (st.worker_step K con) ∧
    (st.worker_step K con).worker.phase = WorkerPhase.poll ∧
    (st.worker_step K con).queues_ = st.queues_ ∧
    (st.worker_step K con).worker.ix = st.worker.ix + 1 := by
  have hnn := h.ix_nonneg
  have hw : wrap32 (st.worker.ix + 1) = st.worker.ix + 1 :=
    wrap32_of_small _ (by omega) hix
  have hph1 : (st.worker_step K con).worker.phase = WorkerPhase.poll := by
    unfold IngestionPipeline.worker_step
    simp only [hph, queues_at_tmod K hK.1 _ hnn, hq]
  have hq1 : (st.worker_step K con).queues_ = st.queues_ := by
    unfold IngestionPipeline.worker_step
    simp only [hph, queues_at_tmod K hK.1 _ hnn, hq]
  have hix1 : (st.worker_step K con).worker.ix = st.worker.ix + 1 := by
    unfold IngestionPipeline.worker_step
    simp only [hph, queues_at_tmod K hK.1 _ hnn, hq, hw]
  refine ⟨Draining_of_step K hK con st h ?_ ?_ ?_, hph1, hq1, hix1⟩
  · rw [hix1]; omega
  · rw [hph1]; simp
  · intro val error hv; rw [hph1] at hv; simp at hv

theorem Draining_poll_poison (K : Constants) (hK : K.WellFormed) (con : DbConnection)
    (st : IngestionPipeline) (h : Draining K con st)
    (hph : st.worker.phase = WorkerPhase.poll) (rest : List TValPtr)
    (hq : st.queues_ (st.worker.ix.toNat % K.N_QUEUES) = TValPtr.POISON :: rest)
    (hix : st.worker.ix + 1 < 2 ^ 31) :
    (st.worker_step K con).worker.phase = WorkerPhase.stopped ∨
    (Draining K con (st.worker_step K con) ∧
     (st.worker_step K con).worker.phase = WorkerPhase.poll ∧
     (st.worker_step K con).queued K + 1 = st.queued K ∧
     (st.worker_step K con).worker.ix = st.worker.ix + 1) := by
  have hnn := h.ix_nonneg
  have hlt : st.worker.ix.toNat % K.N_QUEUES < K.N_QUEUES := Nat.mod_lt _ hK.1
  have hw : wrap32 (st.worker.ix + 1) = st.worker.ix + 1 :=
    wrap32_of_small _ (by omega) hix
  by_cases hfin : wrap32 (st.worker.poison_cnt + 1) = (K.N_QUEUES : Int)
  · left
    unfold IngestionPipeline.worker_step
    simp only [hph, queues_at_tmod K hK.1 _ hnn, hq, IngestionPipeline.deref, POISON, if_true,
      hfin]
  · right
    have hph1 : (st.worker_step K con).worker.phase = WorkerPhase.poll := by
      unfold IngestionPipeline.worker_step
      simp only [hph, queues_at_tmod K hK.1 _ hnn, hq, IngestionPipeline.deref, POISON, if_true,
        hfin, if_false]
    have hq1 : (st.worker_step K con).queues_
        = Function.update st.queues_ (st.worker.ix.toNat % K.N_QUEUES) rest := by
      unfold IngestionPipeline.worker_step
      simp only [hph, queues_at_tmod K hK.1 _ hnn, hq, IngestionPipeline.deref, POISON, if_true,
        hfin, if_false]
    have hix1 : (st.worker_step K con).worker.ix = st.worker.ix + 1 := by
      unfold IngestionPipeline.worker_step
      simp only [hph, queues_at_tmod K hK.1 _ hnn, hq, IngestionPipeline.deref, POISON, if_true,
        hfin, if_false, hw]
    refine ⟨Draining_of_step K hK con st h ?_ ?_ ?_, hph1, ?_, hix1⟩
    · rw [hix1]; omega
    · rw [hph1]; simp
    · intro val error hv; rw [hph1] at hv; simp at hv
    · exact queued_pop K st _ _ hlt _ _ hq hq1

theorem Draining_poll_slot (K : Constants) (hK : K.WellFormed) (con : DbConnection)
    (st : IngestionPipeline) (h : Draining K con st)
    (hph : st.worker.phase = WorkerPhase.poll) (s i : Nat) (rest : List TValPtr)
    (hq : st.queues_ (st.worker.ix.toNat % K.N_QUEUES) = TValPtr.slot s i :: rest) :
    Draining K con (st.worker_step K con) ∧
    (st.worker_step K con).worker.phase = WorkerPhase.popped (TValPtr.slot s i) ∧
    (st.worker_step K con).queued K + 1 = st.queued K ∧
    (st.worker_step K con).worker.ix = st.worker.ix := by
  have hnn := h.ix_nonneg
  have hlt : st.worker.ix.toNat % K.N_QUEUES < K.N_QUEUES := Nat.mod_lt _ hK.1
  have hheld : st.worker.held = [] := by simp [Worker.held, hph]
  obtain ⟨-, -, -, -, -, hcnt, -⟩ := Inv_queue_head h.inv hheld hq
  have hph1 : (st.worker_step K con).worker.phase = WorkerPhase.popped (TValPtr.slot s i) := by
    unfold IngestionPipeline.worker_step
    simp only [hph, queues_at_tmod K hK.1 _ hnn, hq, IngestionPipeline.deref, hcnt,
      reduceCtorEq, if_false]
  have hq1 : (st.worker_step K con).queues_
      = Function.update st.queues_ (st.worker.ix.toNat % K.N_QUEUES) rest := by
    unfold IngestionPipeline.worker_step
    simp only [hph, queues_at_tmod K hK.1 _ hnn, hq, IngestionPipeline.deref, hcnt,
      reduceCtorEq, if_false]
  have hix1 : (st.worker_step K con).worker.ix = st.worker.ix := by
    unfold IngestionPipeline.worker_step
    simp only [hph, queues_at_tmod K hK.1 _ hnn, hq, IngestionPipeline.deref, hcnt,
      reduceCtorEq, if_false]
  refine ⟨Draining_of_step K hK con st h ?_ ?_ ?_, hph1, ?_, hix1⟩
  · rw [hix1]; exact hnn
  · rw [hph1]; simp
  · intro val error hv; rw [hph1] at hv; simp at hv
  · exact queued_pop K st _ _ hlt _ _ hq hq1

theorem Draining_popped (K : Constants) (hK : K.WellFormed) (con : DbConnection)
    (st : IngestionPipeline) (h : Draining K con st) (val : TValPtr)
    (hph : st.worker.phase = WorkerPhase.popped val) :
    Draining K con (st.worker_step K con) ∧
    (∃ error, (st.worker_step K con).worker.phase = WorkerPhase.written val error) ∧
    (st.worker_step K con).queues_ = st.queues_ ∧
    (st.worker_step K con).worker.ix = st.worker.ix := by
  have hph1 : (st.worker_step K con).worker.phase = WorkerPhase.written val
      (con.write (st.written.map Prod.snd) (st.deref val).sample) := by
    unfold IngestionPipeline.worker_step
    simp only [hph]
  have hq1 : (st.worker_step K con).queues_ = st.queues_ := by
    unfold IngestionPipeline.worker_step
    simp only [hph]
  have hix1 : (st.worker_step K con).worker.ix = st.worker.ix := by
    unfold IngestionPipeline.worker_step
    simp only [hph]
  refine ⟨Draining_of_step K hK con st h ?_ ?_ ?_, ⟨_, hph1⟩, hq1, hix1⟩
  · rw [hix1]; exact h.ix_nonneg
  · rw [hph1]; simp
  · intro val1 error hv he
    rw [hph1] at hv
    simp only [WorkerPhase.written.injEq] at hv
    rcases h.callbacks with hc | hc
    · exact hc
    · exact absurd (hv.2 ▸ hc _ _) he

theorem Draining_written (K : Constants) (hK : K.WellFormed) (con : DbConnection)
    (st : IngestionPipeline) (h : Draining K con st) (val : TValPtr) (error : aku_Status)
    (hph : st.worker.phase = WorkerPhase.written val error)
    (hix : st.worker.ix + 1 < 2 ^ 31) :
    Draining K con (st.worker_step K con) ∧
    (st.worker_step K con).worker.phase = WorkerPhase.poll ∧
    (st.worker_step K con).queues_ = st.queues_ ∧
    (st.worker_step K con).worker.ix = st.worker.ix + 1 := by
  have hnn := h.ix_nonneg
  have hw : wrap32 (st.worker.ix + 1) = st.worker.ix + 1 :=
    wrap32_of_small _ (by omega) hix
  have hheld : st.worker.held = [val] := by simp [Worker.held, hph]
  obtain ⟨s, i, hval, hs⟩ := h.inv.held val (by simp [hheld])
  subst hval
  have hfl : st.flight s = TValPtr.slot s i ::
      (st.queues_ (st.spouts s).queue_).filter (TValPtr.ofSpout s) := by
    simp [IngestionPipeline.flight, hheld, TValPtr.ofSpout]
  obtain ⟨-, h2, -, -, h5, h6⟩ := SpoutInv_head (h.inv.spout s hs) hfl
  injection h2 with _ h2
  rw [← h2] at h5 h6
  have key : (st.worker_step K con).worker.phase = WorkerPhase.poll ∧
      (st.worker_step K con).queues_ = st.queues_ ∧
      (st.worker_step K con).worker.ix = st.worker.ix + 1 := by
    unfold IngestionPipeline.worker_step
    simp only [hph, IngestionPipeline.deref, h5]
    by_cases he : error = aku_Status.AKU_SUCCESS
    · simp [he, hw]
    · have hcb := h.error_ok _ error hph he s hs
      obtain ⟨cb, hcb1⟩ := Option.ne_none_iff_exists'.1 hcb
      simp [he, hw, h6, hcb1]
  obtain ⟨hph1, hq1, hix1⟩ := key
  refine ⟨Draining_of_step K hK con st h ?_ ?_ ?_, hph1, hq1, hix1⟩
  · rw [hix1]; omega
  · rw [hph1]; simp
  · intro val error hv; rw [hph1] at hv; simp at hv

/-- Among `N` consecutive numbers every residue modulo `N` occurs. -/
theorem exists_offset (N j q : Nat) (hq : q < N) : ∃ d, d < N ∧ (j + d) % N = q := by
  have hN : 0 < N := by omega
  have hr : j % N < N := Nat.mod_lt _ hN
  have hj : j = N * (j / N) + j % N := (Nat.div_add_mod j N).symm
  by_cases h : j % N ≤ q
  · refine ⟨q - j % N, by omega, ?_⟩
    have e : j + (q - j % N) = N * (j / N) + q := by omega
    rw [e, Nat.mul_add_mod, Nat.mod_eq_of_lt hq]
  · refine ⟨N - j % N + q, by omega, ?_⟩
    have e : j + (N - j % N + q) = N * (j / N + 1) + q := by
      rw [Nat.mul_add, Nat.mul_one]; omega
    rw [e, Nat.mul_add_mod, Nat.mod_eq_of_lt hq]

theorem drained_count_all (st : IngestionPipeline) (k : Nat)
    (h : ∀ q, q < k → st.queues_ q = []) : st.drained_count k = k := by
  induction k with
  | zero => rfl
  | succ k ih =>
    rw [drained_count_succ, ih (fun q hq => h q (by omega)), h k (by omega)]
    rfl

theorem drained_count_none (st : IngestionPipeline) (k : Nat)
    (h : ∀ q, q < k → st.queues_ q ≠ []) : st.drained_count k = 0 := by
  induction k with
  | zero => rfl
  | succ k ih =>
    rw [drained_count_succ, ih (fun q hq => h q (by omega))]
    have e : (st.queues_ k).isEmpty = false := by
      cases hl : st.queues_ k with
      | nil => exact absurd hl (h k (by omega))
      | cons a l => rfl
    rw [e]; rfl

/-- The worker passes the empty queues in front of the next one that is not
empty. -/
theorem worker_skips (K : Constants) (hK : K.WellFormed) (con : DbConnection) (d : Nat) :
    ∀ st : IngestionPipeline, Draining K con st → st.worker.phase = WorkerPhase.poll →
    st.queues_ ((st.worker.ix.toNat + d) % K.N_QUEUES) ≠ [] →
    st.worker.ix + (d : Int) + 1 < 2 ^ 31 →
    ∃ n, Draining K con ((IngestionPipeline.worker_step K con)^[n] st) ∧
      ((IngestionPipeline.worker_step K con)^[n] st).worker.phase = WorkerPhase.poll ∧
      ((IngestionPipeline.worker_step K con)^[n] st).queues_ = st.queues_ ∧
      ((IngestionPipeline.worker_step K con)^[n] st).queues_
        (((IngestionPipeline.worker_step K con)^[n] st).worker.ix.toNat % K.N_QUEUES) ≠ [] ∧
      ((IngestionPipeline.worker_step K con)^[n] st).worker.ix ≤ st.worker.ix + (d : Int) := by
  induction d with
  | zero =>
    intro st h hph hq hix
    exact ⟨0, h, hph, rfl, by simpa using hq, by simp⟩
  | succ d ih =>
    intro st h hph hq hix
    by_cases he : st.queues_ (st.worker.ix.toNat % K.N_QUEUES) = []
    · have hnn := h.ix_nonneg
      obtain ⟨h1, h2, h3, h4⟩ := Draining_poll_empty K hK con st h hph he (by omega)
      have e1 : (st.worker_step K con).worker.ix.toNat = st.worker.ix.toNat + 1 := by
        rw [h4]; omega
      obtain ⟨n, g1, g2, g3, g4, g5⟩ := ih (st.worker_step K con) h1 h2
        (by rw [h3, e1]; rw [show st.worker.ix.toNat + 1 + d = st.worker.ix.toNat + (d + 1) by omega]
            exact hq)
        (by rw [h4]; push_cast at hix ⊢; omega)
      refine ⟨n + 1, ?_, ?_, ?_, ?_, ?_⟩
      · rw [Function.iterate_succ_apply]; exact g1
      · rw [Function.iterate_succ_apply]; exact g2
      · rw [Function.iterate_succ_apply, g3, h3]
      · rw [Function.iterate_succ_apply]; exact g4
      · rw [Function.iterate_succ_apply]
        rw [h4] at g5; push_cast; omega
    · exact ⟨0, h, hph, rfl, he, by simp; omega⟩

theorem queued_congr (K : Constants) (st st1 : IngestionPipeline)
    (h : st1.queues_ = st.queues_) : st1.queued K = st.queued K := by
  unfold IngestionPipeline.queued; rw [h]

/-- With poison on every queue the worker reaches the stop barrier. -/
theorem worker_reaches_barrier (K : Constants) (hK : K.WellFormed) (con : DbConnection)
    (T : Nat) : ∀ st : IngestionPipeline, Draining K con st →
    st.worker.phase = WorkerPhase.poll → st.queued K = T →
    st.worker.ix + (K.N_QUEUES : Int) * (T : Int) < 2 ^ 31 →
    ∃ n, ((IngestionPipeline.worker_step K con)^[n] st).worker.phase = WorkerPhase.stopped := by
  induction T with
  | zero =>
    intro st h hph hT _
    exfalso
    have hall : ∀ q, q < K.N_QUEUES → st.queues_ q = [] := by
      intro q hq
      unfold IngestionPipeline.queued at hT
      have := (Finset.sum_eq_zero_iff.1 hT) q (Finset.mem_range.2 hq)
      exact List.length_eq_zero.1 this
    obtain ⟨-, -, -, h4⟩ := h.drain.during _ h.stop_all
    have h5 := h.drain.running (by rw [hph]; simp)
    rw [h4, drained_count_all st _ hall] at h5
    omega
  | succ T ih =>
    intro st h hph hT hix
    have hnn := h.ix_nonneg
    have hN := hK.1
    have hex : ∃ q, q < K.N_QUEUES ∧ st.queues_ q ≠ [] := by
      by_contra hc
      push_neg at hc
      have : st.queued K = 0 := by
        unfold IngestionPipeline.queued
        apply Finset.sum_eq_zero
        intro q hq
        rw [hc q (Finset.mem_range.1 hq)]; rfl
      omega
    obtain ⟨q0, hq0, hne⟩ := hex
    obtain ⟨d, hd, hdq⟩ := exists_offset K.N_QUEUES st.worker.ix.toNat q0 hq0
    have hmul : (K.N_QUEUES : Int) * ((T + 1 : Nat) : Int)
        = (K.N_QUEUES : Int) * (T : Int) + (K.N_QUEUES : Int) := by push_cast; ring
    have hTnn : 0 ≤ (K.N_QUEUES : Int) * (T : Int) := by positivity
    obtain ⟨n1, g1, g2, g3, g4, g5⟩ := worker_skips K hK con d st h hph (by rw [hdq]; exact hne)
      (by omega)
    generalize hst1 : (IngestionPipeline.worker_step K con)^[n1] st = st1 at g1 g2 g3 g4 g5
    have hT1 : st1.queued K = T + 1 := by rw [queued_congr K st st1 g3]; exact hT
    have hix1 : st1.worker.ix + 1 < 2 ^ 31 := by omega
    have hfin : ∀ n2, ((IngestionPipeline.worker_step K con)^[n2] st1).worker.phase
        = WorkerPhase.stopped →
        ∃ n, ((IngestionPipeline.worker_step K con)^[n] st).worker.phase
          = WorkerPhase.stopped := by
      intro n2 e
      refine ⟨n2 + n1, ?_⟩
      rw [Function.iterate_add_apply, hst1]; exact e
    cases hhead : st1.queues_ (st1.worker.ix.toNat % K.N_QUEUES) with
    | nil => exact absurd hhead g4
    | cons val rest =>
      cases val with
      | POISON =>
        rcases Draining_poll_poison K hK con st1 g1 g2 rest hhead hix1 with e | ⟨e1, e2, e3, e4⟩
        · exact hfin 1 e
        · obtain ⟨n3, e5⟩ := ih _ e1 e2 (by omega) (by rw [e4]; omega)
          apply hfin (n3 + 1)
          rw [Function.iterate_succ_apply]; exact e5
      | slot s i =>
        obtain ⟨a1, a2, a3, a4⟩ := Draining_poll_slot K hK con st1 g1 g2 s i rest hhead
        obtain ⟨b1, ⟨error, b2⟩, b3, b4⟩ := Draining_popped K hK con _ a1 _ a2
        obtain ⟨c1, c2, c3, c4⟩ := Draining_written K hK con _ b1 _ error b2
          (by rw [b4, a4]; exact hix1)
        have hq3 : (IngestionPipeline.worker_step K con (IngestionPipeline.worker_step K con
            (IngestionPipeline.worker_step K con st1))).queued K = T := by
          rw [queued_congr K _ _ c3, queued_congr K _ _ b3]; omega
        obtain ⟨n3, e5⟩ := ih _ c1 c2 hq3 (by rw [c4, b4, a4]; omega)
        apply hfin (n3 + 3)
        rw [Function.iterate_add_apply]
        exact e5

theorem Inv_iterate (K : Constants) (con : DbConnection) (st : IngestionPipeline)
    (h : Inv K st) (n : Nat) : Inv K ((IngestionPipeline.worker_step K con)^[n] st) := by
  induction n with
  | zero => exact h
  | succ n ih =>
    rw [Function.iterate_succ_apply']
    exact Inv_worker_step K con _ ih

theorem DrainInv_iterate (K : Constants) (hK : K.WellFormed) (con : DbConnection)
    (st : IngestionPipeline) (hI : Inv K st) (h : DrainInv K st) (n : Nat) :
    DrainInv K ((IngestionPipeline.worker_step K con)^[n] st) := by
  induction n with
  | zero => exact h
  | succ n ih =>
    rw [Function.iterate_succ_apply']
    exact DrainInv_worker_step K hK con _ (Inv_iterate K con st hI n) ih

theorem Tally_update (K : Constants) (st : IngestionPipeline) (h : Tally K st) (s0 : Nat)
    (sp1 : PipelineSpout) (hq : sp1.queue_ = (st.spouts s0).queue_)
    (hr : sp1.returned = sp1.pushed.length + sp1.dropped) (st1 : IngestionPipeline)
    (h1 : st1.ixmake_ = st.ixmake_) (h2 : st1.nspouts = st.nspouts)
    (h3 : st1.spouts = Function.update st.spouts s0 sp1) : Tally K st1 := by
  constructor
  · rw [h1, h2]; exact h.ixmake_eq
  · intro s hs
    rw [h2] at hs
    rw [h3]
    by_cases e : s = s0
    · subst e; rw [Function.update_same, hq]; exact h.queue_eq s hs
    · rw [Function.update_noteq e]; exact h.queue_eq s hs
  · intro s
    rw [h3]
    by_cases e : s = s0
    · subst e; rw [Function.update_same]; exact hr
    · rw [Function.update_noteq e]; exact h.returned_eq s

theorem Tally_same (K : Constants) (st : IngestionPipeline) (h : Tally K st)
    (st1 : IngestionPipeline) (h1 : st1.ixmake_ = st.ixmake_) (h2 : st1.nspouts = st.nspouts)
    (h3 : st1.spouts = st.spouts) : Tally K st1 := by
  constructor
  · rw [h1, h2]; exact h.ixmake_eq
  · intro s hs; rw [h2] at hs; rw [h3]; exact h.queue_eq s hs
  · intro s; rw [h3]; exact h.returned_eq s

theorem Tally_new (K : Constants) (bp : BackoffPolicy) : Tally K (IngestionPipeline.new bp) := by
  constructor
  · rfl
  · intro s hs; simp [IngestionPipeline.new] at hs
  · intro s; simp [IngestionPipeline.new, PipelineSpout.new]

theorem Tally_step (K : Constants) (hK : K.WellFormed) (con : DbConnection)
    (st : IngestionPipeline) (h : Tally K st) (e : Event) : Tally K (st.step K con e) := by
  cases e with
  | make_spout =>
    have hlt : (st.ixmake_ + 1) % K.N_QUEUES < K.N_QUEUES := Nat.mod_lt _ hK.1
    have hq : queues_at K (((st.ixmake_ + 1) % K.N_QUEUES : Nat) : Int)
        = some ((st.ixmake_ + 1) % K.N_QUEUES) := by
      unfold queues_at
      rw [if_pos (by constructor <;> omega), Int.toNat_ofNat]
    simp only [IngestionPipeline.step, IngestionPipeline.make_spout, hq]
    constructor
    · simp only; rw [h.ixmake_eq]
    · intro s hs
      simp only at hs ⊢
      by_cases e : s = st.nspouts
      · subst e; rw [Function.update_same, h.ixmake_eq]; rfl
      · rw [Function.update_noteq e]; exact h.queue_eq s (by omega)
    · intro s
      simp only
      by_cases e : s = st.nspouts
      · subst e; rw [Function.update_same]; simp [PipelineSpout.new]
      · rw [Function.update_noteq e]; exact h.returned_eq s
  | set_error_cb s cb =>
    simp only [IngestionPipeline.step]
    split
    · refine Tally_update K st h s _ ?_ ?_ _ rfl rfl rfl
      · rfl
      · exact h.returned_eq s
    · exact h
  | write s x =>
    simp only [IngestionPipeline.step]
    split
    · have := h.returned_eq s
      unfold PipelineSpout.write_enter
      by_cases hneg : ((st.spouts s).get_index_of_empty_slot K).1 < 0
      · simp only [hneg, if_true, get_index_of_neg K _ hneg]
        refine Tally_update K st h s _ ?_ ?_ _ rfl rfl rfl
        · rfl
        · exact this
      · obtain ⟨h1, h2, h3⟩ := get_index_of_nonneg K _ hneg
        simp only [hneg, if_false, h2, h3]
        refine Tally_update K st h s _ ?_ ?_ _ rfl rfl rfl
        · rfl
        · exact this
    · exact h
  | producer s =>
    simp only [IngestionPipeline.step]
    split
    swap
    · exact h
    have := h.returned_eq s
    unfold IngestionPipeline.write_step
    simp only
    split
    · exact h
    · by_cases hneg : ((st.spouts s).get_index_of_empty_slot K).1 < 0
      · simp only [hneg, if_true, get_index_of_neg K _ hneg]
        split
        · refine Tally_update K st h s _ ?_ ?_ _ rfl rfl rfl
          · rfl
          · exact this
        · refine Tally_update K st h s _ ?_ ?_ _ rfl rfl rfl
          · rfl
          · simp only; omega
      · obtain ⟨h1, h2, h3⟩ := get_index_of_nonneg K _ hneg
        simp only [hneg, if_false, h2, h3]
        refine Tally_update K st h s _ ?_ ?_ _ rfl rfl rfl
        · rfl
        · exact this
    · refine Tally_update K st h s _ ?_ ?_ _ rfl rfl rfl
      · rfl
      · exact this
    · split
      · refine Tally_update K st h s _ ?_ ?_ _ rfl rfl rfl
        · rfl
        · simp only [List.length_append, List.length_singleton]; omega
      · exact h
  | worker =>
    simp only [IngestionPipeline.step, IngestionPipeline.worker_step]
    repeat' split
    all_goals first
      | exact h
      | exact Tally_same K st h _ rfl rfl rfl
      | (refine Tally_update K st h _ _ ?_ ?_ _ rfl rfl rfl
         · rfl
         · exact h.returned_eq _)
  | stop =>
    simp only [IngestionPipeline.step, IngestionPipeline.stop_step]
    repeat' split
    all_goals first
      | exact h
      | exact Tally_same K st h _ rfl rfl rfl

theorem Tally_of_reachable (K : Constants) (hK : K.WellFormed) (con : DbConnection)
    (bp : BackoffPolicy) (st : IngestionPipeline) (h : Reachable K con bp st) : Tally K st := by
  obtain ⟨evs, rfl⟩ := h
  have key : ∀ (l : List Event) (st0 : IngestionPipeline), Tally K st0 →
      Tally K (st0.run K con l) := by
    intro l
    induction l with
    | nil => intro st0 h0; exact h0
    | cons e l ih => intro st0 h0; exact ih _ (Tally_step K hK con st0 h0 e)
  exact key evs _ (Tally_new K bp)


/-! ## The worker on empty queues and after an exception -/

/-- Wrapping before an increment changes nothing once the result is wrapped. -/
theorem wrap32_succ (x : Int) : wrap32 (wrap32 x + 1) = wrap32 (x + 1) := by
  unfold wrap32
  omega

/-- The loop counter after `i` increments is `i` wrapped to 32 bits. -/
theorem loop_counter_eq (i : Nat) : loop_counter i = wrap32 (i : Int) := by
  induction i with
  | zero => unfold loop_counter wrap32; simp
  | succ n ih =>
    unfold loop_counter at ih ⊢
    rw [Function.iterate_succ_apply', ih, wrap32_succ]
    push_cast
    rfl

/-- Below `2^31` the loop counter has not wrapped. -/
theorem loop_counter_small (i : Nat) (h : i < 2 ^ 31) : loop_counter i = (i : Int) := by
  rw [loop_counter_eq]
  apply wrap32_of_small <;> omega

/-- A worker that has left its loop by an exception takes no further step. -/
theorem worker_step_crashed (K : Constants) (con : DbConnection) (st : IngestionPipeline)
    (h : st.worker.phase = WorkerPhase.crashed) : st.worker_step K con = st := by
  simp only [IngestionPipeline.worker_step, h]

/-- After an exception no number of worker steps changes the state. -/
theorem worker_iterate_crashed (K : Constants) (con : DbConnection) (st : IngestionPipeline)
    (h : st.worker.phase = WorkerPhase.crashed) (n : Nat) :
    (IngestionPipeline.worker_step K con)^[n] st = st := by
  induction n with
  | zero => rfl
  | succ n ih => rw [Function.iterate_succ_apply', ih, worker_step_crashed K con st h]

/-- One step of the worker in phase `poll` on a pipeline whose queues are all
empty. -/
theorem worker_step_idle (K : Constants) (con : DbConnection) (st : IngestionPipeline)
    (hph : st.worker.phase = WorkerPhase.poll) (hq : ∀ q, st.queues_ q = []) :
    (queues_at K (Int.tmod st.worker.ix (K.N_QUEUES : Int)) = none →
      (st.worker_step K con).worker.phase = WorkerPhase.crashed) ∧
    (queues_at K (Int.tmod st.worker.ix (K.N_QUEUES : Int)) ≠ none →
      (st.worker_step K con).worker.phase = WorkerPhase.poll ∧
      (st.worker_step K con).queues_ = st.queues_ ∧
      (st.worker_step K con).worker.ix = wrap32 (st.worker.ix + 1) ∧
      (st.worker_step K con).worker.idle_count = wrap32 (st.worker.idle_count + 1)) := by
  constructor
  · intro h
    simp only [IngestionPipeline.worker_step, hph, h]
  · intro h
    obtain ⟨q, e⟩ := Option.ne_none_iff_exists'.mp h
    simp [IngestionPipeline.worker_step, hph, e, hq q]

/-- The worker alone on a fresh pipeline of eight queues: for `2^31 + 1` steps
it keeps polling empty queues and its counter is the loop counter. -/
theorem idle_worker (con : DbConnection) (bp : BackoffPolicy) (n : Nat) (hn : n ≤ 2 ^ 31 + 1) :
    ((IngestionPipeline.worker_step eightQueues con)^[n]
        (IngestionPipeline.new bp)).worker.phase = WorkerPhase.poll ∧
    (∀ q, ((IngestionPipeline.worker_step eightQueues con)^[n]
        (IngestionPipeline.new bp)).queues_ q = []) ∧
    ((IngestionPipeline.worker_step eightQueues con)^[n]
        (IngestionPipeline.new bp)).worker.ix = loop_counter n := by
  induction n with
  | zero => exact ⟨rfl, fun _ => rfl, rfl⟩
  | succ n ih =>
    obtain ⟨h1, h2, h3⟩ := ih (by omega)
    rw [Function.iterate_succ_apply']
    have hne : queues_at eightQueues
        (Int.tmod ((IngestionPipeline.worker_step eightQueues con)^[n]
          (IngestionPipeline.new bp)).worker.ix (eightQueues.N_QUEUES : Int)) ≠ none := by
      rw [h3]
      rcases Nat.lt_or_ge n (2 ^ 31) with hlt | hge
      · rw [loop_counter_small n hlt, queues_at_tmod eightQueues (by decide) _ (by omega)]
        simp
      · have e : n = 2 ^ 31 := by omega
        subst e
        rw [loop_counter_eq]
        decide
    obtain ⟨k1, k2, k3, -⟩ := (worker_step_idle eightQueues con _ h1 h2).2 hne
    refine ⟨k1, ?_, ?_⟩
    · intro q; rw [k2]; exact h2 q
    · rw [k3, h3, loop_counter_eq, loop_counter_eq, wrap32_succ]
      push_cast
      rfl

/-- Only the worker's own steps change the worker. -/
theorem step_worker (K : Constants) (con : DbConnection) (st : IngestionPipeline) (e : Event)
    (he : e ≠ Event.worker) : (st.step K con e).worker = st.worker := by
  cases e with
  | worker => exact absurd rfl he
  | make_spout =>
    simp only [IngestionPipeline.step, IngestionPipeline.make_spout]
    split <;> rfl
  | set_error_cb s cb =>
    simp only [IngestionPipeline.step]
    split <;> rfl
  | write s x =>
    simp only [IngestionPipeline.step]
    split <;> rfl
  | producer s =>
    simp only [IngestionPipeline.step, IngestionPipeline.write_step]
    repeat' split
    all_goals rfl
  | stop =>
    simp only [IngestionPipeline.step, IngestionPipeline.stop_step]
    repeat' split
    all_goals rfl

/-- One event keeps `idle_count` equal to the wrapped count of empty pops. -/
theorem step_idle_count (K : Constants) (con : DbConnection) (st : IngestionPipeline)
    (n : Nat) (e : Event) (h : st.worker.idle_count = wrap32 (n : Int)) :
    (st.step K con e).worker.idle_count = wrap32 ((st.count_pop K n e : Nat) : Int) := by
  by_cases he : e = Event.worker
  · subst he
    cases hph : st.worker.phase with
    | stopped =>
      simp only [IngestionPipeline.step, IngestionPipeline.count_pop,
        IngestionPipeline.worker_step, hph]
      exact h
    | crashed =>
      simp only [IngestionPipeline.step, IngestionPipeline.count_pop,
        IngestionPipeline.worker_step, hph]
      exact h
    | popped val =>
      simp only [IngestionPipeline.step, IngestionPipeline.count_pop,
        IngestionPipeline.worker_step, hph]
      exact h
    | written val error =>
      simp only [IngestionPipeline.step, IngestionPipeline.count_pop,
        IngestionPipeline.worker_step, hph]
      repeat' split
      all_goals exact h
    | poll =>
      cases hq : queues_at K (Int.tmod st.worker.ix (K.N_QUEUES : Int)) with
      | none =>
        simp only [IngestionPipeline.step, IngestionPipeline.count_pop,
          IngestionPipeline.worker_step, hph, hq]
        exact h
      | some q =>
        cases hl : st.queues_ q with
        | nil =>
          simp only [IngestionPipeline.step, IngestionPipeline.count_pop,
            IngestionPipeline.worker_step, hph, hq, hl, List.isEmpty_nil, if_true]
          rw [h, wrap32_succ]
          push_cast
          rfl
        | cons val rest =>
          have z : wrap32 ((0 : Nat) : Int) = 0 := by decide
          simp only [IngestionPipeline.step, IngestionPipeline.count_pop,
            IngestionPipeline.worker_step, hph, hq, hl, List.isEmpty_cons,
            Bool.false_eq_true, if_false]
          repeat' split
          all_goals (rw [z])
  · rw [step_worker K con st e he]
    cases e <;> first | exact absurd rfl he | exact h

/-- A schedule keeps `idle_count` equal to the wrapped count of empty pops. -/
theorem run_idle_count (K : Constants) (con : DbConnection) (evs : List Event) :
    ∀ (st : IngestionPipeline) (n : Nat), st.worker.idle_count = wrap32 (n : Int) →
      (st.run K con evs).worker.idle_count
        = wrap32 ((IngestionPipeline.empty_pops K con st n evs : Nat) : Int) := by
  induction evs with
  | nil => intro st n h; exact h
  | cons e es ih =>
    intro st n h
    exact ih (st.step K con e) (st.count_pop K n e) (step_idle_count K con st n e h)

/-- The C++ remainder is zero exactly when the divisor divides. -/
theorem tmod_eq_zero_iff_dvd (a b : Int) : Int.tmod a b = 0 ↔ b ∣ a :=
  ⟨Int.dvd_of_tmod_eq_zero, Int.tmod_eq_zero_of_dvd⟩

/-! ## The worker left alone for `2^31` polls -/

/-- With eight queues the lookup succeeds in each of the first `2^31 + 1`
iterations of the loop. -/
theorem idle_lookup (n : Nat) (hn : n ≤ 2 ^ 31) :
    queues_at eightQueues (Int.tmod (loop_counter n) (eightQueues.N_QUEUES : Int)) ≠ none := by
  rcases Nat.lt_or_ge n (2 ^ 31) with hlt | hge
  · rw [loop_counter_small n hlt, queues_at_tmod eightQueues (by decide) _ (by omega)]
    simp
  · have e : n = 2 ^ 31 := by omega
    subst e
    rw [loop_counter_eq]
    decide

/-- The worker alone on a fresh pipeline of eight queues: `idle_count` runs
with the loop counter. -/
theorem idle_worker_count (con : DbConnection) (bp : BackoffPolicy) (n : Nat)
    (hn : n ≤ 2 ^ 31 + 1) :
    ((IngestionPipeline.worker_step eightQueues con)^[n]
        (IngestionPipeline.new bp)).worker.idle_count = loop_counter n := by
  induction n with
  | zero => rfl
  | succ n ih =>
    obtain ⟨h1, h2, h3⟩ := idle_worker con bp n (by omega)
    rw [Function.iterate_succ_apply']
    have hne := idle_lookup n (by omega)
    rw [← h3] at hne
    obtain ⟨-, -, -, k4⟩ := (worker_step_idle eightQueues con _ h1 h2).2 hne
    rw [k4, ih (by omega), loop_counter_eq, loop_counter_eq, wrap32_succ]
    push_cast
    rfl

/-- A schedule of worker steps only is an iteration of the worker step. -/
theorem run_replicate_worker (K : Constants) (con : DbConnection) (n : Nat) :
    ∀ st : IngestionPipeline, st.run K con (List.replicate n Event.worker)
      = (IngestionPipeline.worker_step K con)^[n] st := by
  induction n with
  | zero => intro st; rfl
  | succ n ih =>
    intro st
    rw [List.replicate_succ, Function.iterate_succ_apply]
    exact ih (st.step K con Event.worker)

/-- The worker alone on a fresh pipeline of eight queues: each of its first
`2^31 + 1` polls is an empty pop. -/
theorem empty_pops_idle (con : DbConnection) (bp : BackoffPolicy) (n : Nat) :
    ∀ k m : Nat, k + n ≤ 2 ^ 31 + 1 →
      IngestionPipeline.empty_pops eightQueues con
        ((IngestionPipeline.worker_step eightQueues con)^[k] (IngestionPipeline.new bp)) m
        (List.replicate n Event.worker) = m + n := by
  induction n with
  | zero => intro k m _; rfl
  | succ n ih =>
    intro k m hk
    obtain ⟨h1, h2, h3⟩ := idle_worker con bp k (by omega)
    have hne := idle_lookup k (by omega)
    rw [← h3] at hne
    obtain ⟨q, hq⟩ := Option.ne_none_iff_exists'.mp hne
    rw [List.replicate_succ, IngestionPipeline.empty_pops]
    have hc : IngestionPipeline.count_pop eightQueues
        ((IngestionPipeline.worker_step eightQueues con)^[k] (IngestionPipeline.new bp)) m
        Event.worker = m + 1 := by
      simp only [IngestionPipeline.count_pop, h1, hq, h2 q, List.isEmpty_nil, if_true]
    have hs : IngestionPipeline.step eightQueues con
        ((IngestionPipeline.worker_step eightQueues con)^[k] (IngestionPipeline.new bp))
        Event.worker
        = (IngestionPipeline.worker_step eightQueues con)^[k + 1] (IngestionPipeline.new bp) := by
      rw [Function.iterate_succ_apply']
      rfl
    rw [hc, hs, ih (k + 1) (m + 1) (by omega)]
    omega

/-- A poll of an empty queue sleeps exactly when the incremented `idle_count`
is above the threshold and divisible by the number of queues. -/
theorem worker_step_idle_sleeps (K : Constants) (con : DbConnection) (st : IngestionPipeline)
    (q : Nat) (hph : st.worker.phase = WorkerPhase.poll)
    (hq : queues_at K (Int.tmod st.worker.ix (K.N_QUEUES : Int)) = some q)
    (hl : st.queues_ q = []) :
    (st.worker_step K con).worker.idle_count = wrap32 (st.worker.idle_count + 1) ∧
    (st.worker_step K con).worker.sleeps
      = if 65536 < wrap32 (st.worker.idle_count + 1) ∧
          (K.N_QUEUES : Int) ∣ wrap32 (st.worker.idle_count + 1)
        then st.worker.sleeps + 1 else st.worker.sleeps := by
  simp only [IngestionPipeline.worker_step, hph, hq, hl, Bool.and_eq_true,
    decide_eq_true_eq, tmod_eq_zero_iff_dvd, gt_iff_lt, true_and]

/-- The worker alone on a fresh pipeline of eight queues: whether poll number
`n + 1` sleeps. -/
theorem idle_worker_sleeps (con : DbConnection) (bp : BackoffPolicy) (n : Nat)
    (hn : n ≤ 2 ^ 31) :
    ((IngestionPipeline.worker_step eightQueues con)^[n + 1]
        (IngestionPipeline.new bp)).worker.sleeps
      = if 65536 < loop_counter (n + 1) ∧
          (eightQueues.N_QUEUES : Int) ∣ loop_counter (n + 1)
        then ((IngestionPipeline.worker_step eightQueues con)^[n]
          (IngestionPipeline.new bp)).worker.sleeps + 1
        else ((IngestionPipeline.worker_step eightQueues con)^[n]
          (IngestionPipeline.new bp)).worker.sleeps := by
  obtain ⟨h1, h2, h3⟩ := idle_worker con bp n (by omega)
  have hne := idle_lookup n hn
  rw [← h3] at hne
  obtain ⟨q, hq⟩ := Option.ne_none_iff_exists'.mp hne
  have hc := idle_worker_count con bp n (by omega)
  have hs := (worker_step_idle_sleeps eightQueues con _ q h1 hq (h2 q)).2
  rw [Function.iterate_succ_apply', hs, hc]
  have e : wrap32 (loop_counter n + 1) = loop_counter (n + 1) := by
    rw [loop_counter_eq, loop_counter_eq, wrap32_succ]
    push_cast
    rfl
  rw [e]

/-! ## The three steps of the worker on a slot -/

/-- The pop of a slot that is not poison: the worker holds it and nothing
else has happened. -/
theorem worker_pop_slot (K : Constants) (con : DbConnection) (st : IngestionPipeline)
    (q : Nat) (val : TValPtr) (rest : List TValPtr)
    (hph : st.worker.phase = WorkerPhase.poll)
    (hq : queues_at K (Int.tmod st.worker.ix (K.N_QUEUES : Int)) = some q)
    (hl : st.queues_ q = val :: rest) (hnp : (st.deref val).cnt ≠ none) :
    (st.worker_step K con).worker.phase = WorkerPhase.popped val ∧
    (st.worker_step K con).queues_ = Function.update st.queues_ q rest ∧
    (st.worker_step K con).written = st.written ∧
    (st.worker_step K con).spouts = st.spouts ∧
    (st.worker_step K con).on_error_calls = st.on_error_calls := by
  simp only [IngestionPipeline.worker_step, hph, hq, hl, if_neg hnp, and_self]

/-- The step after the pop calls the storage once, with the sample of the
slot. -/
theorem worker_write (K : Constants) (con : DbConnection) (st : IngestionPipeline)
    (val : TValPtr) (hph : st.worker.phase = WorkerPhase.popped val) :
    (st.worker_step K con).written = st.written ++ [(val, (st.deref val).sample)] ∧
    (st.worker_step K con).worker.phase = WorkerPhase.written val
      (con.write (st.written.map Prod.snd) (st.deref val).sample) ∧
    (st.worker_step K con).spouts = st.spouts ∧
    (st.worker_step K con).queues_ = st.queues_ ∧
    (st.worker_step K con).on_error_calls = st.on_error_calls := by
  simp only [IngestionPipeline.worker_step, hph, and_self]

/-- The step after the storage write releases the slot and reports a
failure: to the callback of the spout if one is registered, and by the
exception of the empty callback otherwise. -/
theorem worker_release (K : Constants) (con : DbConnection) (st : IngestionPipeline)
    (hI : Inv K st) (val : TValPtr) (error : aku_Status)
    (hph : st.worker.phase = WorkerPhase.written val error) :
    ∃ s i, val = TValPtr.slot s i ∧ s < st.nspouts ∧
      ((st.worker_step K con).spouts s).deleted_ = (st.spouts s).deleted_ + 1 ∧
      (∀ s1, s1 ≠ s → ((st.worker_step K con).spouts s1).deleted_ = (st.spouts s1).deleted_) ∧
      (st.worker_step K con).written = st.written ∧
      (error = aku_Status.AKU_SUCCESS →
        (st.worker_step K con).on_error_calls = st.on_error_calls ∧
        (st.worker_step K con).worker.phase = WorkerPhase.poll) ∧
      (error ≠ aku_Status.AKU_SUCCESS → ∀ cb, (st.spouts s).on_error_ = some cb →
        (st.worker_step K con).on_error_calls
          = st.on_error_calls ++ [(cb, error, (st.spouts s).deleted_ + 1)] ∧
        (st.worker_step K con).worker.phase = WorkerPhase.poll) ∧
      (error ≠ aku_Status.AKU_SUCCESS → (st.spouts s).on_error_ = none →
        (st.worker_step K con).on_error_calls = st.on_error_calls ∧
        (st.worker_step K con).worker.phase = WorkerPhase.crashed) ∧
      (st.spouts s).deleted_ + 1 = (st.written_of s).length := by
  have hheld : st.worker.held = [val] := by simp [Worker.held, hph]
  obtain ⟨s, i, hval, hs⟩ := hI.held val (by simp [hheld])
  subst hval
  refine ⟨s, i, rfl, hs, ?_⟩
  have hsp := hI.spout s hs
  have hfl : st.flight s = TValPtr.slot s i ::
      (st.queues_ (st.spouts s).queue_).filter (TValPtr.ofSpout s) := by
    simp [IngestionPipeline.flight, hheld, TValPtr.ofSpout]
  obtain ⟨-, h2, -, -, h5, h6⟩ := SpoutInv_head hsp hfl
  injection h2 with _ h2
  rw [← h2] at h5 h6
  have hu : st.unreleased s = 1 := by
    simp [IngestionPipeline.unreleased, hph, TValPtr.ofSpout]
  have hlen : (st.spouts s).deleted_ + 1 = (st.written_of s).length := by
    have e1 := hsp.written_eq
    have e2 := hsp.written_le
    rw [hu] at e1 e2
    rw [e1, List.length_take]
    omega
  simp only [IngestionPipeline.worker_step, hph, IngestionPipeline.deref, h5, h6]
  refine ⟨?_, ?_, ?_, ?_, ?_, ?_, hlen⟩
  · repeat' split
    all_goals simp
  · intro s1 hne
    repeat' split
    all_goals simp [Function.update_noteq hne]
  · repeat' split
    all_goals rfl
  · intro he
    simp [he]
  · intro he cb hcb
    simp [he, hcb, h6]
  · intro he hcb
    simp [he, hcb, h6]

/-- A reachable state stays reachable by a step of the worker. -/
theorem Reachable_worker_step (K : Constants) (con : DbConnection) (bp : BackoffPolicy)
    (st : IngestionPipeline) (h : Reachable K con bp st) :
    Reachable K con bp (st.worker_step K con) := by
  obtain ⟨evs, he⟩ := h
  refine ⟨evs ++ [Event.worker], ?_⟩
  rw [run_append, he]
  rfl

/-- The dereference of a pointer reads the spouts only. -/
theorem deref_congr (st st1 : IngestionPipeline) (h : st1.spouts = st.spouts) (val : TValPtr) :
    st1.deref val = st.deref val := by
  cases val with
  | POISON => rfl
  | slot s i => simp only [IngestionPipeline.deref, h]

/-! ## The log of the calls of `write` -/

/-- A fresh pipeline agrees with the empty log. -/
theorem Logged_new (bp : BackoffPolicy) (s : Nat) :
    Logged (IngestionPipeline.new bp) s { pending := none, done := [] } := by
  constructor
  · intro _; rfl
  · intro h; simp [IngestionPipeline.new] at h
  · intro h; simp [IngestionPipeline.new] at h
  · intro h; simp [IngestionPipeline.new] at h
  · intro h; simp [IngestionPipeline.new] at h
  · intro c hc; simp at hc

/-- A step that leaves the producer of spout `s` alone keeps the agreement
with the log. -/
theorem Logged_frame (st st1 : IngestionPipeline) (s : Nat) (l : CallLog)
    (h : Logged st s l) (hn : st1.nspouts = st.nspouts)
    (hpc : (st1.spouts s).pc = (st.spouts s).pc)
    (hp : (st1.spouts s).pushed = (st.spouts s).pushed)
    (hr : (st1.spouts s).returned = (st.spouts s).returned)
    (hd : (st1.spouts s).dropped = (st.spouts s).dropped)
    (hb : (st1.spouts s).backoff_ = (st.spouts s).backoff_) : Logged st1 s l := by
  constructor
  · rw [hn]; exact h.fresh
  · rw [hn, hpc]; exact h.arg_eq
  · rw [hn, hp]; exact h.pushed_eq
  · rw [hn, hr]; exact h.returned_eq
  · rw [hn, hd]; exact h.dropped_eq
  · rw [hb]; exact h.outcome

/-- A step of the worker leaves the producers alone. -/
theorem worker_step_spout (K : Constants) (con : DbConnection) (st : IngestionPipeline)
    (s : Nat) :
    ((st.worker_step K con).spouts s).pc = (st.spouts s).pc ∧
    ((st.worker_step K con).spouts s).pushed = (st.spouts s).pushed ∧
    ((st.worker_step K con).spouts s).returned = (st.spouts s).returned ∧
    ((st.worker_step K con).spouts s).dropped = (st.spouts s).dropped ∧
    ((st.worker_step K con).spouts s).backoff_ = (st.spouts s).backoff_ := by
  simp only [IngestionPipeline.worker_step]
  repeat' split
  all_goals first
    | exact ⟨rfl, rfl, rfl, rfl, rfl⟩
    | (simp only [Function.update_apply]; split <;> simp_all)

/-- A step of the producer of another spout leaves the producer of spout `s`
alone. -/
theorem write_step_other (K : Constants) (st : IngestionPipeline) (s s1 : Nat)
    (hne : s ≠ s1) :
    (st.write_step K s1).spouts s = st.spouts s ∧
    (st.write_step K s1).nspouts = st.nspouts := by
  simp only [IngestionPipeline.write_step]
  repeat' split
  all_goals first
    | exact ⟨rfl, rfl⟩
    | exact ⟨Function.update_noteq hne _ _, rfl⟩

/-- The step at which a call leaves the queues alone, having found no free
slot under the throttle policy, shows a drop. -/
theorem call_result_dropped (K : Constants) (st st1 : IngestionPipeline) (s : Nat)
    (x : aku_Sample) (hq : st1.queues_ = st.queues_)
    (hix : ((st.spouts s).get_index_of_empty_slot K).1 = -1)
    (hb : (st.spouts s).backoff_ = BackoffPolicy.AKU_THROTTLE) :
    st.call_result K st1 s x = CallResult.dropped := by
  simp only [IngestionPipeline.call_result, hq, hix, hb, and_self, if_true]
  split
  · rw [if_neg]
    intro h
    have := congrArg List.length h.1
    simp at this
  · rfl

/-- The step that appends to the queue of the spout a pointer to a slot of
the spout with the sample `x` shows an enqueued sample. -/
theorem call_result_enqueued (K : Constants) (st st1 : IngestionPipeline) (s i : Nat)
    (x : aku_Sample)
    (hq : st1.queues_ (st.spouts s).queue_
      = st.queues_ (st.spouts s).queue_ ++ [TValPtr.slot s i])
    (hx : ((st1.spouts s).pool_ i).sample = x) :
    st.call_result K st1 s x = CallResult.enqueued := by
  simp only [IngestionPipeline.call_result, hq, List.getLast?_concat,
    IngestionPipeline.deref, hx, and_self, if_true]

/-- Entering `write` with the sample `x` leaves the producer with `x` and
changes none of the samples enqueued and none of the counts. -/
theorem write_enter_fields (K : Constants) (sp : PipelineSpout) (x : aku_Sample) :
    (sp.write_enter K x).pc.arg = some x ∧
    (sp.write_enter K x).pushed = sp.pushed ∧
    (sp.write_enter K x).returned = sp.returned ∧
    (sp.write_enter K x).dropped = sp.dropped ∧
    (sp.write_enter K x).backoff_ = sp.backoff_ := by
  simp only [PipelineSpout.write_enter, PipelineSpout.get_index_of_empty_slot]
  repeat' split
  all_goals exact ⟨rfl, rfl, rfl, rfl, rfl⟩

/-- What a step of the producer of spout `s` inside `write` can be: a step
that does not return and keeps the sample, the give-up of the throttle
policy, or the push of the slot that carries the sample. -/
theorem write_step_cases (K : Constants) (st : IngestionPipeline) (s : Nat)
    (hI : Inv K st) (hs : s < st.nspouts) :
    (¬ ((st.spouts s).pc ≠ WritePc.idle ∧ ((st.write_step K s).spouts s).pc = WritePc.idle) ∧
      ((st.write_step K s).spouts s).pc.arg = (st.spouts s).pc.arg ∧
      ((st.write_step K s).spouts s).pushed = (st.spouts s).pushed ∧
      ((st.write_step K s).spouts s).returned = (st.spouts s).returned ∧
      ((st.write_step K s).spouts s).dropped = (st.spouts s).dropped ∧
      ((st.write_step K s).spouts s).backoff_ = (st.spouts s).backoff_) ∨
    (∃ x, (st.spouts s).pc = WritePc.retry x ∧
      ((st.write_step K s).spouts s).pc = WritePc.idle ∧
      ((st.write_step K s).spouts s).pushed = (st.spouts s).pushed ∧
      ((st.write_step K s).spouts s).returned = (st.spouts s).returned + 1 ∧
      ((st.write_step K s).spouts s).dropped = (st.spouts s).dropped + 1 ∧
      ((st.write_step K s).spouts s).backoff_ = BackoffPolicy.AKU_THROTTLE ∧
      (st.spouts s).backoff_ = BackoffPolicy.AKU_THROTTLE ∧
      st.call_result K (st.write_step K s) s x = CallResult.dropped) ∨
    (∃ ix x, (st.spouts s).pc = WritePc.pushing ix x ∧
      ((st.write_step K s).spouts s).pc = WritePc.idle ∧
      ((st.write_step K s).spouts s).pushed = (st.spouts s).pushed ++ [x] ∧
      ((st.write_step K s).spouts s).returned = (st.spouts s).returned + 1 ∧
      ((st.write_step K s).spouts s).dropped = (st.spouts s).dropped ∧
      ((st.write_step K s).spouts s).backoff_ = (st.spouts s).backoff_ ∧
      st.call_result K (st.write_step K s) s x = CallResult.enqueued) := by
  cases hpc : (st.spouts s).pc with
  | idle =>
    left
    simp [IngestionPipeline.write_step, hpc]
  | retry x =>
    by_cases hneg : ((st.spouts s).get_index_of_empty_slot K).1 < 0
    · have e2 := get_index_of_neg K _ hneg
      have e1 : ((st.spouts s).get_index_of_empty_slot K).1 = -1 := by
        have := (get_index_fst_neg K _).1 hneg
        unfold PipelineSpout.get_index_of_empty_slot
        simp [this]
      cases hb : (st.spouts s).backoff_ with
      | AKU_LINEAR_BACKOFF =>
        left
        simp [IngestionPipeline.write_step, hpc, hneg, hb, e2, WritePc.arg]
      | AKU_THROTTLE =>
        right; left
        have hq : (st.write_step K s).queues_ = st.queues_ := by
          simp only [IngestionPipeline.write_step, hpc, hneg, if_true, hb]
        have hc := call_result_dropped K st _ s x hq e1 hb
        simp [IngestionPipeline.write_step, hpc, hneg, hb, e2] at hc ⊢
        exact hc
    · obtain ⟨h1, h2, h3⟩ := get_index_of_nonneg K _ hneg
      left
      simp [IngestionPipeline.write_step, hpc, hneg, h3, WritePc.arg]
  | claimed ix x =>
    left
    simp [IngestionPipeline.write_step, hpc, WritePc.arg]
  | pushing ix x =>
    by_cases hroom : (st.queues_ (st.spouts s).queue_).length < K.QCAP
    · right; right
      obtain ⟨-, hpool⟩ := (hI.spout s hs).pushing_ix ix x hpc
      have hq : (st.write_step K s).queues_ (st.spouts s).queue_
          = st.queues_ (st.spouts s).queue_ ++ [TValPtr.slot s ix] := by
        simp only [IngestionPipeline.write_step, hpc, hroom, if_true, Function.update_same]
      have hx : (((st.write_step K s).spouts s).pool_ ix).sample = x := by
        simp only [IngestionPipeline.write_step, hpc, hroom, if_true, Function.update_same,
          hpool]
      have hc := call_result_enqueued K st _ s ix x hq hx
      simp [IngestionPipeline.write_step, hpc, hroom] at hc ⊢
      exact ⟨ix, x, ⟨rfl, rfl⟩, rfl, hc⟩
    · left
      simp [IngestionPipeline.write_step, hpc, hroom]

/-- Every event keeps the state in agreement with the log of the calls. -/
theorem Logged_step (K : Constants) (hK : K.WellFormed) (con : DbConnection)
    (st : IngestionPipeline) (s : Nat) (l : CallLog) (hI : Inv K st) (h : Logged st s l)
    (e : Event) : Logged (st.step K con e) s (st.log_call K con s l e) := by
  cases e with
  | make_spout =>
    have hlt : (st.ixmake_ + 1) % K.N_QUEUES < K.N_QUEUES := Nat.mod_lt _ hK.1
    have hq : queues_at K (((st.ixmake_ + 1) % K.N_QUEUES : Nat) : Int)
        = some ((st.ixmake_ + 1) % K.N_QUEUES) := by
      unfold queues_at
      rw [if_pos (by constructor <;> omega), Int.toNat_ofNat]
    simp only [IngestionPipeline.step, IngestionPipeline.make_spout, hq,
      IngestionPipeline.log_call]
    by_cases e : s = st.nspouts
    · have hl := h.fresh (by omega)
      subst hl
      constructor
      · intro hs; simp only at hs; omega
      all_goals first
        | (intro _; simp only [Function.update_apply, e, if_true]; rfl)
        | (intro c hc; simp at hc)
    · constructor
      · intro hs; simp only at hs; exact h.fresh (by omega)
      · intro hs; simp only at hs ⊢
        rw [Function.update_noteq e]; exact h.arg_eq (by omega)
      · intro hs; simp only at hs ⊢
        rw [Function.update_noteq e]; exact h.pushed_eq (by omega)
      · intro hs; simp only at hs ⊢
        rw [Function.update_noteq e]; exact h.returned_eq (by omega)
      · intro hs; simp only at hs ⊢
        rw [Function.update_noteq e]; exact h.dropped_eq (by omega)
      · intro c hc; simp only
        rw [Function.update_noteq e]; exact h.outcome c hc
  | set_error_cb s1 cb =>
    simp only [IngestionPipeline.step, IngestionPipeline.log_call]
    split
    · by_cases e : s = s1
      · subst e
        refine Logged_frame st _ s l h rfl ?_ ?_ ?_ ?_ ?_
        all_goals simp only [Function.update_same, PipelineSpout.set_error_cb]
      · refine Logged_frame st _ s l h rfl ?_ ?_ ?_ ?_ ?_
        all_goals simp only [Function.update_noteq e]
    · exact h
  | write s1 x =>
    simp only [IngestionPipeline.step, IngestionPipeline.log_call]
    by_cases hc : s1 < st.nspouts ∧ (st.spouts s1).pc = WritePc.idle
    · rw [if_pos hc]
      by_cases e : s1 = s
      · subst e
        rw [if_pos ⟨rfl, hc.1, hc.2⟩]
        obtain ⟨w1, w2, w3, w4, w5⟩ := write_enter_fields K (st.spouts s1) x
        constructor
        · intro hs; simp only at hs; omega
        · intro _; simp only [Function.update_same]; exact w1
        · intro hs; simp only [Function.update_same, w2]; exact h.pushed_eq hs
        · intro hs; simp only [Function.update_same, w3]; exact h.returned_eq hs
        · intro hs; simp only [Function.update_same, w4]; exact h.dropped_eq hs
        · intro c hc1; simp only [Function.update_same, w5]; exact h.outcome c hc1
      · rw [if_neg (fun hh => e hh.1)]
        have e1 : s ≠ s1 := fun hh => e hh.symm
        refine Logged_frame st _ s l h rfl ?_ ?_ ?_ ?_ ?_
        all_goals simp only [Function.update_noteq e1]
    · rw [if_neg hc]
      have : ¬ (s1 = s ∧ s < st.nspouts ∧ (st.spouts s).pc = WritePc.idle) := by
        rintro ⟨rfl, h1, h2⟩
        exact hc ⟨h1, h2⟩
      rw [if_neg this]
      exact h
  | producer s1 =>
    by_cases e : s1 = s
    swap
    · have e1 : s ≠ s1 := fun hh => e hh.symm
      simp only [IngestionPipeline.log_call, if_neg (fun hh : s1 = s ∧ _ => e hh.1)]
      simp only [IngestionPipeline.step]
      split
      · obtain ⟨w1, w2⟩ := write_step_other K st s s1 e1
        refine Logged_frame st _ s l h w2 ?_ ?_ ?_ ?_ ?_
        all_goals rw [w1]
      · exact h
    subst e
    by_cases hs : s1 < st.nspouts
    swap
    · have hst : st.step K con (Event.producer s1) = st := by
        simp only [IngestionPipeline.step, if_neg hs]
      simp only [IngestionPipeline.log_call, hst]
      rw [if_neg (fun hh => hh.2.1 hh.2.2)]
      exact h
    have hst : st.step K con (Event.producer s1) = st.write_step K s1 := by
      simp only [IngestionPipeline.step, if_pos hs]
    have hn : (st.write_step K s1).nspouts = st.nspouts := by
      simp only [IngestionPipeline.write_step]
      repeat' split
      all_goals rfl
    simp only [IngestionPipeline.log_call, hst, true_and]
    rcases write_step_cases K st s1 hI hs with
      ⟨c1, c2, c3, c4, c5, c6⟩ | ⟨x, c1, c2, c3, c4, c5, c6, c7, c8⟩ |
      ⟨ix, x, c1, c2, c3, c4, c5, c6, c7⟩
    · rw [if_neg c1]
      constructor
      · rw [hn]; exact h.fresh
      · rw [hn, c2]; exact h.arg_eq
      · rw [hn, c3]; exact h.pushed_eq
      · rw [hn, c4]; exact h.returned_eq
      · rw [hn, c5]; exact h.dropped_eq
      · rw [c6]; exact h.outcome
    · have hp : l.pending = some x := by
        rw [← h.arg_eq hs, c1]; rfl
      rw [if_pos ⟨by rw [c1]; simp, c2⟩, hp]
      simp only [c8]
      constructor
      · intro hh; rw [hn] at hh; omega
      · intro _; rw [c2]; rfl
      · intro _
        rw [c3, h.pushed_eq hs, List.filter_append]
        simp
      · intro _
        rw [c4, h.returned_eq hs]
        simp
      · intro _
        rw [c5, h.dropped_eq hs, List.filter_append]
        simp
      · intro c hc
        simp only [List.mem_append, List.mem_singleton] at hc
        rcases hc with hc | hc
        · rcases h.outcome c hc with o | ⟨o1, -⟩
          · exact Or.inl o
          · exact Or.inr ⟨o1, c6⟩
        · subst hc
          exact Or.inr ⟨rfl, c6⟩
    · have hp : l.pending = some x := by
        rw [← h.arg_eq hs, c1]; rfl
      rw [if_pos ⟨by rw [c1]; simp, c2⟩, hp]
      simp only [c7]
      constructor
      · intro hh; rw [hn] at hh; omega
      · intro _; rw [c2]; rfl
      · intro _
        rw [c3, h.pushed_eq hs, List.filter_append]
        simp
      · intro _
        rw [c4, h.returned_eq hs]
        simp
      · intro _
        rw [c5, h.dropped_eq hs, List.filter_append]
        simp
      · intro c hc
        simp only [List.mem_append, List.mem_singleton] at hc
        rcases hc with hc | hc
        · rw [c6]; exact h.outcome c hc
        · subst hc
          exact Or.inl rfl
  | worker =>
    simp only [IngestionPipeline.step, IngestionPipeline.log_call]
    obtain ⟨w1, w2, w3, w4, w5⟩ := worker_step_spout K con st s
    exact Logged_frame st _ s l h (worker_step_static K con st).2.1 w1 w2 w3 w4 w5
  | stop =>
    simp only [IngestionPipeline.step, IngestionPipeline.log_call,
      IngestionPipeline.stop_step]
    repeat' split
    all_goals first
      | exact h
      | exact Logged_frame st _ s l h rfl rfl rfl rfl rfl rfl

/-- Every schedule keeps the state in agreement with the log of the calls. -/
theorem Logged_run (K : Constants) (hK : K.WellFormed) (con : DbConnection) (s : Nat)
    (evs : List Event) : ∀ (st : IngestionPipeline) (l : CallLog), Inv K st → Logged st s l →
      Logged (st.run K con evs) s (IngestionPipeline.call_log K con st s l evs) := by
  induction evs with
  | nil => intro st l _ h; exact h
  | cons e es ih =>
    intro st l hI h
    exact ih (st.step K con e) (st.log_call K con s l e) (Inv_step K hK con st hI e)
      (Logged_step K hK con st s l hI h e)

/-! ## Bytes, entries and `add_entry` -/

/-- The little-endian bytes of a number give back its low bits. -/
theorem of_bytes_to_bytes (k n : Nat) : of_bytes (to_bytes k n) = n % 256 ^ k := by
  induction k generalizing n with
  | zero => simp [to_bytes, of_bytes, Nat.mod_one]
  | succ k ih =>
    simp only [to_bytes, of_bytes, ih]
    rw [pow_succ', Nat.mod_mul]

theorem length_to_bytes (k n : Nat) : (to_bytes k n).length = k := by
  induction k generalizing n with
  | zero => rfl
  | succ k ih => simp [to_bytes, ih]

theorem length_read_bytes (d : Nat → Nat) (off n : Nat) : (read_bytes d off n).length = n := by
  simp [read_bytes]

/-- Reading inside a block that was just written gives the bytes written. -/
theorem read_bytes_write_bytes (d : Nat → Nat) (off : Nat) (bs : List Nat) (i n : Nat)
    (h : i + n ≤ bs.length) :
    read_bytes (write_bytes d off bs) (off + i) n = (bs.drop i).take n := by
  apply List.ext_getElem
  · simp [read_bytes]; omega
  · intro k h1 h2
    simp only [read_bytes, List.getElem_map, List.getElem_range, write_bytes]
    have hk : k < n := by simpa [read_bytes] using h1
    rw [if_pos (by omega)]
    rw [List.getElem_take, List.getElem_drop]
    have e : off + i + k - off = i + k := by omega
    rw [e, List.getD_eq_getElem?_getD, List.getElem?_eq_getElem (by omega)]
    rfl

theorem to_int64_of_int (t : Int) (h1 : -(2 ^ 63) ≤ t) (h2 : t < 2 ^ 63) :
    to_int64 ((t % 2 ^ 64).toNat % 256 ^ 8) = t := by
  unfold to_int64
  have hn : ((t % 2 ^ 64).toNat : Int) = t % 2 ^ 64 :=
    Int.toNat_of_nonneg (Int.emod_nonneg _ (by norm_num))
  have hlt : (t % 2 ^ 64).toNat < 256 ^ 8 := by
    have : t % 2 ^ 64 < 2 ^ 64 := Int.emod_lt_of_pos _ (by norm_num)
    omega
  rw [Nat.mod_eq_of_lt hlt]
  split
  · rename_i h; omega
  · rename_i h; omega

/-- The bytes of a valid entry, looked at as an `Entry`, are the entry. -/
theorem entry_at_write (p : PageHeader) (d : Nat → Nat) (off : Nat) (e : Entry)
    (he : e.Valid) (hd : p.data = write_bytes d off e.to_bytes) :
    p.entry_at off = e := by
  have hA := length_to_bytes 8 e.param_id
  have hB := length_to_bytes 8 (e.time % 2 ^ 64).toNat
  have hC := length_to_bytes 4 e.length
  have hsplit : e.to_bytes = to_bytes 8 e.param_id ++ (to_bytes 8 (e.time % 2 ^ 64).toNat ++
      (to_bytes 4 e.length ++ e.value)) := by
    simp [Entry.to_bytes, List.append_assoc]
  have hlen : e.to_bytes.length = 20 + e.value.length := by
    rw [hsplit]; simp only [List.length_append, hA, hB, hC]; omega
  have h1 : read_bytes p.data off 8 = to_bytes 8 e.param_id := by
    have := read_bytes_write_bytes d off e.to_bytes 0 8 (by omega)
    rw [Nat.add_zero] at this
    rw [hd, this, List.drop_zero, hsplit, List.take_left' hA]
  have h2 : read_bytes p.data (off + 8) 8 = to_bytes 8 (e.time % 2 ^ 64).toNat := by
    have := read_bytes_write_bytes d off e.to_bytes 8 8 (by omega)
    rw [hd, this, hsplit, List.drop_left' hA, List.take_left' hB]
  have h3 : read_bytes p.data (off + 16) 4 = to_bytes 4 e.length := by
    have := read_bytes_write_bytes d off e.to_bytes 16 4 (by omega)
    rw [hd, this, hsplit, ← List.append_assoc, List.drop_left' (by rw [List.length_append, hA, hB]),
      List.take_left' hC]
  have hl : of_bytes (read_bytes p.data (off + 16) 4) = e.length := by
    rw [h3, of_bytes_to_bytes]
    apply Nat.mod_eq_of_lt
    have := he.length_lt
    norm_num at this ⊢
    omega
  have h4 : read_bytes p.data (off + 20) (e.length - 20) = e.value := by
    have hv : e.length - 20 = e.value.length := by
      have := he.length_eq
      simp only [Entry.FIXED_PART] at this
      omega
    have := read_bytes_write_bytes d off e.to_bytes 20 e.value.length (by omega)
    rw [hd, hv, this, hsplit, ← List.append_assoc, ← List.append_assoc,
      List.drop_left' (by rw [List.length_append, List.length_append, hA, hB, hC]),
      List.take_length]
  have hp : of_bytes (read_bytes p.data off 8) = e.param_id := by
    rw [h1, of_bytes_to_bytes]
    apply Nat.mod_eq_of_lt
    have := he.param_id_lt
    norm_num at this ⊢
    omega
  have ht : to_int64 (of_bytes (read_bytes p.data (off + 8) 8)) = e.time := by
    rw [h2, of_bytes_to_bytes]
    exact to_int64_of_int e.time he.time_ge he.time_lt
  simp only [PageHeader.entry_at, Entry.FIXED_PART, hl, hp, ht, h4]

/-- A failing `add_entry` leaves the page as it was. -/
theorem add_entry_overflow (H : Nat) (p : PageHeader) (e : Entry)
    (h : p.get_free_space H < (e.length : Int) + 4) :
    p.add_entry H e = (aku_Status.Overflow, p) := by
  simp only [PageHeader.add_entry, if_pos h]

/-- The status of `add_entry` is decided by the free space. -/
theorem add_entry_status (H : Nat) (p : PageHeader) (e : Entry) :
    ((p.add_entry H e).1 = aku_Status.AKU_SUCCESS ↔
      (e.length : Int) + 4 ≤ p.get_free_space H) ∧
    ((p.add_entry H e).1 = aku_Status.Overflow ↔
      p.get_free_space H < (e.length : Int) + 4) := by
  simp only [PageHeader.add_entry]
  split
  · rename_i h
    simp only [reduceCtorEq, false_iff, true_iff, not_le]
    exact ⟨h, h⟩
  · rename_i h
    simp only [reduceCtorEq, false_iff, true_iff]
    exact ⟨not_lt.mp h, h⟩

/-- On a page that satisfies the invariants the free space is what lies
between the index and the entries whenever `add_entry` finds room. -/
theorem free_space_of_room (H : Nat) (p : PageHeader) (hinv : p.Invariant H) (s : Nat)
    (h : (s : Int) + 4 ≤ p.get_free_space H) :
    H + 4 * p.count + s + 4 ≤ p.last_offset := by
  have h1 := hinv.index_below
  have h2 := hinv.offset_lt
  unfold PageHeader.get_free_space wrap32 at h
  omega

/-- The fields of the page after a successful `add_entry`. -/
theorem add_entry_fields (H : Nat) (p : PageHeader) (hinv : p.Invariant H) (e : Entry)
    (h : (p.add_entry H e).1 = aku_Status.AKU_SUCCESS) :
    H + 4 * p.count + e.length + 4 ≤ p.last_offset ∧
    (p.add_entry H e).2.count = p.count + 1 ∧
    (p.add_entry H e).2.last_offset
      = p.last_offset - e.length ∧
    (p.add_entry H e).2.length = p.length ∧
    (p.add_entry H e).2.sync_index = p.sync_index ∧
    (p.add_entry H e).2.page_index = Function.update p.page_index p.count
      (p.last_offset - e.length) ∧
    (p.add_entry H e).2.data = write_bytes p.data
      (p.last_offset - e.length) e.to_bytes := by
  have hroom := free_space_of_room H p hinv _ ((add_entry_status H p e).1.mp h)
  have h2 := hinv.offset_lt
  have hoff : to_uint32 (p.last_offset - e.length)
      = p.last_offset - e.length := by
    unfold to_uint32; apply Nat.mod_eq_of_lt; omega
  have hcnt : to_uint32 (p.count + 1) = p.count + 1 := by
    unfold to_uint32; apply Nat.mod_eq_of_lt; omega
  have hge := (add_entry_status H p e).1.mp h
  simp only [PageHeader.add_entry, if_neg (not_lt.mpr hge), PageHeader.update_bounding_box,
    hoff, hcnt, and_self, and_true]
  exact hroom

/-- A successful `add_entry` keeps the invariants of the page. -/
theorem add_entry_invariant (H : Nat) (p : PageHeader) (hinv : p.Invariant H) (e : Entry)
    (h : (p.add_entry H e).1 = aku_Status.AKU_SUCCESS) :
    (p.add_entry H e).2.Invariant H := by
  obtain ⟨h1, h2, h3, h4, -, -, -⟩ := add_entry_fields H p hinv e h
  have := hinv.entries_inside
  have := hinv.offset_lt
  constructor
  · rw [h2, h3]; omega
  · rw [h3, h4]; omega
  · rw [h4]; exact hinv.size_le
  · rw [h3]; omega

/-- An entry that was appended is read back by its index as it was. -/
theorem read_entry_at_add_entry (H : Nat) (p : PageHeader) (hinv : p.Invariant H) (e : Entry)
    (he : e.Valid) (h : (p.add_entry H e).1 = aku_Status.AKU_SUCCESS) :
    (p.add_entry H e).2.read_entry_at (p.count : Int) = some e := by
  obtain ⟨h1, h2, h3, h4, -, h6, h7⟩ := add_entry_fields H p hinv e h
  have hent := entry_at_write (p.add_entry H e).2 p.data _ e he h7
  have hin := hinv.entries_inside
  unfold PageHeader.read_entry_at
  rw [if_pos ⟨by omega, by rw [h2]; push_cast; omega⟩]
  rw [Int.toNat_ofNat, h6, Function.update_same]
  unfold PageHeader.read_entry
  rw [hent, h4, if_pos (by omega)]

/-! ## The scan of a sorted index -/

/-- On a sorted list all of whose elements are at or above the start of the
window, the scan that stops at the first element outside the window finds
all elements of the window. -/
theorem takeWhile_eq_filter {α : Type} (R : α → α → Prop) (U : α → Prop) (hit : α → Bool)
    (hB : ∀ x y, R x y → U x → hit x = false → hit y = false) :
    ∀ l : List α, l.Pairwise R → (∀ x, x ∈ l → U x) → l.takeWhile hit = l.filter hit := by
  intro l
  induction l with
  | nil => intro _ _; rfl
  | cons x t ih =>
    intro hp hu
    rw [List.pairwise_cons] at hp
    cases hx : hit x with
    | true =>
      rw [List.takeWhile_cons_of_pos hx, List.filter_cons_of_pos hx,
        ih hp.2 (fun y hy => hu y (List.mem_cons_of_mem _ hy))]
    | false =>
      have hnot : ¬ hit x = true := by rw [hx]; simp
      rw [List.takeWhile_cons_of_neg hnot, List.filter_cons_of_neg hnot]
      symm
      rw [List.filter_eq_nil_iff]
      intro y hy
      rw [hB x y (hp.1 y hy) (hu x (List.mem_cons_self _ _)) hx]
      simp

/-- On a sorted list, skipping to the first element at which the scan may
start and scanning up to the first element outside the window finds all
elements of the window. -/
theorem scan_eq_filter {α : Type} (R : α → α → Prop) (U : α → Prop) (start hit : α → Bool)
    (hA : ∀ x, hit x = true → start x = true)
    (hC : ∀ x, start x = true → U x)
    (hD : ∀ x y, R x y → U x → U y)
    (hB : ∀ x y, R x y → U x → hit x = false → hit y = false) :
    ∀ l : List α, l.Pairwise R →
      (l.dropWhile (fun x => !start x)).takeWhile hit = l.filter hit := by
  intro l
  induction l with
  | nil => intro _; rfl
  | cons x t ih =>
    intro hp
    have hp0 := hp
    rw [List.pairwise_cons] at hp
    cases hs : start x with
    | false =>
      have hx : ¬ hit x = true := fun h => by rw [hA x h] at hs; simp at hs
      rw [List.dropWhile_cons_of_pos (by simp [hs]), List.filter_cons_of_neg hx, ih hp.2]
    | true =>
      rw [List.dropWhile_cons_of_neg (by simp [hs])]
      apply takeWhile_eq_filter R U hit hB _ hp0
      intro y hy
      rcases List.mem_cons.mp hy with e | hy
      · rw [e]; exact hC x hs
      · exact hD x y (hp.1 y hy) (hC x hs)

/-- Merging an empty tail changes nothing. -/
theorem merge_tail_nil (dir : ScanDirection) (out : List Entry) : merge_tail dir out [] = out := by
  cases dir <;> rfl

theorem length_entries (p : PageHeader) : p.entries.length = p.count := by
  simp [PageHeader.entries]

/-- A query that the bounding box rejects has no hit on a page whose entries
lie within the box. -/
theorem filter_eq_nil_of_rejected (p : PageHeader) (hbox : p.Boxed)
    (query : SingleParameterSearchQuery)
    (h : query.param < p.bbox.min_id ∨ p.bbox.max_id < query.param ∨
      min query.upperbound p.bbox.max_timestamp < max query.lowerbound p.bbox.min_timestamp) :
    p.entries.filter query.matches = [] := by
  rw [List.filter_eq_nil_iff]
  intro e he
  have hb := hbox e he
  simp only [PageHeader.inside_bbox, decide_eq_true_eq] at hb
  simp only [SingleParameterSearchQuery.matches, decide_eq_true_eq]
  intro hm
  rcases h with h | h | h
  · omega
  · omega
  · have h1 := le_max_left query.lowerbound p.bbox.min_timestamp
    have h2 := le_max_right query.lowerbound p.bbox.min_timestamp
    have h3 := min_le_left query.upperbound p.bbox.max_timestamp
    have h4 := min_le_right query.upperbound p.bbox.max_timestamp
    have h5 : max query.lowerbound p.bbox.min_timestamp ≤ e.time := max_le hm.2.1 hb.2.2.1
    have h6 : e.time ≤ min query.upperbound p.bbox.max_timestamp := le_min hm.2.2 hb.2.2.2
    omega

/-- The forward search of a sorted page yields the hits in index order. -/
theorem search_forward (p : PageHeader) (hsync : p.sync_index = p.count) (hsorted : p.Sorted)
    (hbox : p.Boxed) (query : SingleParameterSearchQuery)
    (hdir : query.direction = ScanDirection.forward) :
    p.search query = p.entries.filter query.matches := by
  unfold PageHeader.search
  split
  · rename_i h
    exact (filter_eq_nil_of_rejected p hbox query h).symm
  · have htake : p.entries.take p.sync_index = p.entries := by
      rw [hsync, ← length_entries, List.take_length]
    have hdrop : p.entries.drop p.sync_index = [] := by
      rw [hsync, ← length_entries, List.drop_length]
    simp only [hdir, htake, hdrop, List.filter_nil, merge_tail_nil]
    apply scan_eq_filter Entry.key_le
      (fun e => query.param < e.param_id ∨
        (e.param_id = query.param ∧ query.lowerbound ≤ e.time)) _ _ _ _ _ _ _ hsorted
    · intro x hx
      simp only [SingleParameterSearchQuery.matches, decide_eq_true_eq] at hx ⊢
      exact ⟨hx.1, hx.2.1⟩
    · intro x hx
      simp only [decide_eq_true_eq] at hx
      exact Or.inr hx
    · intro x y hxy hx
      unfold Entry.key_le at hxy
      omega
    · intro x y hxy hx hn
      unfold Entry.key_le at hxy
      simp only [SingleParameterSearchQuery.matches, decide_eq_false_iff_not] at hn ⊢
      omega

/-- The backward search of a sorted page yields the hits in reverse index
order. -/
theorem search_backward (p : PageHeader) (hsync : p.sync_index = p.count)
    (hsorted : p.Sorted) (hbox : p.Boxed) (query : SingleParameterSearchQuery)
    (hdir : query.direction = ScanDirection.backward) :
    p.search query = (p.entries.filter query.matches).reverse := by
  unfold PageHeader.search
  split
  · rename_i h
    rw [filter_eq_nil_of_rejected p hbox query h]; rfl
  · have htake : p.entries.take p.sync_index = p.entries := by
      rw [hsync, ← length_entries, List.take_length]
    have hdrop : p.entries.drop p.sync_index = [] := by
      rw [hsync, ← length_entries, List.drop_length]
    simp only [hdir, htake, hdrop, List.filter_nil, merge_tail_nil]
    rw [← List.filter_reverse]
    apply scan_eq_filter (fun a b => Entry.key_le b a)
      (fun e => e.param_id < query.param ∨
        (e.param_id = query.param ∧ e.time ≤ query.upperbound)) _ _ _ _ _ _ _
      (List.pairwise_reverse.mpr hsorted)
    · intro x hx
      simp only [SingleParameterSearchQuery.matches, decide_eq_true_eq] at hx ⊢
      exact ⟨hx.1, hx.2.2⟩
    · intro x hx
      simp only [decide_eq_true_eq] at hx
      exact Or.inr hx
    · intro x y hxy hx
      unfold Entry.key_le at hxy
      omega
    · intro x y hxy hx hn
      unfold Entry.key_le at hxy
      simp only [SingleParameterSearchQuery.matches, decide_eq_false_iff_not] at hn ⊢
      omega

/-! ## Properties of the specification -/

/-- C1 (per-spout FIFO).  In every reachable state the samples the storage
connection has received from a spout are, in the same order, an initial
segment of the samples this spout has pushed: the `j`-th sample the worker
writes for the spout is the `j`-th sample the spout enqueued, so of two
enqueued samples the earlier one is written first. -/
theorem per_spout_fifo (K : Constants) (hK : K.WellFormed) (con : DbConnection)
    (bp : BackoffPolicy) (st : IngestionPipeline) (h : Reachable K con bp st)
    (s : Nat) (hs : s < st.nspouts) :
    st.written_of s <+: (st.spouts s).pushed ∧
    ∀ j, j < (st.written_of s).length → (st.written_of s)[j]? = (st.spouts s).pushed[j]? := by
  have hsp := (Inv_of_reachable K hK con bp st h).spout s hs
  have h1 : st.written_of s <+: (st.spouts s).pushed := by
    rw [hsp.written_eq]; exact List.take_prefix _ _
  refine ⟨h1, ?_⟩
  intro j hj
  obtain ⟨t, ht⟩ := h1
  rw [← ht, List.getElem?_append_left hj]

set_option maxRecDepth 100000 in
/-- The run `twoWrites`: two samples pushed, the first one written. -/
theorem per_spout_fifo_witness :
    afterTwoWrites.written_of 0 = [sampleA] ∧
    (afterTwoWrites.spouts 0).pushed = [sampleA, sampleB] ∧
    afterTwoWrites.written_of 0 <+: (afterTwoWrites.spouts 0).pushed :=
  ⟨by decide, by decide,
   (per_spout_fifo smallK (by decide) okStorage BackoffPolicy.AKU_THROTTLE afterTwoWrites
      ⟨twoWrites, rfl⟩ 0 (by decide)).1⟩

/-- C2 (drain completeness).  Take any schedule in which no producer takes a
step after `stop()` has been entered.  If the worker has reached the stop
barrier, then every queue is empty, the storage connection has received from
every spout exactly the samples the spout has enqueued, each once and in
order, and the number of storage writes is the number `K` of samples
enqueued by all spouts. -/
theorem drain_complete (K : Constants) (hK : K.WellFormed) (con : DbConnection)
    (bp : BackoffPolicy) (pre post : List Event)
    (hpre : ∀ e, e ∈ pre → e ≠ Event.stop) (hpost : ∀ e, e ∈ post → e.quiet = true)
    (st : IngestionPipeline) (hst : (IngestionPipeline.new bp).run K con (pre ++ post) = st)
    (hph : st.worker.phase = WorkerPhase.stopped) :
    (∀ q, q < K.N_QUEUES → st.queues_ q = []) ∧
    (∀ s, s < st.nspouts → st.written_of s = (st.spouts s).pushed) ∧
    st.written.length = st.enqueued := by
  subst hst
  have hI0 := Inv_run K hK con pre _ (Inv_new K bp)
  have hD0 := (DrainInv_run_before K hK con pre hpre _ (Inv_new K bp) (DrainInv_new K hK bp) rfl).1
  rw [run_append] at hph ⊢
  exact drained_of_stopped K _ (Inv_run K hK con post _ hI0)
    (DrainInv_run_quiet K hK con post hpost _ hI0 hD0) hph

set_option maxRecDepth 100000 in
/-- The run `beforeStop ++ drain`: the worker stops with both samples written. -/
theorem drain_complete_witness :
    afterDrain.worker.phase = WorkerPhase.stopped ∧ afterDrain.enqueued = 2 ∧
    afterDrain.written.length = afterDrain.enqueued :=
  ⟨by decide, by decide,
   (drain_complete smallK (by decide) okStorage BackoffPolicy.AKU_LINEAR_BACKOFF
      beforeStop drain (by decide) (by decide) afterDrain rfl (by decide)).2.2⟩

/-- C3 (pool occupancy).  In every reachable state, for every spout,
`0 ≤ created_ - deleted_ ≤ POOL_SIZE`: the release counter never passes the
creation counter, so the unsigned subtraction in `get_index_of_empty_slot`
does not wrap and yields the number of claimed and unreleased slots. -/
theorem pool_occupancy (K : Constants) (hK : K.WellFormed) (con : DbConnection)
    (bp : BackoffPolicy) (st : IngestionPipeline) (h : Reachable K con bp st)
    (s : Nat) (hs : s < st.nspouts) :
    (st.spouts s).deleted_ ≤ (st.spouts s).created_ ∧
    (st.spouts s).created_ - (st.spouts s).deleted_ ≤ K.POOL_SIZE ∧
    usub64 (st.spouts s).created_ (st.spouts s).deleted_
      = (st.spouts s).created_ - (st.spouts s).deleted_ := by
  have hsp := (Inv_of_reachable K hK con bp st h).spout s hs
  have h1 := hsp.deleted_le
  have h2 := hsp.created_eq
  have h3 := hsp.created_le
  exact ⟨by omega, by omega, SpoutInv_usub hK hsp⟩

set_option maxRecDepth 100000 in
/-- The run `twoWrites`: two slots claimed, one released. -/
theorem pool_occupancy_witness :
    (afterTwoWrites.spouts 0).created_ = 2 ∧ (afterTwoWrites.spouts 0).deleted_ = 1 ∧
    (afterTwoWrites.spouts 0).created_ - (afterTwoWrites.spouts 0).deleted_ ≤ smallK.POOL_SIZE :=
  ⟨by decide, by decide,
   (pool_occupancy smallK (by decide) okStorage BackoffPolicy.AKU_THROTTLE afterTwoWrites
      ⟨twoWrites, rfl⟩ 0 (by decide)).2.1⟩

/-- C4 (release before reuse).  In every reachable state, when
`get_index_of_empty_slot` returns an index (not `-1`), the pool slot with
that index is not in flight: its address waits in no queue and is not held
by the worker.  The same holds of the slot a producer has claimed and is
about to fill, so `write` never stores into a slot whose sample the worker
has not yet written and released. -/
theorem release_before_reuse (K : Constants) (hK : K.WellFormed) (con : DbConnection)
    (bp : BackoffPolicy) (st : IngestionPipeline) (h : Reachable K con bp st)
    (s : Nat) (hs : s < st.nspouts) :
    (¬ ((st.spouts s).get_index_of_empty_slot K).1 < 0 →
      (∀ q, TValPtr.slot s ((st.spouts s).get_index_of_empty_slot K).1.toNat ∉ st.queues_ q) ∧
      TValPtr.slot s ((st.spouts s).get_index_of_empty_slot K).1.toNat ∉ st.worker.held) ∧
    (∀ ix x, (st.spouts s).pc = WritePc.claimed ix x →
      (∀ q, TValPtr.slot s ix ∉ st.queues_ q) ∧ TValPtr.slot s ix ∉ st.worker.held) := by
  have hI := Inv_of_reachable K hK con bp st h
  have hsp := hI.spout s hs
  have h1 := hsp.deleted_le
  have h2 := hsp.created_eq
  have h3 := hsp.created_le
  have key : ∀ i, (∃ e, (st.spouts s).pushed.length ≤ e ∧ e < (st.spouts s).deleted_ + K.POOL_SIZE
      ∧ i = e % K.POOL_SIZE) →
      (∀ q, TValPtr.slot s i ∉ st.queues_ q) ∧ TValPtr.slot s i ∉ st.worker.held := by
    rintro i ⟨e, he1, he2, he3⟩
    have hno : ¬ ((∃ q, TValPtr.slot s i ∈ st.queues_ q) ∨ TValPtr.slot s i ∈ st.worker.held) := by
      intro hmem
      obtain ⟨-, c, hc1, hc2, hc3⟩ := Inv_in_flight hI hmem
      exact mod_ne_of_near (show c < e by omega) (by omega) (hc3.symm.trans he3)
    exact ⟨fun q hq => hno (Or.inl ⟨q, hq⟩), fun hh => hno (Or.inr hh)⟩
  constructor
  · intro hneg
    obtain ⟨g1, g2, -⟩ := get_index_of_nonneg K _ hneg
    rw [g2]
    rw [SpoutInv_usub hK hsp] at g1
    exact key _ ⟨(st.spouts s).created_, by omega, by omega, rfl⟩
  · intro ix x hpc
    have h4 := hsp.claimed_ix ix x hpc
    rw [hpc] at h2
    simp only [WritePc.holds] at h2
    exact key _ ⟨(st.spouts s).pushed.length, le_refl _, by omega, h4⟩

set_option maxRecDepth 100000 in
/-- The run `twoWrites`: slot 0 is free again while slot 1 waits in the queue. -/
theorem release_before_reuse_witness :
    ((afterTwoWrites.spouts 0).get_index_of_empty_slot smallK).1 = 0 ∧
    afterTwoWrites.queues_ 1 = [TValPtr.slot 0 1] ∧
    ((∀ q, TValPtr.slot 0 ((afterTwoWrites.spouts 0).get_index_of_empty_slot smallK).1.toNat
        ∉ afterTwoWrites.queues_ q) ∧
      TValPtr.slot 0 ((afterTwoWrites.spouts 0).get_index_of_empty_slot smallK).1.toNat
        ∉ afterTwoWrites.worker.held) :=
  ⟨by decide, by decide,
   (release_before_reuse smallK (by decide) okStorage BackoffPolicy.AKU_THROTTLE afterTwoWrites
      ⟨twoWrites, rfl⟩ 0 (by decide)).1 (by decide)⟩

/-- C5 (`write` contract).  Take any schedule, the state `st` it leads to
and the log of the calls of `write` on a spout `s` that the schedule shows:
the sample given to the call in progress and, for every call that has
returned, the sample given to it and what the call had done at the step at
which it returned.

(1) The producer carries the sample given to the call in progress; every
call that has returned has either pushed exactly one pointer, to a slot that
carries the sample given to the call, onto the queue of the spout, or has
found no free slot under `AKU_THROTTLE` and left the queue as it was; the
samples enqueued are, in order, the samples given to the calls that pushed,
and `returned`, `dropped` count the calls; under `AKU_LINEAR_BACKOFF` every
call that has returned has enqueued its sample.

(2) A call `write(x)` leaves the producer inside `write` with the sample `x`,
and a step of the producer is a step of `write`.

(3) `write` returns at a step of its producer that leads from a control
state inside `write` to `idle`.  Such a step is either the successful push
of the filled slot (the queue of the spout grows by exactly the pointer to
that slot, the slot carries the sample of the call and the addresses of the
members of the spout), or the give-up of the throttle policy (the policy is
`AKU_THROTTLE`, `get_index_of_empty_slot` has just found no free slot, the
queues and the creation counter are unchanged); under `AKU_LINEAR_BACKOFF`
it is the push.  Entering `write` never returns at once, a step that does not
return pushes nothing, and once a slot is claimed every step keeps it claimed
until it is pushed. -/
theorem write_contract (K : Constants) (hK : K.WellFormed) (con : DbConnection)
    (bp : BackoffPolicy) (evs : List Event) (st : IngestionPipeline)
    (hst : (IngestionPipeline.new bp).run K con evs = st)
    (s : Nat) (hs : s < st.nspouts) :
    ((st.spouts s).pc.arg
        = ((IngestionPipeline.new bp).call_log K con s { pending := none, done := [] }
            evs).pending ∧
      (∀ c, c ∈ ((IngestionPipeline.new bp).call_log K con s { pending := none, done := [] }
            evs).done →
        c.2 = CallResult.enqueued ∨
        (c.2 = CallResult.dropped ∧ (st.spouts s).backoff_ = BackoffPolicy.AKU_THROTTLE)) ∧
      (st.spouts s).pushed
        = ((((IngestionPipeline.new bp).call_log K con s { pending := none, done := [] }
            evs).done.filter (fun c => decide (c.2 = CallResult.enqueued))).map Prod.fst) ∧
      (st.spouts s).returned
        = ((IngestionPipeline.new bp).call_log K con s { pending := none, done := [] }
            evs).done.length ∧
      (st.spouts s).dropped
        = ((((IngestionPipeline.new bp).call_log K con s { pending := none, done := [] }
            evs).done.filter (fun c => decide (c.2 = CallResult.dropped))).length) ∧
      ((st.spouts s).backoff_ = BackoffPolicy.AKU_LINEAR_BACKOFF →
        (st.spouts s).pushed
          = (((IngestionPipeline.new bp).call_log K con s { pending := none, done := [] }
              evs).done.map Prod.fst))) ∧
    ((∀ x, (st.spouts s).pc = WritePc.idle →
        ((st.step K con (Event.write s x)).spouts s).pc.arg = some x ∧
        ((st.step K con (Event.write s x)).spouts s).pc ≠ WritePc.idle) ∧
      st.step K con (Event.producer s) = st.write_step K s) ∧
    ((st.spouts s).pc ≠ WritePc.idle → ((st.write_step K s).spouts s).pc = WritePc.idle →
      (∃ ix x, (st.spouts s).pc = WritePc.pushing ix x ∧
        (st.write_step K s).queues_ = Function.update st.queues_ (st.spouts s).queue_
          (st.queues_ (st.spouts s).queue_ ++ [TValPtr.slot s ix]) ∧
        (st.write_step K s).deref (TValPtr.slot s ix)
          = { sample := x, cnt := some s, on_error := some s } ∧
        ((st.write_step K s).spouts s).pushed = (st.spouts s).pushed ++ [x]) ∨
      (∃ x, (st.spouts s).pc = WritePc.retry x ∧
        (st.spouts s).backoff_ = BackoffPolicy.AKU_THROTTLE ∧
        ((st.spouts s).get_index_of_empty_slot K).1 = -1 ∧
        (st.write_step K s).queues_ = st.queues_ ∧
        ((st.write_step K s).spouts s).pushed = (st.spouts s).pushed ∧
        ((st.write_step K s).spouts s).created_ = (st.spouts s).created_)) ∧
    ((st.spouts s).backoff_ = BackoffPolicy.AKU_LINEAR_BACKOFF →
      (st.spouts s).pc ≠ WritePc.idle → ((st.write_step K s).spouts s).pc = WritePc.idle →
      ∃ ix x, (st.spouts s).pc = WritePc.pushing ix x ∧
        ((st.write_step K s).spouts s).pushed = (st.spouts s).pushed ++ [x]) ∧
    (∀ x, ((st.spouts s).write_enter K x).pc ≠ WritePc.idle) ∧
    (((st.write_step K s).spouts s).pc ≠ WritePc.idle →
      (st.write_step K s).queues_ = st.queues_) ∧
    (∀ ix x, (st.spouts s).pc = WritePc.claimed ix x ∨ (st.spouts s).pc = WritePc.pushing ix x →
      ((st.write_step K s).spouts s).pc = WritePc.pushing ix x ∨
      (((st.write_step K s).spouts s).pc = WritePc.idle ∧
        ((st.write_step K s).spouts s).pushed = (st.spouts s).pushed ++ [x])) := by
  have h : Reachable K con bp st := ⟨evs, hst⟩
  have hI := Inv_of_reachable K hK con bp st h
  have hL := Logged_run K hK con s evs (IngestionPipeline.new bp)
    { pending := none, done := [] } (Inv_new K bp) (Logged_new bp s)
  rw [hst] at hL
  refine ⟨⟨hL.arg_eq hs, hL.outcome, hL.pushed_eq hs, hL.returned_eq hs, hL.dropped_eq hs, ?_⟩,
    ⟨?_, ?_⟩, ?_⟩
  · intro hb
    rw [hL.pushed_eq hs]
    congr 1
    rw [List.filter_eq_self]
    intro c hc
    rcases hL.outcome c hc with o | ⟨-, o⟩
    · simp [o]
    · rw [hb] at o; exact absurd o (by simp)
  · intro x hpc
    have hstep : (st.step K con (Event.write s x)).spouts s = (st.spouts s).write_enter K x := by
      simp only [IngestionPipeline.step, if_pos (And.intro hs hpc), Function.update_same]
    rw [hstep]
    have hw := (write_enter_fields K (st.spouts s) x).1
    refine ⟨hw, fun hc => ?_⟩
    rw [hc] at hw
    simp [WritePc.arg] at hw
  · simp only [IngestionPipeline.step, if_pos hs]
  have hsp := (Inv_of_reachable K hK con bp st h).spout s hs
  have hret : (st.spouts s).pc ≠ WritePc.idle →
      ((st.write_step K s).spouts s).pc = WritePc.idle →
      (∃ ix x, (st.spouts s).pc = WritePc.pushing ix x ∧
        (st.write_step K s).queues_ = Function.update st.queues_ (st.spouts s).queue_
          (st.queues_ (st.spouts s).queue_ ++ [TValPtr.slot s ix]) ∧
        (st.write_step K s).deref (TValPtr.slot s ix)
          = { sample := x, cnt := some s, on_error := some s } ∧
        ((st.write_step K s).spouts s).pushed = (st.spouts s).pushed ++ [x]) ∨
      (∃ x, (st.spouts s).pc = WritePc.retry x ∧
        (st.spouts s).backoff_ = BackoffPolicy.AKU_THROTTLE ∧
        ((st.spouts s).get_index_of_empty_slot K).1 = -1 ∧
        (st.write_step K s).queues_ = st.queues_ ∧
        ((st.write_step K s).spouts s).pushed = (st.spouts s).pushed ∧
        ((st.write_step K s).spouts s).created_ = (st.spouts s).created_) := by
    intro hpc hret
    cases hp : (st.spouts s).pc with
    | idle => exact absurd hp hpc
    | retry x =>
      right
      refine ⟨x, rfl, ?_⟩
      unfold IngestionPipeline.write_step at hret ⊢
      simp only [hp] at hret ⊢
      by_cases hneg : ((st.spouts s).get_index_of_empty_slot K).1 < 0
      · have e2 := get_index_of_neg K _ hneg
        have e1 : ((st.spouts s).get_index_of_empty_slot K).1 = -1 := by
          have := (get_index_fst_neg K _).1 hneg
          unfold PipelineSpout.get_index_of_empty_slot
          simp [this]
        simp only [hneg, if_true] at hret ⊢
        cases hb : (st.spouts s).backoff_ with
        | AKU_LINEAR_BACKOFF =>
          simp only [hb, Function.update_same] at hret
          exact absurd hret (by simp)
        | AKU_THROTTLE =>
          simp [e1, e2]
      · simp only [hneg, if_false, Function.update_same] at hret
        exact absurd hret (by simp)
    | claimed ix x =>
      unfold IngestionPipeline.write_step at hret
      simp only [hp, Function.update_same] at hret
      exact absurd hret (by simp)
    | pushing ix x =>
      left
      obtain ⟨-, hpool⟩ := hsp.pushing_ix ix x hp
      refine ⟨ix, x, rfl, ?_⟩
      unfold IngestionPipeline.write_step at hret ⊢
      simp only [hp] at hret ⊢
      by_cases hroom : (st.queues_ (st.spouts s).queue_).length < K.QCAP
      · simp [hroom, IngestionPipeline.deref, hpool]
      · simp only [hroom, if_false] at hret
        exact absurd (hp.symm.trans hret) (by simp)
  refine ⟨hret, ?_, ?_, ?_, ?_⟩
  · intro hb hpc hr
    rcases hret hpc hr with ⟨ix, x, e1, -, -, e4⟩ | ⟨x, -, e2, -⟩
    · exact ⟨ix, x, e1, e4⟩
    · rw [hb] at e2; exact absurd e2 (by simp)
  · intro x
    simp only [PipelineSpout.write_enter]
    split <;> simp
  · intro hnot
    unfold IngestionPipeline.write_step at hnot ⊢
    cases hp : (st.spouts s).pc with
    | idle => simp only [hp]
    | retry x =>
      simp only [hp]
      repeat' split
      all_goals rfl
    | claimed ix x => simp only [hp]
    | pushing ix x =>
      simp only [hp] at hnot ⊢
      by_cases hroom : (st.queues_ (st.spouts s).queue_).length < K.QCAP
      · simp only [hroom, if_true, Function.update_same] at hnot
        exact absurd rfl hnot
      · simp only [hroom, if_false]
  · intro ix x hp
    unfold IngestionPipeline.write_step
    rcases hp with hp | hp
    · left
      simp only [hp, Function.update_same]
    · simp only [hp]
      by_cases hroom : (st.queues_ (st.spouts s).queue_).length < K.QCAP
      · right
        simp only [hroom, if_true, Function.update_same, and_self]
      · left
        simp only [hroom, if_false, hp]

set_option maxRecDepth 100000 in
/-- Under the throttle policy the run `threeWrites` makes three calls on a
pool of two slots: the log shows that the first two enqueued the samples
given to them and the third dropped its sample, and the state agrees.  In
the run `fillOnly` the next step of the producer returns: it pushes the
pointer to slot 0, which carries `sampleA`, the sample given to the call. -/
theorem write_contract_witness :
    (IngestionPipeline.new BackoffPolicy.AKU_THROTTLE).call_log smallK okStorage 0
        { pending := none, done := [] } threeWrites
      = { pending := none
          done := [(sampleA, CallResult.enqueued), (sampleB, CallResult.enqueued),
                   (sampleA, CallResult.dropped)] } ∧
    (afterThreeWrites.spouts 0).pushed = [sampleA, sampleB] ∧
    ((afterThreeWrites.spouts 0).pushed
        = ((((IngestionPipeline.new BackoffPolicy.AKU_THROTTLE).call_log smallK okStorage 0
            { pending := none, done := [] } threeWrites).done.filter
              (fun c => decide (c.2 = CallResult.enqueued))).map Prod.fst) ∧
      (afterThreeWrites.spouts 0).returned
        = ((IngestionPipeline.new BackoffPolicy.AKU_THROTTLE).call_log smallK okStorage 0
            { pending := none, done := [] } threeWrites).done.length) ∧
    (afterFill.spouts 0).pc = WritePc.pushing 0 sampleA ∧
    ((afterFill.write_step smallK 0).spouts 0).pc = WritePc.idle ∧
    ∃ ix x, (afterFill.spouts 0).pc = WritePc.pushing ix x ∧
      (afterFill.write_step smallK 0).queues_
        = Function.update afterFill.queues_ (afterFill.spouts 0).queue_
            (afterFill.queues_ (afterFill.spouts 0).queue_ ++ [TValPtr.slot 0 ix]) ∧
      (afterFill.write_step smallK 0).deref (TValPtr.slot 0 ix)
        = { sample := x, cnt := some 0, on_error := some 0 } ∧
      ((afterFill.write_step smallK 0).spouts 0).pushed = (afterFill.spouts 0).pushed ++ [x] :=
  ⟨by decide, by decide,
   ⟨(write_contract smallK (by decide) okStorage BackoffPolicy.AKU_THROTTLE threeWrites
      afterThreeWrites rfl 0 (by decide)).1.2.2.1,
    (write_contract smallK (by decide) okStorage BackoffPolicy.AKU_THROTTLE threeWrites
      afterThreeWrites rfl 0 (by decide)).1.2.2.2.1⟩,
   by decide, by decide,
   ((write_contract smallK (by decide) okStorage BackoffPolicy.AKU_LINEAR_BACKOFF fillOnly
      afterFill rfl 0 (by decide)).2.2.1 (by decide) (by decide)).resolve_right
      (fun hx => hx.elim (fun x hx1 =>
        absurd ((show (afterFill.spouts 0).pc = WritePc.pushing 0 sampleA by decide).symm.trans
          hx1.1) (by simp)))⟩

/-- C6 (error reporting), what the code does.  In every reachable state:
(a) the pop of a slot that is not poison calls neither the storage nor a
callback and touches no counter; (b) the next step of the worker calls the
storage write once, with the sample of that slot; (c) the step after that
increments the release counter of the spout that owns the slot by exactly 1,
whatever the status, and leaves the other counters and the storage alone; on
`AKU_SUCCESS` it invokes no callback; on any other status it invokes the
callback registered on that spout exactly once, with the status and the
counter after the increment, which is the number of samples of the spout
written so far (a failure on the 100th sample is reported with 100); but if
no callback was registered the call of the empty callback throws: nothing is
invoked and the worker leaves its loop.  (d) The three steps together, from
the pop on. -/
theorem error_reporting (K : Constants) (hK : K.WellFormed) (con : DbConnection)
    (bp : BackoffPolicy) (st : IngestionPipeline) (h : Reachable K con bp st) :
    (∀ q val rest, st.worker.phase = WorkerPhase.poll →
      queues_at K (Int.tmod st.worker.ix (K.N_QUEUES : Int)) = some q →
      st.queues_ q = val :: rest → (st.deref val).cnt ≠ none →
      (st.worker_step K con).worker.phase = WorkerPhase.popped val ∧
      (st.worker_step K con).queues_ = Function.update st.queues_ q rest ∧
      (st.worker_step K con).written = st.written ∧
      (st.worker_step K con).spouts = st.spouts ∧
      (st.worker_step K con).on_error_calls = st.on_error_calls) ∧
    (∀ val, st.worker.phase = WorkerPhase.popped val →
      (st.worker_step K con).written = st.written ++ [(val, (st.deref val).sample)] ∧
      (st.worker_step K con).worker.phase = WorkerPhase.written val
        (con.write (st.written.map Prod.snd) (st.deref val).sample) ∧
      (st.worker_step K con).spouts = st.spouts ∧
      (st.worker_step K con).on_error_calls = st.on_error_calls) ∧
    (∀ val error, st.worker.phase = WorkerPhase.written val error →
      ∃ s i, val = TValPtr.slot s i ∧ s < st.nspouts ∧
        ((st.worker_step K con).spouts s).deleted_ = (st.spouts s).deleted_ + 1 ∧
        (∀ s1, s1 ≠ s → ((st.worker_step K con).spouts s1).deleted_ = (st.spouts s1).deleted_) ∧
        (st.worker_step K con).written = st.written ∧
        (error = aku_Status.AKU_SUCCESS →
          (st.worker_step K con).on_error_calls = st.on_error_calls ∧
          (st.worker_step K con).worker.phase = WorkerPhase.poll) ∧
        (error ≠ aku_Status.AKU_SUCCESS → ∀ cb, (st.spouts s).on_error_ = some cb →
          (st.worker_step K con).on_error_calls
            = st.on_error_calls ++ [(cb, error, (st.spouts s).deleted_ + 1)] ∧
          (st.worker_step K con).worker.phase = WorkerPhase.poll) ∧
        (error ≠ aku_Status.AKU_SUCCESS → (st.spouts s).on_error_ = none →
          (st.worker_step K con).on_error_calls = st.on_error_calls ∧
          (st.worker_step K con).worker.phase = WorkerPhase.crashed) ∧
        (st.spouts s).deleted_ + 1 = (st.written_of s).length) ∧
    (∀ q val rest, st.worker.phase = WorkerPhase.poll →
      queues_at K (Int.tmod st.worker.ix (K.N_QUEUES : Int)) = some q →
      st.queues_ q = val :: rest → (st.deref val).cnt ≠ none →
      ∃ s i, val = TValPtr.slot s i ∧ s < st.nspouts ∧
        (((st.worker_step K con).worker_step K con).worker_step K con).written
          = st.written ++ [(val, (st.deref val).sample)] ∧
        ((((st.worker_step K con).worker_step K con).worker_step K con).spouts s).deleted_
          = (st.spouts s).deleted_ + 1 ∧
        (∀ s1, s1 ≠ s →
          ((((st.worker_step K con).worker_step K con).worker_step K con).spouts s1).deleted_
            = (st.spouts s1).deleted_) ∧
        (con.write (st.written.map Prod.snd) (st.deref val).sample = aku_Status.AKU_SUCCESS →
          (((st.worker_step K con).worker_step K con).worker_step K con).on_error_calls
            = st.on_error_calls) ∧
        (con.write (st.written.map Prod.snd) (st.deref val).sample ≠ aku_Status.AKU_SUCCESS →
          ∀ cb, (st.spouts s).on_error_ = some cb →
          (((st.worker_step K con).worker_step K con).worker_step K con).on_error_calls
            = st.on_error_calls ++
              [(cb, con.write (st.written.map Prod.snd) (st.deref val).sample,
                (st.spouts s).deleted_ + 1)]) ∧
        (con.write (st.written.map Prod.snd) (st.deref val).sample ≠ aku_Status.AKU_SUCCESS →
          (st.spouts s).on_error_ = none →
          (((st.worker_step K con).worker_step K con).worker_step K con).on_error_calls
            = st.on_error_calls ∧
          (((st.worker_step K con).worker_step K con).worker_step K con).worker.phase
            = WorkerPhase.crashed) ∧
        (st.spouts s).deleted_ + 1
          = ((((st.worker_step K con).worker_step K con).worker_step K con).written_of
              s).length) := by
  have hI := Inv_of_reachable K hK con bp st h
  refine ⟨fun q val rest hph hq hl hnp => worker_pop_slot K con st q val rest hph hq hl hnp,
    ?_, fun val error hph => worker_release K con st hI val error hph, ?_⟩
  · intro val hph
    obtain ⟨w1, w2, w3, -, w5⟩ := worker_write K con st val hph
    exact ⟨w1, w2, w3, w5⟩
  · intro q val rest hph hq hl hnp
    obtain ⟨p1, -, p3, p4, p5⟩ := worker_pop_slot K con st q val rest hph hq hl hnp
    have hI1 := Inv_worker_step K con st hI
    obtain ⟨w1, w2, w3, -, w5⟩ := worker_write K con (st.worker_step K con) val p1
    rw [deref_congr _ _ p4 val, p3] at w1 w2
    have hI2 := Inv_worker_step K con _ hI1
    obtain ⟨s, i, hv, hs, r1, r2, r3, r4, r5, r6, r7⟩ :=
      worker_release K con _ hI2 val _ w2
    have hn : ((st.worker_step K con).worker_step K con).nspouts = st.nspouts := by
      rw [(worker_step_static K con _).2.1, (worker_step_static K con _).2.1]
    have hsp : ((st.worker_step K con).worker_step K con).spouts = st.spouts := by
      rw [w3, p4]
    have hcalls : ((st.worker_step K con).worker_step K con).on_error_calls
        = st.on_error_calls := by
      rw [w5, p5]
    rw [hn] at hs
    rw [hsp] at r1 r2 r5 r6 r7
    rw [hcalls] at r4 r5 r6
    refine ⟨s, i, hv, hs, ?_, r1, r2, fun he => (r4 he).1, fun he cb hcb => (r5 he cb hcb).1,
      fun he hcb => r6 he hcb, ?_⟩
    · rw [r3, w1]
    · rw [r7]
      unfold IngestionPipeline.written_of
      rw [r3]

set_option maxRecDepth 100000 in
/-- On a storage that fails: in the run `failedWrite` the refused sample is
reported once to the registered callback 7, with count 1; in the run
`unregistered`, where no callback was registered, the counter is incremented,
no callback is invoked and the worker leaves its loop. -/
theorem error_reporting_witness :
    (afterFailedWrite.worker.phase
        = WorkerPhase.written (TValPtr.slot 0 0) aku_Status.IoError ∧
      (afterFailedWrite.worker_step smallK failingStorage).on_error_calls
        = [(7, aku_Status.IoError, 1)]) ∧
    (afterUnregistered.worker.phase
        = WorkerPhase.written (TValPtr.slot 0 0) aku_Status.IoError ∧
      (afterUnregistered.spouts 0).on_error_ = none ∧
      ((afterUnregistered.worker_step smallK failingStorage).spouts 0).deleted_ = 1 ∧
      (afterUnregistered.worker_step smallK failingStorage).on_error_calls = [] ∧
      (afterUnregistered.worker_step smallK failingStorage).worker.phase
        = WorkerPhase.crashed) ∧
    ∃ s i, TValPtr.slot 0 0 = TValPtr.slot s i ∧ s < afterUnregistered.nspouts ∧
      ((afterUnregistered.worker_step smallK failingStorage).spouts s).deleted_
        = (afterUnregistered.spouts s).deleted_ + 1 ∧
      (aku_Status.IoError ≠ aku_Status.AKU_SUCCESS → (afterUnregistered.spouts s).on_error_ = none →
        (afterUnregistered.worker_step smallK failingStorage).on_error_calls
          = afterUnregistered.on_error_calls ∧
        (afterUnregistered.worker_step smallK failingStorage).worker.phase
          = WorkerPhase.crashed) :=
  ⟨⟨by decide, by decide⟩, ⟨by decide, by decide, by decide, by decide, by decide⟩,
   ((error_reporting smallK (by decide) failingStorage BackoffPolicy.AKU_LINEAR_BACKOFF
      afterUnregistered ⟨unregistered, rfl⟩).2.2.1 (TValPtr.slot 0 0) aku_Status.IoError
      (by decide)).imp
      (fun _ hs => hs.imp (fun _ hi => ⟨hi.1, hi.2.1, hi.2.2.1, hi.2.2.2.2.2.2.2.1⟩))⟩

/-- C7, as stated, fails: with eight queues the first call of `make_spout`
on a fresh pipeline returns a spout bound to `queues[1]`, not to
`queues[0 mod N_QUEUES]`. -/
theorem spout_distribution_counterexample :
    (((IngestionPipeline.new BackoffPolicy.AKU_LINEAR_BACKOFF).make_spout eightQueues).spouts
      0).queue_ = 1 ∧
    ¬ (((IngestionPipeline.new BackoffPolicy.AKU_LINEAR_BACKOFF).make_spout eightQueues).spouts
      0).queue_ = 0 % eightQueues.N_QUEUES := by
  constructor <;> decide

/-- C7, amended (spout distribution).  `make_spout` increments the counter
before it uses it: in every reachable state the counter equals the number of
spouts made, the `k`-th spout made (`k = 0, 1, 2, ...`) is bound to
`queues[(k + 1) mod N_QUEUES]`, and the next call of `make_spout` makes spout
number `nspouts` and binds it to `queues[(nspouts + 1) mod N_QUEUES]`. -/
theorem spout_distribution (K : Constants) (hK : K.WellFormed) (con : DbConnection)
    (bp : BackoffPolicy) (st : IngestionPipeline) (h : Reachable K con bp st) :
    st.ixmake_ = st.nspouts ∧
    (∀ k, k < st.nspouts → (st.spouts k).queue_ = (k + 1) % K.N_QUEUES) ∧
    (st.make_spout K).nspouts = st.nspouts + 1 ∧
    ((st.make_spout K).spouts st.nspouts).queue_ = (st.nspouts + 1) % K.N_QUEUES := by
  have hT := Tally_of_reachable K hK con bp st h
  have hT1 := Tally_step K hK con st hT Event.make_spout
  have hn : (st.make_spout K).nspouts = st.nspouts + 1 := by
    have hlt : (st.ixmake_ + 1) % K.N_QUEUES < K.N_QUEUES := Nat.mod_lt _ hK.1
    have hq : queues_at K (((st.ixmake_ + 1) % K.N_QUEUES : Nat) : Int)
        = some ((st.ixmake_ + 1) % K.N_QUEUES) := by
      unfold queues_at
      rw [if_pos (by constructor <;> omega), Int.toNat_ofNat]
    simp only [IngestionPipeline.make_spout, hq]
  refine ⟨hT.ixmake_eq, hT.queue_eq, hn, ?_⟩
  have := hT1.queue_eq st.nspouts
  simp only [IngestionPipeline.step] at this
  exact this (by rw [hn]; omega)

set_option maxRecDepth 100000 in
/-- The run `twoWrites`: the first spout shares queue 1 of 2. -/
theorem spout_distribution_witness :
    afterTwoWrites.nspouts = 1 ∧ (afterTwoWrites.spouts 0).queue_ = (0 + 1) % smallK.N_QUEUES :=
  ⟨by decide,
   (spout_distribution smallK (by decide) okStorage BackoffPolicy.AKU_THROTTLE afterTwoWrites
      ⟨twoWrites, rfl⟩).2.1 0 (by decide)⟩

set_option maxRecDepth 100000 in
/-- C8, as stated, fails: after three `write` calls under the throttle
policy with a pool of two slots and an idle worker, one sample was dropped,
while the creation counter and the number of samples enqueued are both 2. -/
theorem throttle_accounting_counterexample :
    (afterThreeWrites.spouts 0).pc = WritePc.idle ∧
    (afterThreeWrites.spouts 0).dropped = 1 ∧
    (afterThreeWrites.spouts 0).created_ = 2 ∧
    (afterThreeWrites.spouts 0).pushed.length = 2 ∧
    ¬ (afterThreeWrites.spouts 0).dropped
      = (afterThreeWrites.spouts 0).created_ - (afterThreeWrites.spouts 0).pushed.length := by
  refine ⟨?_, ?_, ?_, ?_, ?_⟩ <;> decide

/-- C8, amended (throttle drop accounting).  In every reachable state the
number of dropped samples of a spout is the number of its `write` calls that
returned minus the number of samples it enqueued.  The creation counter
counts claimed slots only: it is the number of samples enqueued, plus one
while `write` holds a claimed slot it has not pushed yet, so between `write`
calls it exceeds the number of samples enqueued by 0, however many samples
were dropped. -/
theorem throttle_accounting (K : Constants) (hK : K.WellFormed) (con : DbConnection)
    (bp : BackoffPolicy) (st : IngestionPipeline) (h : Reachable K con bp st)
    (s : Nat) (hs : s < st.nspouts) :
    (st.spouts s).dropped = (st.spouts s).returned - (st.spouts s).pushed.length ∧
    (st.spouts s).pushed.length ≤ (st.spouts s).returned ∧
    (st.spouts s).created_ = (st.spouts s).pushed.length + (st.spouts s).pc.holds ∧
    ((st.spouts s).pc = WritePc.idle →
      (st.spouts s).created_ - (st.spouts s).pushed.length = 0) := by
  have h1 := (Tally_of_reachable K hK con bp st h).returned_eq s
  have h2 := ((Inv_of_reachable K hK con bp st h).spout s hs).created_eq
  refine ⟨by omega, by omega, h2, ?_⟩
  intro hpc
  rw [hpc] at h2
  simp only [WritePc.holds] at h2
  omega

set_option maxRecDepth 100000 in
/-- The run `threeWrites`: three calls returned, two samples enqueued, one dropped. -/
theorem throttle_accounting_witness :
    (afterThreeWrites.spouts 0).returned = 3 ∧
    (afterThreeWrites.spouts 0).dropped
      = (afterThreeWrites.spouts 0).returned - (afterThreeWrites.spouts 0).pushed.length :=
  ⟨by decide,
   (throttle_accounting smallK (by decide) okStorage BackoffPolicy.AKU_THROTTLE
      afterThreeWrites ⟨threeWrites, rfl⟩ 0 (by decide)).1⟩

set_option maxRecDepth 100000 in
/-- C10 (worker termination), what the code does.  (a) Let the worker be at
the head of its loop with no poison counted, in a reachable state in which
`stop()` has pushed its poison and every one of the `N_QUEUES` queues ends in
exactly one poison sentinel, and let only the worker run (no further pushes).
Then after any number of steps the worker is at the stop barrier exactly when
it has counted `N_QUEUES` sentinels, never earlier, and every queue is empty
then; and the worker does get there after finitely many steps, not having
stopped at any earlier step, provided no exception leaves the loop: the `int`
loop counter has room and a storage error can be reported (the callbacks are
registered, or the storage does not fail).  (b) Without that proviso the
claim fails.  In the state after the run `stopEarly` on a storage that
fails, the two queues hold `[POISON]` and `[slot, POISON]`, no callback is
registered and the loop counter is 0; the worker pops the first poison, pops
the slot, has the write refused, releases the slot and calls the empty
callback: after five steps it has left the loop by the exception with one
poison counted and the second poison still in its queue, and it never
reaches the stop barrier. -/
theorem worker_terminates :
    (∀ (K : Constants) (_ : K.WellFormed) (con : DbConnection) (bp : BackoffPolicy)
        (st : IngestionPipeline), Reachable K con bp st →
      st.stop_ix = some K.N_QUEUES →
      st.worker.phase = WorkerPhase.poll → st.worker.poison_cnt = 0 →
      (∀ q, q < K.N_QUEUES →
        ∃ items, st.queues_ q = items ++ [TValPtr.POISON] ∧ TValPtr.POISON ∉ items) →
      (∀ m, ((IngestionPipeline.worker_step K con)^[m] st).worker.phase = WorkerPhase.stopped ↔
        ((IngestionPipeline.worker_step K con)^[m] st).worker.poison_cnt = (K.N_QUEUES : Int)) ∧
      (∀ m, ((IngestionPipeline.worker_step K con)^[m] st).worker.phase = WorkerPhase.stopped →
        ∀ q, q < K.N_QUEUES → ((IngestionPipeline.worker_step K con)^[m] st).queues_ q = []) ∧
      (((∀ s, s < st.nspouts → (st.spouts s).on_error_ ≠ none) ∨
          (∀ l x, con.write l x = aku_Status.AKU_SUCCESS)) →
        0 ≤ st.worker.ix →
        st.worker.ix + (K.N_QUEUES : Int) * (st.queued K : Int) < 2 ^ 31 →
        ∃ n, ((IngestionPipeline.worker_step K con)^[n] st).worker.phase = WorkerPhase.stopped ∧
          ∀ m, m < n →
            ((IngestionPipeline.worker_step K con)^[m] st).worker.phase ≠ WorkerPhase.stopped)) ∧
    (Reachable smallK failingStorage BackoffPolicy.AKU_LINEAR_BACKOFF afterStopFailing ∧
      afterStopFailing.stop_ix = some smallK.N_QUEUES ∧
      afterStopFailing.worker.phase = WorkerPhase.poll ∧
      afterStopFailing.worker.poison_cnt = 0 ∧
      afterStopFailing.queues_ 0 = [TValPtr.POISON] ∧
      afterStopFailing.queues_ 1 = [TValPtr.slot 0 0, TValPtr.POISON] ∧
      afterStopFailing.worker.ix = 0 ∧
      (afterStopFailing.spouts 0).on_error_ = none ∧
      ((IngestionPipeline.worker_step smallK failingStorage)^[5]
        afterStopFailing).worker.phase = WorkerPhase.crashed ∧
      ((IngestionPipeline.worker_step smallK failingStorage)^[5]
        afterStopFailing).worker.poison_cnt = 1 ∧
      ((IngestionPipeline.worker_step smallK failingStorage)^[5]
        afterStopFailing).queues_ 1 = [TValPtr.POISON] ∧
      ∀ n, ((IngestionPipeline.worker_step smallK failingStorage)^[n]
        afterStopFailing).worker.phase ≠ WorkerPhase.stopped) := by
  constructor
  · intro K hK con bp st h hstop hph hcnt hq
    have hI := Inv_of_reachable K hK con bp st h
    have hne : ∀ q, q < K.N_QUEUES → st.queues_ q ≠ [] := by
      intro q hq1
      obtain ⟨items, e, -⟩ := hq q hq1
      rw [e]; simp
    have hD : DrainInv K st := by
      constructor
      · intro e; rw [hstop] at e; simp at e
      · intro k hk
        rw [hstop] at hk
        simp only [Option.some.injEq] at hk
        subst hk
        refine ⟨le_refl _, fun q h1 h2 => absurd h2 (by omega), fun q hq1 => Or.inr (hq q hq1), ?_⟩
        rw [hcnt, drained_count_none st _ hne]; rfl
      · intro e; rw [hph] at e; simp at e
      · intro _
        have := hK.1
        rw [hcnt]; omega
    refine ⟨?_, ?_, ?_⟩
    · intro m
      have hDm := DrainInv_iterate K hK con st hI hD m
      constructor
      · exact hDm.stopped
      · intro e
        by_contra hc
        have := hDm.running hc
        omega
    · intro m hm
      exact (drained_of_stopped K _ (Inv_iterate K con st hI m)
        (DrainInv_iterate K hK con st hI hD m) hm).1
    · intro hcb hix0 hix
      have hG : Draining K con st := by
        constructor
        · exact hI
        · exact hD
        · exact hstop
        · exact hix0
        · exact hcb
        · intro val error e; rw [hph] at e; simp at e
        · rw [hph]; simp
      have hex := worker_reaches_barrier K hK con _ st hG hph rfl hix
      exact ⟨Nat.find hex, Nat.find_spec hex, fun m hm => Nat.find_min hex hm⟩
  · have h5 : ((IngestionPipeline.worker_step smallK failingStorage)^[5]
        afterStopFailing).worker.phase = WorkerPhase.crashed := by decide
    refine ⟨⟨stopEarly, rfl⟩, by decide, by decide, by decide, by decide, by decide,
      by decide, by decide, h5, by decide, by decide, ?_⟩
    intro n
    rcases Nat.lt_or_ge n 5 with hlt | hge
    · interval_cases n <;> decide
    · obtain ⟨m, rfl⟩ : ∃ m, n = m + 5 := ⟨n - 5, by omega⟩
      rw [Function.iterate_add_apply,
        worker_iterate_crashed smallK failingStorage _ h5 m, h5]
      decide

set_option maxRecDepth 100000 in
/-- The run `stopEarly`: the worker drains both queues and stops. -/
theorem worker_terminates_witness :
    afterStopEarly.queues_ 0 = [TValPtr.POISON] ∧
    afterStopEarly.queues_ 1 = [TValPtr.slot 0 0, TValPtr.POISON] ∧
    ∃ n, ((IngestionPipeline.worker_step smallK okStorage)^[n] afterStopEarly).worker.phase
      = WorkerPhase.stopped :=
  ⟨by decide, by decide,
   ((worker_terminates.1 smallK (by decide) okStorage BackoffPolicy.AKU_LINEAR_BACKOFF
      afterStopEarly ⟨stopEarly, rfl⟩ (by decide) (by decide) (by decide)
      (fun q hq => by
        have hq2 : q < 2 := hq
        interval_cases q
        · exact ⟨[], by decide, by decide⟩
        · exact ⟨[TValPtr.slot 0 0], by decide, by decide⟩)).2.2
      (Or.inr (fun _ _ => rfl)) (by decide) (by decide)).imp (fun _ hn => hn.1)⟩

/-- C11 (`copy_entry_at` size negotiation).  For every page, index and
receiving buffer: the result is 0, and the buffer untouched, if the index is
out of the range `[0, count)`.  If the index is in range and `e` is the
entry stored there (the one `read_entry_at` shows), of a length that an
`int` can hold, then the result is minus the length of `e`, and the buffer
untouched, if the declared length of the buffer is smaller than that
length; otherwise the buffer holds `e` and the result is the length of `e`,
a positive number as the length counts the 20 bytes of the fixed part. -/
theorem copy_entry_at_negotiation (p : PageHeader) (index : Int) (receiver : Entry) :
    ((index < 0 ∨ (p.count : Int) ≤ index) →
      p.copy_entry_at index receiver = (0, receiver)) ∧
    (∀ e, p.read_entry_at index = some e → e.length < 2 ^ 31 →
      (receiver.length < e.length →
        p.copy_entry_at index receiver = (-(e.length : Int), receiver)) ∧
      (e.length ≤ receiver.length →
        p.copy_entry_at index receiver = ((e.length : Int), e) ∧
        (Entry.FIXED_PART ≤ e.length → 0 < (p.copy_entry_at index receiver).1))) := by
  constructor
  · intro h
    unfold PageHeader.copy_entry_at
    rw [if_neg (by omega)]
  · intro e hread hlen
    unfold PageHeader.read_entry_at at hread
    split at hread
    · rename_i hin
      unfold PageHeader.read_entry at hread
      split at hread
      · injection hread with hread
        have hw1 : wrap32 (-(e.length : Int)) = -(e.length : Int) :=
          wrap32_of_small _ (by omega) (by omega)
        have hw2 : wrap32 (e.length : Int) = (e.length : Int) :=
          wrap32_of_small _ (by omega) (by omega)
        constructor
        · intro hsmall
          simp only [PageHeader.copy_entry_at, if_pos hin, hread, if_pos hsmall, hw1]
        · intro hbig
          have hcopy : p.copy_entry_at index receiver = ((e.length : Int), e) := by
            simp only [PageHeader.copy_entry_at, if_pos hin, hread,
              if_neg (not_lt.mpr hbig), hw2]
          refine ⟨hcopy, fun h20 => ?_⟩
          rw [hcopy]
          simp only [Entry.FIXED_PART] at h20
          show (0 : Int) < (e.length : Int)
          omega
      · exact absurd hread (by simp)
    · exact absurd hread (by simp)

set_option maxRecDepth 100000 in
/-- The page `onePage` holds one entry of 24 bytes: a buffer of 10 bytes is
refused with -24, a buffer of 64 bytes receives the entry, and the indices 1
and -1 give 0. -/
theorem copy_entry_at_negotiation_witness :
    onePage.copy_entry_at 0 (bufferOf 10) = (-24, bufferOf 10) ∧
    (onePage.copy_entry_at 0 (bufferOf 64) = (24, entryOf 1 10 [1, 2, 3, 4]) ∧
      0 < (onePage.copy_entry_at 0 (bufferOf 64)).1) ∧
    onePage.copy_entry_at 1 (bufferOf 64) = (0, bufferOf 64) ∧
    onePage.copy_entry_at (-1) (bufferOf 64) = (0, bufferOf 64) :=
  ⟨((copy_entry_at_negotiation onePage 0 (bufferOf 10)).2 (entryOf 1 10 [1, 2, 3, 4])
      (by decide) (by decide)).1 (by decide),
   (((copy_entry_at_negotiation onePage 0 (bufferOf 64)).2 (entryOf 1 10 [1, 2, 3, 4])
      (by decide) (by decide)).2 (by decide)).imp id (fun h => h (by decide)),
   (copy_entry_at_negotiation onePage 1 (bufferOf 64)).1 (Or.inr (by decide)),
   (copy_entry_at_negotiation onePage (-1) (bufferOf 64)).1 (Or.inl (by decide))⟩

/-- C12 (`add_entry` capacity boundary).  On a page that satisfies the
invariants, `add_entry` succeeds when the stored size of the entry, its
length, plus the 4-byte index slot equals the free space `get_free_space`
reports; the entry that is one byte longer, and so the valid entry whose
payload is one byte larger, is refused with `Overflow` and the page is left
as it was; and after every successful `add_entry` the invariants hold again,
among them `last_offset ≥ sizeof(header) + 4·count`. -/
theorem add_entry_capacity (H : Nat) (p : PageHeader) (hinv : p.Invariant H) (e : Entry)
    (hfit : (e.length : Int) + 4 = p.get_free_space H) :
    (p.add_entry H e).1 = aku_Status.AKU_SUCCESS ∧
    (∀ e1 : Entry, e1.length = e.length + 1 →
      p.add_entry H e1 = (aku_Status.Overflow, p)) ∧
    (∀ e1 : Entry, e.Valid → e1.Valid → e1.value.length = e.value.length + 1 →
      p.add_entry H e1 = (aku_Status.Overflow, p)) ∧
    (∀ e0 : Entry, (p.add_entry H e0).1 = aku_Status.AKU_SUCCESS →
      (p.add_entry H e0).2.Invariant H ∧
      H + 4 * (p.add_entry H e0).2.count ≤ (p.add_entry H e0).2.last_offset) := by
  have hlong : ∀ e1 : Entry, e1.length = e.length + 1 →
      p.add_entry H e1 = (aku_Status.Overflow, p) := by
    intro e1 h1
    apply add_entry_overflow
    rw [h1, ← hfit]
    push_cast
    omega
  refine ⟨?_, hlong, ?_, ?_⟩
  · rw [(add_entry_status H p e).1, hfit]
  · intro e1 he he1 h1
    apply hlong
    rw [he.length_eq, he1.length_eq, h1]
    omega
  · intro e0 h0
    have := add_entry_invariant H p hinv e0 h0
    exact ⟨this, this.index_below⟩

set_option maxRecDepth 100000 in
/-- On an empty page of 100 bytes, with 28 bytes free: the entry with a
payload of four bytes, 24 bytes long, fits exactly, and the entry with a
payload of five bytes is refused; after the first the index and the entries
meet. -/
theorem add_entry_capacity_witness :
    (emptyPage 100).get_free_space headerSize = 28 ∧
    ((emptyPage 100).add_entry headerSize (entryOf 1 0 [1, 2, 3, 4])).1
      = aku_Status.AKU_SUCCESS ∧
    ((emptyPage 100).add_entry headerSize (entryOf 1 0 [1, 2, 3, 4, 5])).1
      = aku_Status.Overflow ∧
    ((emptyPage 100).add_entry headerSize (entryOf 1 0 [1, 2, 3, 4])).2.get_free_space
      headerSize = 0 :=
  ⟨by decide,
   (add_entry_capacity headerSize (emptyPage 100)
      ⟨by decide, by decide, by decide, by decide⟩
      (entryOf 1 0 [1, 2, 3, 4]) (by decide)).1,
   congrArg Prod.fst ((add_entry_capacity headerSize (emptyPage 100)
      ⟨by decide, by decide, by decide, by decide⟩
      (entryOf 1 0 [1, 2, 3, 4]) (by decide)).2.1 (entryOf 1 0 [1, 2, 3, 4, 5]) (by decide)),
   by decide⟩

/-- C13 (entry round trip), what the code does.  On a page that satisfies
the invariants a valid `Entry` that `add_entry` appends is read back by
`read_entry_at` with the identical `param_id`, `time` and payload bytes.  An
`Entry2` keeps its id in a `uint32_t`: what is read back after `add_entry`
has the id modulo `2^32`, which is not the id for any id `≥ 2^32`. -/
theorem entry_round_trip (H : Nat) (p : PageHeader) (hinv : p.Invariant H) :
    (∀ e : Entry, e.Valid → (p.add_entry H e).1 = aku_Status.AKU_SUCCESS →
      (p.add_entry H e).2.read_entry_at (p.count : Int) = some e) ∧
    (∀ (param_id : Nat) (time : Int) (range : List Nat),
      (entryOf (param_id % 2 ^ 32) time range).Valid →
      (p.add_entry2 H (Entry2.new param_id time range)).1 = aku_Status.AKU_SUCCESS →
      (p.add_entry2 H (Entry2.new param_id time range)).2.read_entry_at (p.count : Int)
        = some (entryOf (param_id % 2 ^ 32) time range)) ∧
    (∀ (param_id : Nat) (time : Int) (range : List Nat), 2 ^ 32 ≤ param_id →
      (Entry2.new param_id time range).param_id ≠ param_id ∧
      (entryOf (param_id % 2 ^ 32) time range).param_id ≠ param_id) := by
  refine ⟨fun e he h => read_entry_at_add_entry H p hinv e he h, ?_, ?_⟩
  · intro param_id time range hv hs
    have hlen : to_uint32 (Entry.FIXED_PART + range.length) = Entry.FIXED_PART + range.length := by
      have := hv.length_lt
      simp only [entryOf] at this
      unfold to_uint32
      exact Nat.mod_eq_of_lt (by omega)
    have e : ({ param_id := (Entry2.new param_id time range).param_id
                time := (Entry2.new param_id time range).time
                length := to_uint32 (Entry.FIXED_PART + (Entry2.new param_id time range).range.length)
                value := (Entry2.new param_id time range).range } : Entry)
        = entryOf (param_id % 2 ^ 32) time range := by
      simp only [Entry2.new, entryOf, hlen]
      rfl
    unfold PageHeader.add_entry2 at hs ⊢
    rw [e] at hs ⊢
    exact read_entry_at_add_entry H p hinv _ hv hs
  · intro param_id time range hge
    have hlt : param_id % 2 ^ 32 < 2 ^ 32 := Nat.mod_lt _ (by norm_num)
    constructor
    · simp only [Entry2.new, to_uint32]; omega
    · simp only [entryOf]; omega

set_option maxRecDepth 100000 in
/-- The id `2^32 + 1` appended through an `Entry2` is read back as 1. -/
theorem entry_round_trip_witness :
    widePage.read_entry_at 0 = some (entryOf 1 10 [1, 2, 3, 4]) ∧
    (Entry2.new 4294967297 10 [1, 2, 3, 4]).param_id = 1 ∧
    onePage.read_entry_at 0 = some (entryOf 1 10 [1, 2, 3, 4]) :=
  ⟨(entry_round_trip headerSize (emptyPage 200)
      ⟨by decide, by decide, by decide, by decide⟩).2.1 4294967297 10 [1, 2, 3, 4]
      ⟨by decide, by decide, by decide, by decide, by decide, by decide⟩ (by decide),
   by decide,
   (entry_round_trip headerSize (emptyPage 200)
      ⟨by decide, by decide, by decide, by decide⟩).1 (entryOf 1 10 [1, 2, 3, 4])
      ⟨by decide, by decide, by decide, by decide, by decide, by decide⟩ (by decide)⟩

/-- C14 (ordered search).  On a page whose index is fully sorted
(`sync_index = count`, the entries sorted by `(param_id, time)`) and whose
entries lie within the bounding box, for every series and time range
`[lo, hi]`: the forward search yields exactly the entries of the series with
a timestamp in `[lo, hi]`, in index order, which is the order of
non-decreasing timestamps; the backward search yields the same entries in
the reverse order, that of non-increasing timestamps; and every entry
yielded carries the series id of the query. -/
theorem ordered_search (p : PageHeader) (hsync : p.sync_index = p.count)
    (hsorted : p.Sorted) (hbox : p.Boxed) (lo hi : Int) (param : Nat) :
    p.search { lowerbound := lo, upperbound := hi, param := param,
               direction := ScanDirection.forward }
      = p.entries.filter (fun e => decide (e.param_id = param ∧ lo ≤ e.time ∧ e.time ≤ hi)) ∧
    (p.search { lowerbound := lo, upperbound := hi, param := param,
                direction := ScanDirection.forward }).Pairwise
      (fun a b => a.time ≤ b.time) ∧
    p.search { lowerbound := lo, upperbound := hi, param := param,
               direction := ScanDirection.backward }
      = (p.entries.filter
          (fun e => decide (e.param_id = param ∧ lo ≤ e.time ∧ e.time ≤ hi))).reverse ∧
    (p.search { lowerbound := lo, upperbound := hi, param := param,
                direction := ScanDirection.backward }).Pairwise
      (fun a b => b.time ≤ a.time) ∧
    (∀ e, e ∈ p.search { lowerbound := lo, upperbound := hi, param := param,
                         direction := ScanDirection.forward } → e.param_id = param) ∧
    (∀ e, e ∈ p.search { lowerbound := lo, upperbound := hi, param := param,
                         direction := ScanDirection.backward } → e.param_id = param) := by
  have hf := search_forward p hsync hsorted hbox
    { lowerbound := lo, upperbound := hi, param := param,
      direction := ScanDirection.forward } rfl
  have hb := search_backward p hsync hsorted hbox
    { lowerbound := lo, upperbound := hi, param := param,
      direction := ScanDirection.backward } rfl
  have hm : ∀ d : ScanDirection,
      SingleParameterSearchQuery.matches
        { lowerbound := lo, upperbound := hi, param := param, direction := d }
      = fun e => decide (e.param_id = param ∧ lo ≤ e.time ∧ e.time ≤ hi) := by
    intro d; rfl
  rw [hm] at hf hb
  have hpar : ∀ e, e ∈ p.entries.filter
      (fun e => decide (e.param_id = param ∧ lo ≤ e.time ∧ e.time ≤ hi)) →
      e.param_id = param := by
    intro e he
    have := (List.mem_filter.mp he).2
    simp only [decide_eq_true_eq] at this
    exact this.1
  have hord : (p.entries.filter
      (fun e => decide (e.param_id = param ∧ lo ≤ e.time ∧ e.time ≤ hi))).Pairwise
      (fun a b => a.time ≤ b.time) := by
    have h1 : (p.entries.filter
        (fun e => decide (e.param_id = param ∧ lo ≤ e.time ∧ e.time ≤ hi))).Pairwise
        Entry.key_le := List.Pairwise.sublist (List.filter_sublist _) hsorted
    refine List.Pairwise.imp_of_mem ?_ h1
    intro a b ha hb hab
    have ea := hpar a ha
    have eb := hpar b hb
    unfold Entry.key_le at hab
    omega
  refine ⟨hf, ?_, hb, ?_, ?_, ?_⟩
  · rw [hf]; exact hord
  · rw [hb]; exact List.pairwise_reverse.mpr hord
  · rw [hf]; exact hpar
  · rw [hb]; intro e he; exact hpar e (List.mem_reverse.mp he)

set_option maxRecDepth 100000 in
/-- The page `sortedPage`: the search for series 1 in `[10, 20]` yields the
entries at 10 and 20 forward and at 20 and 10 backward. -/
theorem ordered_search_witness :
    sortedPage.entries
      = [entryOf 1 10 [9, 9, 9, 9], entryOf 1 20 [8, 8, 8, 8], entryOf 2 5 [7, 7, 7, 7]] ∧
    sortedPage.search { lowerbound := 10, upperbound := 20, param := 1,
                        direction := ScanDirection.forward }
      = [entryOf 1 10 [9, 9, 9, 9], entryOf 1 20 [8, 8, 8, 8]] ∧
    sortedPage.search { lowerbound := 10, upperbound := 20, param := 1,
                        direction := ScanDirection.backward }
      = [entryOf 1 20 [8, 8, 8, 8], entryOf 1 10 [9, 9, 9, 9]] ∧
    (sortedPage.search { lowerbound := 10, upperbound := 20, param := 1,
                         direction := ScanDirection.forward }).Pairwise
      (fun a b => a.time ≤ b.time) :=
  ⟨by decide, by decide, by decide,
   (ordered_search sortedPage (by decide) (by unfold PageHeader.Sorted; decide)
      (by unfold PageHeader.Boxed; decide) 10 20 1).2.1⟩

/-- C15 (offset width).  `AKU_MAX_PAGE_SIZE` is `2^32` and
`AKU_MAX_PAGE_OFFSET` is `AKU_MAX_PAGE_SIZE - 1 = 2^32 - 1`; both fit the
`int64_t` they are declared as; and on a page of at most `AKU_MAX_PAGE_SIZE`
bytes every byte offset inside the page is at most `AKU_MAX_PAGE_OFFSET` and
is kept as it is by a store into a 32-bit offset field. -/
theorem offset_width :
    AKU_MAX_PAGE_SIZE = 2 ^ 32 ∧
    AKU_MAX_PAGE_OFFSET = AKU_MAX_PAGE_SIZE - 1 ∧
    AKU_MAX_PAGE_OFFSET = 2 ^ 32 - 1 ∧
    AKU_MAX_PAGE_SIZE < 2 ^ 63 ∧
    ∀ p : PageHeader, (p.length : Int) ≤ AKU_MAX_PAGE_SIZE →
      ∀ offset : Nat, offset < p.length →
        (offset : Int) ≤ AKU_MAX_PAGE_OFFSET ∧ to_uint32 offset = offset := by
  refine ⟨by decide, by decide, by decide, by decide, ?_⟩
  intro p hp offset ho
  unfold AKU_MAX_PAGE_SIZE at hp
  unfold AKU_MAX_PAGE_OFFSET to_uint32
  constructor
  · omega
  · apply Nat.mod_eq_of_lt; omega

/-- On a page of the largest size the last byte has offset `2^32 - 1`, which
a 32-bit field holds. -/
theorem offset_width_witness :
    (4294967295 : Int) ≤ AKU_MAX_PAGE_OFFSET ∧ to_uint32 4294967295 = 4294967295 :=
  offset_width.2.2.2.2 (emptyPage 4294967296) (by decide) 4294967295 (by decide)

/-- C17 (slot acquisition).  For every spout state, with the difference
`created_ - deleted_` taken as the code takes it, in unsigned 64-bit
arithmetic: when it is below `POOL_SIZE`, `get_index_of_empty_slot` returns
`created_ mod POOL_SIZE` and increments `created_` by exactly 1; otherwise it
returns -1 and leaves `created_` unchanged; in both cases `deleted_`, the pool
and every other field are unchanged.  Whenever `deleted_ ≤ created_`, the
unsigned difference is the ordinary one. -/
theorem slot_acquisition (K : Constants) (sp : PipelineSpout) :
    (usub64 sp.created_ sp.deleted_ < K.POOL_SIZE →
      (sp.get_index_of_empty_slot K).1 = ((sp.created_ % K.POOL_SIZE : Nat) : Int) ∧
      (sp.get_index_of_empty_slot K).2.created_ = sp.created_ + 1 ∧
      (sp.get_index_of_empty_slot K).2 = { sp with created_ := sp.created_ + 1 }) ∧
    (¬ usub64 sp.created_ sp.deleted_ < K.POOL_SIZE →
      (sp.get_index_of_empty_slot K).1 = -1 ∧
      (sp.get_index_of_empty_slot K).2.created_ = sp.created_ ∧
      (sp.get_index_of_empty_slot K).2 = sp) ∧
    (sp.get_index_of_empty_slot K).2.deleted_ = sp.deleted_ ∧
    (sp.get_index_of_empty_slot K).2.pool_ = sp.pool_ ∧
    (sp.deleted_ ≤ sp.created_ → sp.created_ - sp.deleted_ < 2 ^ 64 →
      usub64 sp.created_ sp.deleted_ = sp.created_ - sp.deleted_) := by
  refine ⟨?_, ?_, ?_, ?_, fun h1 h2 => usub64_eq h1 h2⟩
  · intro h
    simp only [PipelineSpout.get_index_of_empty_slot, if_pos h, and_self]
  · intro h
    simp only [PipelineSpout.get_index_of_empty_slot, if_neg h, and_self]
  · simp only [PipelineSpout.get_index_of_empty_slot]
    split <;> rfl
  · simp only [PipelineSpout.get_index_of_empty_slot]
    split <;> rfl

/-- A pool of two slots: on a fresh spout the call returns slot 0 and counts
it; after the run `threeWrites`, with both slots in use, it returns -1. -/
theorem slot_acquisition_witness :
    (((PipelineSpout.new 0 BackoffPolicy.AKU_THROTTLE).get_index_of_empty_slot smallK).1 = 0 ∧
     ((PipelineSpout.new 0 BackoffPolicy.AKU_THROTTLE).get_index_of_empty_slot smallK).2.created_
       = 1) ∧
    (afterThreeWrites.spouts 0).created_ = 2 ∧ (afterThreeWrites.spouts 0).deleted_ = 0 ∧
    ((afterThreeWrites.spouts 0).get_index_of_empty_slot smallK).1 = -1 ∧
    ((afterThreeWrites.spouts 0).get_index_of_empty_slot smallK).2.created_ = 2 :=
  ⟨⟨((slot_acquisition smallK (PipelineSpout.new 0 BackoffPolicy.AKU_THROTTLE)).1
      (by decide)).1,
    ((slot_acquisition smallK (PipelineSpout.new 0 BackoffPolicy.AKU_THROTTLE)).1
      (by decide)).2.1⟩,
   by decide, by decide,
   ((slot_acquisition smallK (afterThreeWrites.spouts 0)).2.1 (by decide)).1,
   by decide⟩

/-- C18 (round-robin polling), what the code does.  As long as `i < 2^31`
the counter equals `i` and the queue polled in iteration `i` is
`queues[i mod N_QUEUES]`.  With eight queues the claim fails at iteration
`i = 2^31 + 1`: the 32-bit counter has wrapped to `-2147483647`, the C++
remainder `ix % N_QUEUES` is `-7`, and the bounds-checked lookup throws.  On a
pipeline that is left alone the worker is still polling after `2^31 + 1`
steps, with that counter, and has left its loop by the exception after every
larger number of steps. -/
theorem round_robin_overflow :
    (∀ K : Constants, K.WellFormed → ∀ i : Nat, i < 2 ^ 31 →
      queues_at K (polled_index K i) = some (i % K.N_QUEUES)) ∧
    loop_counter (2 ^ 31 + 1) = -2147483647 ∧
    polled_index eightQueues (2 ^ 31 + 1) = -7 ∧
    queues_at eightQueues (polled_index eightQueues (2 ^ 31 + 1)) = none ∧
    ∀ (con : DbConnection) (bp : BackoffPolicy),
      ((IngestionPipeline.worker_step eightQueues con)^[2 ^ 31 + 1]
        (IngestionPipeline.new bp)).worker.phase = WorkerPhase.poll ∧
      ((IngestionPipeline.worker_step eightQueues con)^[2 ^ 31 + 1]
        (IngestionPipeline.new bp)).worker.ix = -2147483647 ∧
      ∀ n, 2 ^ 31 + 2 ≤ n → ((IngestionPipeline.worker_step eightQueues con)^[n]
        (IngestionPipeline.new bp)).worker.phase = WorkerPhase.crashed := by
  have hc : loop_counter (2 ^ 31 + 1) = -2147483647 := by
    rw [loop_counter_eq]; decide
  have hp : polled_index eightQueues (2 ^ 31 + 1) = -7 := by
    unfold polled_index; rw [hc]; decide
  refine ⟨?_, hc, hp, ?_, ?_⟩
  · intro K hK i hi
    unfold polled_index
    rw [loop_counter_small i hi, queues_at_tmod K hK.1 _ (by omega)]
    simp
  · rw [hp]; decide
  · intro con bp
    obtain ⟨h1, h2, h3⟩ := idle_worker con bp (2 ^ 31 + 1) (le_refl _)
    refine ⟨h1, by rw [h3, hc], ?_⟩
    intro n hn
    obtain ⟨m, rfl⟩ : ∃ m, n = m + (2 ^ 31 + 1 + 1) := ⟨n - (2 ^ 31 + 2), by omega⟩
    rw [Function.iterate_add_apply, Function.iterate_succ_apply']
    have hcr : (IngestionPipeline.worker_step eightQueues con
        ((IngestionPipeline.worker_step eightQueues con)^[2 ^ 31 + 1]
          (IngestionPipeline.new bp))).worker.phase = WorkerPhase.crashed := by
      apply (worker_step_idle eightQueues con _ h1 h2).1
      rw [h3]
      have := hp
      unfold polled_index at this
      rw [this]; decide
    rw [worker_iterate_crashed eightQueues con _ hcr m]
    exact hcr

/-- C19 (unregistered callback), what the code does.  In a reachable state
in which the storage has refused the sample of a slot of spout `s` and no
callback was ever registered on `s`, the next step of the worker increments
the release counter of `s` and then calls the empty callback: the worker
leaves its loop by the exception and no later step of it does anything. -/
theorem unregistered_callback (K : Constants) (hK : K.WellFormed) (con : DbConnection)
    (bp : BackoffPolicy) (st : IngestionPipeline) (h : Reachable K con bp st)
    (s i : Nat) (error : aku_Status)
    (hph : st.worker.phase = WorkerPhase.written (TValPtr.slot s i) error)
    (herr : error ≠ aku_Status.AKU_SUCCESS) (hcb : (st.spouts s).on_error_ = none) :
    ((st.worker_step K con).spouts s).deleted_ = (st.spouts s).deleted_ + 1 ∧
    (st.worker_step K con).worker.phase = WorkerPhase.crashed ∧
    (st.worker_step K con).on_error_calls = st.on_error_calls ∧
    ∀ n, (IngestionPipeline.worker_step K con)^[n] (st.worker_step K con)
      = st.worker_step K con := by
  have hI := Inv_of_reachable K hK con bp st h
  have hheld : st.worker.held = [TValPtr.slot s i] := by simp [Worker.held, hph]
  obtain ⟨s1, i1, hval, hs⟩ := hI.held (TValPtr.slot s i) (by simp [hheld])
  injection hval with e1 e2
  subst e1 e2
  have hsp := hI.spout s hs
  have hfl : st.flight s = TValPtr.slot s i ::
      (st.queues_ (st.spouts s).queue_).filter (TValPtr.ofSpout s) := by
    simp [IngestionPipeline.flight, hheld, TValPtr.ofSpout]
  obtain ⟨-, h2, -, -, h5, h6⟩ := SpoutInv_head hsp hfl
  injection h2 with _ h2
  rw [← h2] at h5 h6
  have hstep : ((st.worker_step K con).spouts s).deleted_ = (st.spouts s).deleted_ + 1 ∧
      (st.worker_step K con).worker.phase = WorkerPhase.crashed ∧
      (st.worker_step K con).on_error_calls = st.on_error_calls := by
    simp [IngestionPipeline.worker_step, hph, IngestionPipeline.deref, h5, h6, herr, hcb]
  exact ⟨hstep.1, hstep.2.1, hstep.2.2,
    worker_iterate_crashed K con _ hstep.2.1⟩

set_option maxRecDepth 100000 in
/-- The run `unregistered`: the storage refuses `sampleA`; the worker
releases the slot and dies, and `sampleB` stays in the queue. -/
theorem unregistered_callback_witness :
    (afterUnregistered.spouts 0).on_error_ = none ∧
    afterUnregistered.queues_ 1 = [TValPtr.slot 0 1] ∧
    ((afterUnregistered.worker_step smallK failingStorage).spouts 0).deleted_ = 1 ∧
    (afterUnregistered.worker_step smallK failingStorage).worker.phase = WorkerPhase.crashed ∧
    (afterUnregistered.worker_step smallK failingStorage).queues_ 1 = [TValPtr.slot 0 1] ∧
    (afterUnregistered.worker_step smallK failingStorage).written
      = [(TValPtr.slot 0 0, sampleA)] ∧
    ∀ n, (IngestionPipeline.worker_step smallK failingStorage)^[n]
        (afterUnregistered.worker_step smallK failingStorage)
      = afterUnregistered.worker_step smallK failingStorage :=
  ⟨by decide, by decide, by decide, by decide, by decide, by decide,
   (unregistered_callback smallK (by decide) failingStorage BackoffPolicy.AKU_LINEAR_BACKOFF
      afterUnregistered ⟨unregistered, rfl⟩ 0 0 aku_Status.IoError (by decide) (by decide)
      (by decide)).2.2.2⟩

/-- C20 (idle policy), what the code does.  (a) After every schedule
`idle_count` is the number of consecutive empty pops since the last
successful pop wrapped to the 32 bits of an `int`; it equals that number as
long as the number is below `2^31`.  (b) A poll that finds its queue empty
increments `idle_count` and sleeps (once) if and only if the incremented
`idle_count` is greater than 65536 and divisible by `N_QUEUES`; a poll whose
pop succeeds sets `idle_count` to 0 and does not sleep.  (c) No other step of
the worker changes `idle_count` or sleeps.  (d) The first part of the claim
fails on a pipeline of eight queues that is left alone: after `2^31` polls
the worker is still polling, the number of consecutive empty pops is `2^31`,
and `idle_count` is `-2147483648`; the poll that brought the number to
`2^31`, which is greater than 65536 and divisible by 8, did not sleep. -/
theorem idle_policy :
    (∀ (K : Constants) (con : DbConnection) (bp : BackoffPolicy),
      (∀ evs : List Event,
        ((IngestionPipeline.new bp).run K con evs).worker.idle_count
          = wrap32 (((IngestionPipeline.new bp).empty_pops K con 0 evs : Nat) : Int) ∧
        ((IngestionPipeline.new bp).empty_pops K con 0 evs < 2 ^ 31 →
          ((IngestionPipeline.new bp).run K con evs).worker.idle_count
            = (((IngestionPipeline.new bp).empty_pops K con 0 evs : Nat) : Int))) ∧
      (∀ (st : IngestionPipeline) (q : Nat), st.worker.phase = WorkerPhase.poll →
        queues_at K (Int.tmod st.worker.ix (K.N_QUEUES : Int)) = some q →
        (st.queues_ q = [] →
          (st.worker_step K con).worker.idle_count = wrap32 (st.worker.idle_count + 1) ∧
          ((65536 < (st.worker_step K con).worker.idle_count ∧
              (K.N_QUEUES : Int) ∣ (st.worker_step K con).worker.idle_count) →
            (st.worker_step K con).worker.sleeps = st.worker.sleeps + 1) ∧
          (¬ (65536 < (st.worker_step K con).worker.idle_count ∧
              (K.N_QUEUES : Int) ∣ (st.worker_step K con).worker.idle_count) →
            (st.worker_step K con).worker.sleeps = st.worker.sleeps)) ∧
        (st.queues_ q ≠ [] →
          (st.worker_step K con).worker.idle_count = 0 ∧
          (st.worker_step K con).worker.sleeps = st.worker.sleeps)) ∧
      (∀ st : IngestionPipeline,
        (st.worker.phase ≠ WorkerPhase.poll ∨
          queues_at K (Int.tmod st.worker.ix (K.N_QUEUES : Int)) = none) →
        (st.worker_step K con).worker.idle_count = st.worker.idle_count ∧
        (st.worker_step K con).worker.sleeps = st.worker.sleeps)) ∧
    (∀ (con : DbConnection) (bp : BackoffPolicy),
      ((IngestionPipeline.new bp).run eightQueues con
        (List.replicate (2 ^ 31) Event.worker)).worker.phase = WorkerPhase.poll ∧
      (IngestionPipeline.new bp).empty_pops eightQueues con 0
        (List.replicate (2 ^ 31) Event.worker) = 2 ^ 31 ∧
      ((IngestionPipeline.new bp).run eightQueues con
        (List.replicate (2 ^ 31) Event.worker)).worker.idle_count = -2147483648 ∧
      ((65536 : Int) < 2 ^ 31 ∧ (eightQueues.N_QUEUES : Int) ∣ 2 ^ 31) ∧
      ((IngestionPipeline.new bp).run eightQueues con
        (List.replicate (2 ^ 31) Event.worker)).worker.sleeps
        = ((IngestionPipeline.new bp).run eightQueues con
            (List.replicate (2 ^ 31 - 1) Event.worker)).worker.sleeps) := by
  constructor
  · intro K con bp
    refine ⟨?_, ?_, ?_⟩
    · intro evs
      have h0 := run_idle_count K con evs (IngestionPipeline.new bp) 0
        (show (0 : Int) = wrap32 ((0 : Nat) : Int) by decide)
      refine ⟨h0, fun hlt => ?_⟩
      rw [h0]
      apply wrap32_of_small <;> omega
    · intro st q hph hq
      constructor
      · intro hl
        simp only [IngestionPipeline.worker_step, hph, hq, hl, Bool.and_eq_true,
          decide_eq_true_eq, tmod_eq_zero_iff_dvd]
        refine ⟨trivial, ?_, ?_⟩
        · intro hc
          rw [if_pos hc]
        · intro hc
          rw [if_neg hc]
      · intro hl
        obtain ⟨val, rest, e⟩ := List.exists_cons_of_ne_nil hl
        simp only [IngestionPipeline.worker_step, hph, hq, e]
        repeat' split
        all_goals exact ⟨rfl, rfl⟩
    · intro st hc
      cases hph : st.worker.phase with
      | stopped => simp only [IngestionPipeline.worker_step, hph, and_self]
      | crashed => simp only [IngestionPipeline.worker_step, hph, and_self]
      | popped val => simp only [IngestionPipeline.worker_step, hph, and_self]
      | written val error =>
        simp only [IngestionPipeline.worker_step, hph]
        repeat' split
        all_goals exact ⟨rfl, rfl⟩
      | poll =>
        rcases hc with hc | hc
        · exact absurd hph hc
        · simp only [IngestionPipeline.worker_step, hph, hc, and_self]
  · intro con bp
    have hc : loop_counter (2 ^ 31) = -2147483648 := by
      rw [loop_counter_eq]; decide
    rw [run_replicate_worker, run_replicate_worker]
    refine ⟨(idle_worker con bp (2 ^ 31) (by omega)).1, ?_, ?_, ⟨by norm_num, by decide⟩, ?_⟩
    · have h := empty_pops_idle con bp (2 ^ 31) 0 0 (by omega)
      simp only [Function.iterate_zero, id_eq, Nat.zero_add] at h
      exact h
    · rw [idle_worker_count con bp (2 ^ 31) (by omega), hc]
    · have h := idle_worker_sleeps con bp (2 ^ 31 - 1) (by omega)
      rw [show (2 : Nat) ^ 31 - 1 + 1 = 2 ^ 31 from by norm_num, hc] at h
      rw [h, if_neg (by omega)]

set_option maxRecDepth 100000 in
/-- Three polls of empty queues give `idle_count = 3`; with eight queues the
worker sleeps on the empty pop that brings `idle_count` to 65544, not on the
one that brings it to 65536 and not on the one that brings it to 65545; after
`2^31` polls of empty queues `idle_count` is `-2147483648`. -/
theorem idle_policy_witness :
    ((IngestionPipeline.new BackoffPolicy.AKU_LINEAR_BACKOFF).run smallK okStorage
      [Event.worker, Event.worker, Event.worker]).worker.idle_count = 3 ∧
    ((idleFor 65543).worker_step eightQueues okStorage).worker.sleeps = 1 ∧
    ((idleFor 65535).worker_step eightQueues okStorage).worker.idle_count = 65536 ∧
    ((idleFor 65535).worker_step eightQueues okStorage).worker.sleeps = 0 ∧
    ((idleFor 65544).worker_step eightQueues okStorage).worker.sleeps = 0 ∧
    ((IngestionPipeline.new BackoffPolicy.AKU_LINEAR_BACKOFF).run eightQueues okStorage
      (List.replicate (2 ^ 31) Event.worker)).worker.idle_count = -2147483648 :=
  ⟨((idle_policy.1 smallK okStorage BackoffPolicy.AKU_LINEAR_BACKOFF).1
      [Event.worker, Event.worker, Event.worker]).2 (by decide),
   ((((idle_policy.1 eightQueues okStorage BackoffPolicy.AKU_LINEAR_BACKOFF).2.1
      (idleFor 65543) 7 (by decide) (by decide)).1 (by decide)).2.1 (by decide)),
   by decide,
   ((((idle_policy.1 eightQueues okStorage BackoffPolicy.AKU_LINEAR_BACKOFF).2.1
      (idleFor 65535) 7 (by decide) (by decide)).1 (by decide)).2.2 (by decide)),
   ((((idle_policy.1 eightQueues okStorage BackoffPolicy.AKU_LINEAR_BACKOFF).2.1
      (idleFor 65544) 0 (by decide) (by decide)).1 (by decide)).2.2 (by decide)),
   (idle_policy.2 okStorage BackoffPolicy.AKU_LINEAR_BACKOFF).2.2.1⟩

end Akumuli
